import Mathlib

/-!
XPS generator: path data, colours, matrices, fonts and the two visitors of a page.

A shallow embedding of the XPS generator (generators/xps/generator_xps.cpp): the colour
decoder hexToRgba with hex2int, the matrix reader attsToMatrix, the abbreviated path-data
tokenizer and interpreter (nextAbbPathToken, getPointFromString,
parseAbbreviatedPathData), the GUID reader parseGUID, the font loading and caching of
XpsFile (loadFontByName, getFontByName), the render visitor XpsHandler with its stack of
XpsRenderNode and its painter, and the text-extraction visitor
XpsTextExtractionHandler.

Conventions of the embedding.

* A QString is the list of its characters, one Char per QChar.
* A double (qreal) is the exact rational it stands for; rounding is not part of the model.
* The character tables of the toolkit are fixed on the ASCII range, where they are
  common knowledge, and left as a parameter (QCharTables) above it.
* Loops that the source writes as while loops carry a fuel argument and answer
  none when the fuel runs out.
* The font database and the archive are services passed as arguments, and the font
  database is threaded as state through the calls that change it.
* The painter is its state, the states saved, and the list of the drawing calls it has
  received; the text page is the list of the calls of append it has received.
* The visitors are run on lists of start and end events. A call that the source leaves
  undefined (a data pointer read as the wrong type, an index outside a list, a pop or a
  top of an empty stack) has no result, and a run has a result only when every call has.
-/

namespace Xps

/-! ## Characters and strings -/

/-- A QString, as the list of its characters. -/
abbrev QString := List Char

/-- The classes of characters that the tokenizer tells apart. -/
inductive CharClass where
  | space
  | number
  | letter
  | other
  deriving DecidableEq, Repr

/-- Character data of the toolkit for the characters above the ASCII range: the class of a
character, whether it is a lowercase letter, and its lowercase form. -/
structure QCharTables where
  cls : Char → CharClass
  lower : Char → Bool
  toLower : Char → Char

/-- The tables that put every character above the ASCII range in no class. -/
def QCharTables.plain : QCharTables := ⟨fun _ => CharClass.other, fun _ => false, fun c => c⟩

/-- The class of an ASCII character: 9 to 13 and 32 are spaces, the decimal digits are
numbers, the 52 unaccented letters are letters. -/
def asciiClass (c : Char) : CharClass :=
  if c.toNat = 32 ∨ (9 ≤ c.toNat ∧ c.toNat ≤ 13) then CharClass.space
  else if 48 ≤ c.toNat ∧ c.toNat ≤ 57 then CharClass.number
  else if (65 ≤ c.toNat ∧ c.toNat ≤ 90) ∨ (97 ≤ c.toNat ∧ c.toNat ≤ 122) then CharClass.letter
  else CharClass.other

/-- The class of a character. -/
def charClass (U : QCharTables) (c : Char) : CharClass :=
  if c.toNat < 128 then asciiClass c else U.cls c

/-- QChar::isSpace. -/
def isSpace (U : QCharTables) (c : Char) : Bool := charClass U c == CharClass.space

/-- QChar::isNumber. -/
def isNumber (U : QCharTables) (c : Char) : Bool := charClass U c == CharClass.number

/-- QChar::isLetter. -/
def isLetter (U : QCharTables) (c : Char) : Bool := charClass U c == CharClass.letter

/-- QChar::isLower. -/
def isLower (U : QCharTables) (c : Char) : Bool :=
  if c.toNat < 128 then decide (97 ≤ c.toNat ∧ c.toNat ≤ 122) else U.lower c

/-- QChar::toLower. -/
def toLower (U : QCharTables) (c : Char) : Char :=
  if c.toNat < 128 then (if 65 ≤ c.toNat ∧ c.toNat ≤ 90 then Char.ofNat (c.toNat + 32) else c)
  else U.toLower c

/-- QChar::cell, the low byte of the character code. -/
def cell (c : Char) : Char := Char.ofNat (c.toNat % 256)

/-- QString::split with a character separator, empty parts kept. -/
def split (sep : Char) : QString → List QString
  | [] => [[]]
  | c :: cs =>
    if c = sep then [] :: split sep cs
    else
      match split sep cs with
      | [] => [[c]]
      | f :: fs => (c :: f) :: fs

/-- QString::mid. -/
def mid (s : QString) (start n : Nat) : QString := (s.drop start).take n

/-! ## Reading a number -/

/-- The value of a run of decimal digits. -/
def digitsValue (ds : List Char) : Nat := ds.foldl (fun acc d => acc * 10 + (d.toNat - 48)) 0

/-- Splits an optional sign off the front. The flag is true for a minus sign. -/
def readSign : List Char → Bool × List Char
  | '-' :: r => (true, r)
  | '+' :: r => (false, r)
  | s => (false, s)

/-- The exponent part of a decimal literal: nothing, or e or E, an optional sign and at
least one digit up to the end of the text. -/
def readExponent : List Char → Option Int
  | [] => some 0
  | c :: r =>
    if c = 'e' ∨ c = 'E' then
      let sr := readSign r
      if sr.2 ≠ [] ∧ sr.2.all Char.isDigit then
        some (if sr.1 then - (digitsValue sr.2 : Int) else (digitsValue sr.2 : Int))
      else none
    else none

/-- The fraction part of a decimal literal, when there is one: the digits after the point,
and the text left after them. -/
def readFraction : List Char → List Char × List Char
  | '.' :: r => (r.takeWhile Char.isDigit, r.dropWhile Char.isDigit)
  | s => ([], s)

/-- A decimal literal: optional sign, digits with an optional point among them (at least one
digit in all), and an optional exponent. -/
def readDecimal (s : List Char) : Option ℚ :=
  let sr := readSign s
  let ip := sr.2.takeWhile Char.isDigit
  let fr := readFraction (sr.2.dropWhile Char.isDigit)
  if ip = [] ∧ fr.1 = [] then none
  else
    match readExponent fr.2 with
    | none => none
    | some e =>
      let m : ℚ := (digitsValue (ip ++ fr.1) : ℚ) * (10 : ℚ) ^ (e - (fr.1.length : Int))
      some (if sr.1 then - m else m)

/-- The characters a decimal literal is written with. -/
def isLiteralChar (c : Char) : Bool :=
  c.isDigit || c == '+' || c == '-' || c == '.' || c == 'e' || c == 'E'

/-- The text without the spaces at its two ends. -/
def trimmed (U : QCharTables) (s : QString) : QString :=
  ((s.dropWhile (isSpace U)).reverse.dropWhile (isSpace U)).reverse

/-- QString::toDouble on finite decimal literals: the literal may stand between spaces, and a
text that is no literal reads as 0, the value the toolkit returns when the conversion
fails. -/
def toDouble (U : QCharTables) (s : QString) : ℚ :=
  match readDecimal (trimmed U s) with
  | some q => q
  | none => 0

/-! ## Matrices -/

/-- A QMatrix, by its six coefficients. -/
structure QMatrix where
  m11 : ℚ
  m12 : ℚ
  m21 : ℚ
  m22 : ℚ
  dx : ℚ
  dy : ℚ
  deriving DecidableEq

/-- The default-constructed QMatrix, the identity. -/
def QMatrix.identity : QMatrix := ⟨1, 0, 0, 1, 0, 0⟩

/-- XpsHandler::attsToMatrix. -/
def attsToMatrix (U : QCharTables) (csv : QString) : QMatrix :=
  let values := split ',' csv
  if values.length ≠ 6 then QMatrix.identity
  else
    ⟨toDouble U (values.getD 0 []), toDouble U (values.getD 1 []),
      toDouble U (values.getD 2 []), toDouble U (values.getD 3 []),
      toDouble U (values.getD 4 []), toDouble U (values.getD 5 [])⟩

/-! ## Colours -/

/-- A QColor: invalid, or the four channels of a valid colour. -/
inductive QColor where
  | invalid
  | rgba (r g b a : Int)
  deriving DecidableEq, Repr

/-- The conversion of an int to unsigned int. -/
def toUInt (n : Int) : Int := n % 4294967296

/-- The constructor QColor(r, g, b, a): the toolkit invalidates the colour when a channel is
outside 0..255. -/
def QColor.fromRgba (r g b a : Int) : QColor :=
  if toUInt r > 255 ∨ toUInt g > 255 ∨ toUInt b > 255 ∨ toUInt a > 255 then QColor.invalid
  else QColor.rgba r g b a

/-- The function hex2int. -/
def hex2int (hex : Char) : Int :=
  if hex.isDigit then (hex.toNat : Int) - 48
  else if 'A' ≤ hex ∧ hex ≤ 'F' then (cell hex).toNat - 65 + 10
  else if 'a' ≤ hex ∧ hex ≤ 'f' then (cell hex).toNat - 97 + 10
  else -1

/-- The characters of a C string: those before the first NUL. -/
def cstr (bytes : List Char) : List Char := bytes.takeWhile (fun c => c ≠ Char.ofNat 0)

/-- The character at an index of a C string, the terminating NUL at its end. -/
def charAt (s : List Char) (i : Nat) : Char := s.getD i (Char.ofNat 0)

/-- One byte from two hex digits, as the source computes it: the first shifted left by
four bits plus the second. -/
def hexPair (s : List Char) (i : Nat) : Int :=
  hex2int (charAt s i) * 16 + hex2int (charAt s (i + 1))

/-- The function hexToRgba, on the bytes of its argument. -/
def hexToRgba (bytes : List Char) : QColor :=
  let s := cstr bytes
  if charAt s 0 ≠ '#' then QColor.invalid
  else
    let name := s.drop 1
    let len := name.length
    let rgba : Int × Int × Int × Int :=
      if len = 6 then (hexPair name 0, hexPair name 2, hexPair name 4, 255)
      else if len = 8 then (hexPair name 2, hexPair name 4, hexPair name 6, hexPair name 0)
      else (-1, -1, -1, 255)
    if toUInt rgba.1 > 255 ∨ toUInt rgba.2.1 > 255 ∨ toUInt rgba.2.2.1 > 255 then QColor.invalid
    else QColor.fromRgba rgba.1 rgba.2.1 rgba.2.2.1 rgba.2.2.2

/-- The text of a list of fields with a comma between neighbours. -/
def joinComma : List QString → QString
  | [] => []
  | [f] => f
  | f :: g :: fs => f ++ ',' :: joinComma (g :: fs)

/-- The six coefficients of a matrix, in the order of the constructor. -/
def QMatrix.coefficients (m : QMatrix) : List ℚ := [m.m11, m.m12, m.m21, m.m22, m.dx, m.dy]

/-- The sixteen hex digits, both cases of the letters. -/
def isHexDigit (c : Char) : Bool := c ∈ "0123456789abcdefABCDEF".toList

/-- The value of a hex digit, read off the digit table. -/
def hexDigitValue (c : Char) : Int :=
  if c.isDigit then "0123456789".toList.indexOf c
  else if c.isUpper then 10 + "ABCDEF".toList.indexOf c
  else 10 + "abcdef".toList.indexOf c

/-! ## Paths -/

/-- A QPointF. -/
structure QPointF where
  x : ℚ
  y : ℚ
  deriving DecidableEq

/-- The sum of two points, coordinate by coordinate. -/
instance : Add QPointF := ⟨fun p q => ⟨p.x + q.x, p.y + q.y⟩⟩

/-- Qt::FillRule. -/
inductive FillRule where
  | oddEvenFill
  | windingFill
  deriving DecidableEq, Repr

/-- A construction call made on a QPainterPath. -/
inductive PathCall where
  | moveTo (p : QPointF)
  | lineTo (p : QPointF)
  | cubicTo (c1 c2 e : QPointF)
  | quadTo (c e : QPointF)
  | closeSubpath
  deriving DecidableEq

/-- A QPainterPath, as its fill rule and the construction calls it has received, oldest
first. -/
structure QPainterPath where
  fillRule : FillRule
  calls : List PathCall
  deriving DecidableEq

/-- The default-constructed path: no call yet, odd-even fill. -/
def QPainterPath.empty : QPainterPath := ⟨FillRule.oddEvenFill, []⟩

/-- The start of the subpath in progress, from the calls newest first: the point of the
latest moveTo, the origin when there is none. -/
def subpathStart : List PathCall → QPointF
  | [] => ⟨0, 0⟩
  | PathCall.moveTo p :: _ => p
  | _ :: r => subpathStart r

/-- The position a path is at, from its calls newest first: the end point of the latest
call, and the start of the subpath after a close. -/
def positionAfter : List PathCall → QPointF
  | [] => ⟨0, 0⟩
  | PathCall.moveTo p :: _ => p
  | PathCall.lineTo p :: _ => p
  | PathCall.cubicTo _ _ e :: _ => e
  | PathCall.quadTo _ e :: _ => e
  | PathCall.closeSubpath :: r => subpathStart r

/-- QPainterPath::currentPosition. -/
def QPainterPath.currentPosition (path : QPainterPath) : QPointF :=
  positionAfter path.calls.reverse

/-- Records one more call on the path. -/
def QPainterPath.call (path : QPainterPath) (c : PathCall) : QPainterPath :=
  { path with calls := path.calls ++ [c] }

/-- QPainterPath::setFillRule. -/
def QPainterPath.setFillRule (path : QPainterPath) (r : FillRule) : QPainterPath :=
  { path with fillRule := r }

/-! ## The path-data tokenizer -/

/-- The kinds of token. -/
inductive AbbPathTokenType where
  | abtCommand
  | abtNumber
  | abtComma
  | abtEOF
  deriving DecidableEq, Repr

/-- The tokenizer state AbbPathToken: the text, the cursor, and the kind, command letter and
number of the token read last. A field keeps its value until a token of its kind is read. -/
structure AbbPathToken where
  data : QString
  curPos : Nat
  type : AbbPathTokenType
  command : Char
  number : ℚ
  deriving DecidableEq

/-- The characters a number token runs over: anything but a space, a comma or a letter. -/
def inNumber (U : QCharTables) (c : Char) : Bool :=
  !isSpace U c && c != ',' && !isLetter U c

/-- The function nextAbbPathToken. The result is the returned flag and the token state after
the call. The source reads the character under the cursor only when the cursor is not at the
end of the text, so a cursor beyond the end, which no call produces, is read as the end. -/
def nextAbbPathToken (U : QCharTables) (token : AbbPathToken) : Bool × AbbPathToken :=
  let data := token.data
  let pos := token.curPos + ((data.drop token.curPos).takeWhile (isSpace U)).length
  match data.drop pos with
  | [] => (true, { token with curPos := pos, type := AbbPathTokenType.abtEOF })
  | ch :: _ =>
    if isNumber U ch ∨ ch = '+' ∨ ch = '-' then
      let n := ((data.drop pos).takeWhile (inNumber U)).length
      (true, { token with curPos := pos + n, number := toDouble U (mid data pos n),
                          type := AbbPathTokenType.abtNumber })
    else if ch = ',' then
      (true, { token with curPos := pos + 1, type := AbbPathTokenType.abtComma })
    else if isLetter U ch then
      (true, { token with curPos := pos + 1, type := AbbPathTokenType.abtCommand,
                          command := cell ch })
    else (false, { token with curPos := pos })

/-- The function getPointFromString: the point read and the token state after it. The flag
returned by the tokenizer is dropped, as in the source. -/
def getPointFromString (U : QCharTables) (token : AbbPathToken) (relative : Bool)
    (currentPosition : QPointF) : QPointF × AbbPathToken :=
  let x := token.number
  let t1 := (nextAbbPathToken U token).2
  let t2 := (nextAbbPathToken U t1).2
  let y := t2.number
  let t3 := (nextAbbPathToken U t2).2
  let result : QPointF := ⟨x, y⟩
  (if relative then result + currentPosition else result, t3)

/-! ## The path-data interpreter -/

/-- The variables of parseAbbreviatedPathData that live across commands. -/
structure ParserState where
  path : QPainterPath
  token : AbbPathToken
  lastCommand : Char
  lastSecondControlPoint : QPointF
  deriving DecidableEq

/-- The loop while (token.type == abtNumber) around a body. -/
def whileNumber (body : ParserState → ParserState) : Nat → ParserState → Option ParserState
  | 0, s => if s.token.type = AbbPathTokenType.abtNumber then none else some s
  | fuel + 1, s =>
    if s.token.type = AbbPathTokenType.abtNumber then whileNumber body fuel (body s)
    else some s

/-- The conversion (int) of a double: truncation towards zero. -/
def toInt (q : ℚ) : Int := Int.tdiv q.num q.den

/-- The body of case f, which is no loop. -/
def fillRuleBody (U : QCharTables) (s : ParserState) : ParserState :=
  let rule := toInt s.token.number
  let path :=
    if rule = 0 then s.path.setFillRule FillRule.oddEvenFill
    else if rule = 1 then s.path.setFillRule FillRule.windingFill
    else s.path
  { s with path := path, token := (nextAbbPathToken U s.token).2 }

/-- The loop body of case m. -/
def moveBody (U : QCharTables) (isRelative : Bool) (currPos : QPointF) (s : ParserState) :
    ParserState :=
  let r := getPointFromString U s.token isRelative currPos
  { s with token := r.2, path := s.path.call (PathCall.moveTo r.1) }

/-- The loop body of case l. -/
def lineBody (U : QCharTables) (isRelative : Bool) (currPos : QPointF) (s : ParserState) :
    ParserState :=
  let r := getPointFromString U s.token isRelative currPos
  { s with token := r.2, path := s.path.call (PathCall.lineTo r.1) }

/-- The operand expression of cases h and v, token.number + isRelative ? current : 0. The
conditional operator binds more loosely than the sum, so the sum is its condition. -/
def axisOperand (number : ℚ) (isRelative : Bool) (current : ℚ) : ℚ :=
  if number + (if isRelative then 1 else 0) ≠ 0 then current else 0

/-- The loop body of case h. -/
def horizontalBody (U : QCharTables) (isRelative : Bool) (s : ParserState) : ParserState :=
  let x := axisOperand s.token.number isRelative s.path.currentPosition.x
  { s with path := s.path.call (PathCall.lineTo ⟨x, s.path.currentPosition.y⟩),
           token := (nextAbbPathToken U s.token).2 }

/-- The loop body of case v. -/
def verticalBody (U : QCharTables) (isRelative : Bool) (s : ParserState) : ParserState :=
  let y := axisOperand s.token.number isRelative s.path.currentPosition.y
  { s with path := s.path.call (PathCall.lineTo ⟨s.path.currentPosition.x, y⟩),
           token := (nextAbbPathToken U s.token).2 }

/-- The loop body of case c. -/
def cubicBody (U : QCharTables) (isRelative : Bool) (currPos : QPointF) (s : ParserState) :
    ParserState :=
  let r1 := getPointFromString U s.token isRelative currPos
  let r2 := getPointFromString U r1.2 isRelative currPos
  let r3 := getPointFromString U r2.2 isRelative currPos
  { s with token := r3.2, path := s.path.call (PathCall.cubicTo r1.1 r2.1 r3.1),
           lastSecondControlPoint := r2.1 }

/-- The loop body of case q. The first point is read and not used. -/
def quadBody (U : QCharTables) (isRelative : Bool) (currPos : QPointF) (s : ParserState) :
    ParserState :=
  let r1 := getPointFromString U s.token isRelative currPos
  let r2 := getPointFromString U r1.2 isRelative currPos
  { s with token := r2.2, path := s.path.call (PathCall.quadTo r2.1 r2.1) }

/-- The loop body of case s. -/
def smoothBody (U : QCharTables) (isRelative : Bool) (currPos : QPointF) (s : ParserState) :
    ParserState :=
  let firstControl :=
    if s.lastCommand = 's' ∨ s.lastCommand = 'c' then
      s.lastSecondControlPoint + (s.lastSecondControlPoint + s.path.currentPosition)
    else s.path.currentPosition
  let r1 := getPointFromString U s.token isRelative currPos
  let r2 := getPointFromString U r1.2 isRelative currPos
  { s with token := r2.2, path := s.path.call (PathCall.cubicTo firstControl r1.1 r2.1) }

/-- The loop body of case a: the operands are read and nothing is drawn. -/
def arcBody (U : QCharTables) (isRelative : Bool) (currPos : QPointF) (s : ParserState) :
    ParserState :=
  let r1 := getPointFromString U s.token isRelative currPos
  let t1 := (nextAbbPathToken U r1.2).2
  let t2 := (nextAbbPathToken U t1).2
  let t3 := (nextAbbPathToken U t2).2
  let r2 := getPointFromString U t3 isRelative currPos
  { s with token := r2.2 }

/-- The switch on the command letter. -/
def runCommand (U : QCharTables) (fuel : Nat) (command : Char) (isRelative : Bool)
    (currPos : QPointF) (s : ParserState) : Option ParserState :=
  if command = 'f' then some (fillRuleBody U s)
  else if command = 'm' then whileNumber (moveBody U isRelative currPos) fuel s
  else if command = 'l' then whileNumber (lineBody U isRelative currPos) fuel s
  else if command = 'h' then whileNumber (horizontalBody U isRelative) fuel s
  else if command = 'v' then whileNumber (verticalBody U isRelative) fuel s
  else if command = 'c' then whileNumber (cubicBody U isRelative currPos) fuel s
  else if command = 'q' then whileNumber (quadBody U isRelative currPos) fuel s
  else if command = 's' then whileNumber (smoothBody U isRelative currPos) fuel s
  else if command = 'a' then whileNumber (arcBody U isRelative currPos) fuel s
  else if command = 'z' then some { s with path := s.path.call PathCall.closeSubpath }
  else some s

/-- The loop while (true) of parseAbbreviatedPathData: one turn per unit of fuel, and every
inner loop of a turn may take as many turns as the fuel left. -/
def parseLoop (U : QCharTables) : Nat → ParserState → Option QPainterPath
  | 0, s => if s.token.type ≠ AbbPathTokenType.abtCommand then some s.path else none
  | fuel + 1, s =>
    if s.token.type ≠ AbbPathTokenType.abtCommand then some s.path
    else
      let command := cell (toLower U (cell s.token.command))
      let isRelative := isLower U (cell s.token.command)
      let currPos := s.path.currentPosition
      let s1 := { s with token := (nextAbbPathToken U s.token).2 }
      match runCommand U fuel command isRelative currPos s1 with
      | none => none
      | some s2 => parseLoop U fuel { s2 with lastCommand := command }

/-- The function parseAbbreviatedPathData. The source declares the token without
initialising it, so the kind, command and number it starts with are whatever the stack
holds: they are the argument uninit. The answer is none when the fuel does not suffice. -/
def parseAbbreviatedPathData (U : QCharTables) (uninit : AbbPathToken) (data : QString)
    (fuel : Nat) : Option QPainterPath :=
  let token := (nextAbbPathToken U { uninit with data := data, curPos := 0 }).2
  parseLoop U fuel ⟨QPainterPath.empty, token, ' ', ⟨0, 0⟩⟩

/-- A token state to start from, for examples. -/
def AbbPathToken.blank : AbbPathToken := ⟨[], 0, AbbPathTokenType.abtEOF, ' ', 0⟩

/-! ## Path data written from points -/

/-- The characters of a plain decimal number: digits, a sign, the point. -/
def isPlainChar (c : Char) : Bool := c.isDigit || c == '+' || c == '-' || c == '.'

/-- A text that the tokenizer reads as one number: it starts with a digit or a sign and is
written with digits, signs and points only (no exponent: a letter ends a number token). -/
def isPlainNumber : QString → Bool
  | [] => false
  | c :: r => (c.isDigit || c == '+' || c == '-') && r.all isPlainChar

/-- A point together with the texts its coordinates are written as. -/
structure WrittenPoint where
  xText : QString
  yText : QString
  x : ℚ
  y : ℚ

/-- The texts of a written point are plain decimal numbers with the coordinates as values. -/
def WrittenPoint.wellFormed (p : WrittenPoint) : Prop :=
  (isPlainNumber p.xText = true ∧ readDecimal p.xText = some p.x) ∧
    (isPlainNumber p.yText = true ∧ readDecimal p.yText = some p.y)

/-- Well-formedness of a written point can be computed. -/
instance (p : WrittenPoint) : Decidable p.wellFormed := by
  unfold WrittenPoint.wellFormed
  infer_instance

/-- The point of a written point. -/
def WrittenPoint.point (p : WrittenPoint) : QPointF := ⟨p.x, p.y⟩

/-- The text x,y of a written point. -/
def WrittenPoint.text (p : WrittenPoint) : QString := p.xText ++ ',' :: p.yText

/-- The text of the line segments and the final close: L x,y for each point, then Z, each
after one space. -/
def segmentsText : List WrittenPoint → QString
  | [] => [' ', 'Z']
  | p :: ps => ' ' :: 'L' :: ' ' :: (p.text ++ segmentsText ps)

/-- The path data M x0,y0 L x1,y1 ... L xn,yn Z of a polygon. -/
def polygonText (p0 : WrittenPoint) (ps : List WrittenPoint) : QString :=
  'M' :: ' ' :: (p0.text ++ segmentsText ps)

/-- The token read last is the command letter c, and r is the text after it. -/
def AtCommand (t : AbbPathToken) (c : Char) (r : List Char) : Prop :=
  t.type = AbbPathTokenType.abtCommand ∧ t.command = c ∧ t.data.drop t.curPos = r

/-! ## GUIDs and fonts -/

/-- QString::operator[] at an index within the string. -/
def qAt (s : QString) (i : Nat) : Char := s.getD i (Char.ofNat 0)

/-- The table indexes of parseGUID: where in the string each byte starts. -/
def guidIndexes : List Nat := [6, 4, 2, 0, 11, 9, 16, 14, 19, 21, 24, 26, 28, 30, 32, 34]

/-- The loop of parseGUID over the table: one byte per entry, and failure as soon as one of
the two characters of an entry is no hex digit. -/
def parseGUIDLoop (guidString : QString) : List Nat → Option (List Nat)
  | [] => some []
  | p :: ps =>
    let hex1 := hex2int (cell (qAt guidString p))
    let hex2 := hex2int (cell (qAt guidString (p + 1)))
    if hex1 < 0 ∨ hex2 < 0 then none
    else
      match parseGUIDLoop guidString ps with
      | none => none
      | some g => some ((hex1 * 16 + hex2).toNat :: g)

/-- The function parseGUID: the sixteen values written to guid when it returns true, none
when it returns false. -/
def parseGUID (guidString : QString) : Option (List Nat) :=
  if guidString.length ≤ 35 then none else parseGUIDLoop guidString guidIndexes

/-- The table mapping of loadFontByName: which guid value goes with each byte. -/
def fontMapping : List Nat := [15, 14, 13, 12, 11, 10, 9, 8, 6, 7, 4, 5, 0, 1, 2, 3]

/-- The assignment of byte ^ key to a byte of the array: the low eight bits of the
exclusive or. A byte is its value in 0..255. -/
def xorByte (byte key : Nat) : Nat := (byte ^^^ key) % 256

/-- One turn of the de-obfuscation loop of loadFontByName. -/
def deobfuscateStep (guid fontData : List Nat) (i : Nat) : List Nat :=
  let key := guid.getD (fontMapping.getD i 0) 0
  let d1 := fontData.set i (xorByte (fontData.getD i 0) key)
  d1.set (i + 16) (xorByte (d1.getD (i + 16) 0) key)

/-- The first n turns of the de-obfuscation loop, for i from 0 to n - 1. -/
def deobfuscateLoop (guid : List Nat) : Nat → List Nat → List Nat
  | 0, fontData => fontData
  | n + 1, fontData => deobfuscateStep guid (deobfuscateLoop guid n fontData) n

/-- The de-obfuscation loop of loadFontByName: sixteen turns. -/
def deobfuscate (guid fontData : List Nat) : List Nat := deobfuscateLoop guid 16 fontData

/-- What loadFontByName and getFontByName use of their surroundings, over a font database
of type Db: the bytes of an archive entry, QFileInfo::baseName, the call
addApplicationFontFromData with the font id it returns and the database after it, and of
QFontDatabase the families of a font id, the styles of a family and the font of a family,
a style and a point size. No font has the id -1: its list of families is empty. -/
structure FontServices (Db : Type) (Font : Type) where
  entryData : QString → List Nat
  baseName : QString → QString
  addApplicationFontFromData : Db → List Nat → Int × Db
  applicationFontFamilies : Db → Int → List QString
  styles : Db → QString → List QString
  font : Db → QString → QString → Int → Font
  noFamilies : ∀ db, applicationFontFamilies db (-1) = []

/-- XpsFile::loadFontByName: the font id returned and the font database after the call. -/
def loadFontByName {Db Font : Type} (env : FontServices Db Font) (db : Db)
    (fileName : QString) : Int × Db :=
  let fontData := env.entryData fileName
  let first := env.addApplicationFontFromData db fontData
  if first.1 = -1 then
    match parseGUID (env.baseName fileName) with
    | none => first
    | some guid =>
      if fontData.length < 32 then first
      else env.addApplicationFontFromData first.2 (deobfuscate guid fontData)
  else first

/-- The font state of an XpsFile: the map m_fontCache and the font database. -/
structure XpsFile (Db : Type) where
  fontCache : QString → Option Int
  fontDatabase : Db

/-- QMap::value with a default. -/
def cacheValue (m : QString → Option Int) (key : QString) (dflt : Int) : Int :=
  match m key with
  | some v => v
  | none => dflt

/-- The assignment m[key] = v on a QMap. -/
def cacheInsert (m : QString → Option Int) (key : QString) (v : Int) : QString → Option Int :=
  fun k => if k = key then some v else m k

/-- The function qRound of the toolkit: the int next to a number, halves away from
zero, computed with the conversions to int that the toolkit writes. -/
def qRound (d : ℚ) : Int :=
  if 0 ≤ d then toInt (d + 1 / 2)
  else toInt (d - (toInt (d - 1) : ℚ) + 1 / 2) + toInt (d - 1)

/-- The end of getFontByName, from the font id on: the first family of the id, the first
style of the family, and the font of the two in the rounded size. QList::at takes an index
within the list only: with no family or no style there is no result. -/
def fontOfIndex {Db Font : Type} (env : FontServices Db Font) (db : Db) (index : Int)
    (size : ℚ) : Option Font :=
  match env.applicationFontFamilies db index with
  | [] => none
  | fontFamily :: _ =>
    match env.styles db fontFamily with
    | [] => none
    | fontStyle :: _ => some (env.font db fontFamily fontStyle (qRound size))

/-- XpsFile::getFontByName: the font returned and the state of the file after the call,
when the call has a result. -/
def getFontByName {Db Font : Type} (env : FontServices Db Font) (file : XpsFile Db)
    (fileName : QString) (size : ℚ) : Option (Font × XpsFile Db) :=
  let index := cacheValue file.fontCache fileName (-1)
  if index = -1 then
    let loaded := loadFontByName env file.fontDatabase fileName
    match fontOfIndex env loaded.2 loaded.1 size with
    | none => none
    | some font =>
      some (font,
        { fontCache := cacheInsert file.fontCache fileName loaded.1, fontDatabase := loaded.2 })
  else
    match fontOfIndex env file.fontDatabase index size with
    | none => none
    | some font => some (font, file)

/-- A run of getFontByName calls, one per pair of an identifier and a size: the state of
the file after the last call, when every call has a result. -/
def getFonts {Db Font : Type} (env : FontServices Db Font) :
    List (QString × ℚ) → XpsFile Db → Option (XpsFile Db)
  | [], file => some file
  | c :: cs, file =>
    match getFontByName env file c.1 c.2 with
    | none => none
    | some r => getFonts env cs r.2

/-- A GUID string in the canonical form: 36 characters, dashes at 8, 13, 18 and 23 and hex
digits elsewhere. -/
def isCanonicalGuid (s : QString) : Bool :=
  s.length == 36 &&
    (List.range 36).all (fun i =>
      if i = 8 ∨ i = 13 ∨ i = 18 ∨ i = 23 then qAt s i == '-' else isHexDigit (qAt s i))

/-- Font services to try the loader on: the database is the list of the arrays it was
asked to load, an array loads when its first byte is 0 and its font id is then the number
of earlier attempts, the entry of a name that starts with a is 32 zero bytes and any other
entry is 32 bytes of value 1, the base name is the name up to its first point, every font
id but -1 has the one family Sample with the one style Regular, and a font is the triple of
its family, its style and its size. -/
def sampleServices : FontServices (List (List Nat)) (QString × QString × Int) where
  entryData := fun name =>
    if name.head? = some 'a' then List.replicate 32 0 else List.replicate 32 1
  baseName := fun name => name.takeWhile (fun c => c ≠ '.')
  addApplicationFontFromData := fun db data =>
    (if data.getD 0 1 = 0 then (db.length : Int) else -1, db ++ [data])
  applicationFontFamilies := fun _ index => if index = -1 then [] else ["Sample".toList]
  styles := fun _ _ => ["Regular".toList]
  font := fun _ family style size => (family, style, size)
  noFamilies := fun _ => rfl

/-! ## Path data with a space between x and y -/

/-- The text x y of a written point, a space in place of the comma. -/
def WrittenPoint.spacedText (p : WrittenPoint) : QString := p.xText ++ ' ' :: p.yText

/-- The text of the line segments L x y, each after one space. -/
def spacedLinesText : List WrittenPoint → QString
  | [] => []
  | p :: ps => ' ' :: 'L' :: ' ' :: (p.spacedText ++ spacedLinesText ps)

/-- The path data M x0 y0 L x1 y1 ... L xn yn. -/
def spacedPathText (p0 : WrittenPoint) (ps : List WrittenPoint) : QString :=
  'M' :: ' ' :: (p0.spacedText ++ spacedLinesText ps)

/-! ## Well-formed path data -/

/-- A number together with the text it is written as. -/
structure WrittenNumber where
  text : QString
  value : ℚ

/-- The text of a written number is a plain decimal number with the number as value. -/
def WrittenNumber.wellFormed (n : WrittenNumber) : Prop :=
  isPlainNumber n.text = true ∧ readDecimal n.text = some n.value

/-- Well-formedness of a written number can be computed. -/
instance (n : WrittenNumber) : Decidable n.wellFormed := by
  unfold WrittenNumber.wellFormed
  infer_instance

/-- An operand of a command: a point x,y or a single number. -/
inductive Operand where
  | point (p : WrittenPoint)
  | number (n : WrittenNumber)

/-- The text of an operand. -/
def Operand.text : Operand → QString
  | Operand.point p => p.text
  | Operand.number n => n.text

/-- The texts of an operand are plain decimal numbers with the right values. -/
def Operand.wellFormed : Operand → Prop
  | Operand.point p => p.wellFormed
  | Operand.number n => n.wellFormed

/-- Well-formedness of an operand can be computed. -/
instance (o : Operand) : Decidable o.wellFormed := by
  cases o <;> unfold Operand.wellFormed <;> infer_instance

/-- The text of a run of operands, each after one space. -/
def operandsText : List Operand → QString
  | [] => []
  | o :: os => ' ' :: (o.text ++ operandsText os)

/-- The commands of the path grammar that the interpreter has a case for. -/
inductive CommandKind where
  | fill
  | move
  | line
  | horizontal
  | vertical
  | cubic
  | quad
  | smooth
  | arc
  | close
  deriving DecidableEq, Repr

/-- The lowercase letter of a command, the label of its case in the switch. -/
def CommandKind.command : CommandKind → Char
  | CommandKind.fill => 'f'
  | CommandKind.move => 'm'
  | CommandKind.line => 'l'
  | CommandKind.horizontal => 'h'
  | CommandKind.vertical => 'v'
  | CommandKind.cubic => 'c'
  | CommandKind.quad => 'q'
  | CommandKind.smooth => 's'
  | CommandKind.arc => 'a'
  | CommandKind.close => 'z'

/-- The operands of one group of a command: one number for f, h and v, one point for m
and l, three points for c, two for q and s, and point, three numbers, point for a. The
command z takes no group. -/
def groupShape : CommandKind → List Operand → Bool
  | CommandKind.fill, [Operand.number _] => true
  | CommandKind.move, [Operand.point _] => true
  | CommandKind.line, [Operand.point _] => true
  | CommandKind.horizontal, [Operand.number _] => true
  | CommandKind.vertical, [Operand.number _] => true
  | CommandKind.cubic, [Operand.point _, Operand.point _, Operand.point _] => true
  | CommandKind.quad, [Operand.point _, Operand.point _] => true
  | CommandKind.smooth, [Operand.point _, Operand.point _] => true
  | CommandKind.arc, [Operand.point _, Operand.number _, Operand.number _, Operand.number _,
      Operand.point _] => true
  | _, _ => false

/-- A command as written: its kind, its case (relative is lowercase) and its groups of
operands. -/
structure PathCommand where
  kind : CommandKind
  relative : Bool
  groups : List (List Operand)

/-- The letter a command is written with. -/
def PathCommand.letter (c : PathCommand) : Char :=
  if c.relative then c.kind.command else Char.ofNat (c.kind.command.toNat - 32)

/-- A well-formed command: every group has the operands of its kind, written as plain
decimal numbers, and f has exactly one group. -/
def PathCommand.wellFormed (c : PathCommand) : Prop :=
  (∀ g ∈ c.groups, groupShape c.kind g = true ∧ ∀ o ∈ g, o.wellFormed) ∧
    (c.kind = CommandKind.fill → c.groups.length = 1)

/-- Well-formedness of a command can be computed. -/
instance (c : PathCommand) : Decidable c.wellFormed := by
  unfold PathCommand.wellFormed
  infer_instance

/-- The text of a command: the letter, then every operand after one space. -/
def PathCommand.text (c : PathCommand) : QString := c.letter :: operandsText c.groups.flatten

/-- The text of a run of commands, each after one space. -/
def commandsText : List PathCommand → QString
  | [] => []
  | c :: cs => ' ' :: (c.text ++ commandsText cs)

/-- The path data of a list of commands: the commands with one space between them. -/
def pathText : List PathCommand → QString
  | [] => []
  | c :: cs => c.text ++ commandsText cs

/-- The fuel that a list of commands needs: one unit for each command and for each group of
operands. -/
def fuelFor : List PathCommand → Nat
  | [] => 0
  | c :: cs => c.groups.length + 1 + fuelFor cs

/-- The variables of the interpreter other than the token. -/
structure ParserCore where
  path : QPainterPath
  lastCommand : Char
  lastSecondControlPoint : QPointF

/-- The variables of a parser state other than the token. -/
def ParserState.core (s : ParserState) : ParserCore :=
  ⟨s.path, s.lastCommand, s.lastSecondControlPoint⟩

/-- The point getPointFromString returns for a written point. -/
def resolvePoint (relative : Bool) (currPos : QPointF) (p : WrittenPoint) : QPointF :=
  if relative then p.point + currPos else p.point

/-- What one turn of the inner loop of a command does with the values of one group. -/
def groupEffect (kind : CommandKind) (relative : Bool) (currPos : QPointF) :
    List Operand → ParserCore → ParserCore
  | [Operand.point p], c =>
    match kind with
    | CommandKind.move =>
      { c with path := c.path.call (PathCall.moveTo (resolvePoint relative currPos p)) }
    | CommandKind.line =>
      { c with path := c.path.call (PathCall.lineTo (resolvePoint relative currPos p)) }
    | _ => c
  | [Operand.number n], c =>
    match kind with
    | CommandKind.horizontal =>
      { c with path := c.path.call (PathCall.lineTo
          ⟨axisOperand n.value relative c.path.currentPosition.x, c.path.currentPosition.y⟩) }
    | CommandKind.vertical =>
      { c with path := c.path.call (PathCall.lineTo
          ⟨c.path.currentPosition.x, axisOperand n.value relative c.path.currentPosition.y⟩) }
    | _ => c
  | [Operand.point p1, Operand.point p2], c =>
    match kind with
    | CommandKind.quad =>
      { c with path := c.path.call (PathCall.quadTo (resolvePoint relative currPos p2)
          (resolvePoint relative currPos p2)) }
    | CommandKind.smooth =>
      { c with path := c.path.call (PathCall.cubicTo
          (if c.lastCommand = 's' ∨ c.lastCommand = 'c' then
            c.lastSecondControlPoint + (c.lastSecondControlPoint + c.path.currentPosition)
          else c.path.currentPosition)
          (resolvePoint relative currPos p1) (resolvePoint relative currPos p2)) }
    | _ => c
  | [Operand.point p1, Operand.point p2, Operand.point p3], c =>
    match kind with
    | CommandKind.cubic =>
      { c with path := c.path.call (PathCall.cubicTo (resolvePoint relative currPos p1)
          (resolvePoint relative currPos p2) (resolvePoint relative currPos p3)),
               lastSecondControlPoint := resolvePoint relative currPos p2 }
    | _ => c
  | _, c => c

/-- What one turn of the outer loop does on a well-formed command: the case of the switch
on the values of the operands, then the assignment to lastCommand. -/
def commandEffect (cmd : PathCommand) (c : ParserCore) : ParserCore :=
  let after : ParserCore :=
    match cmd.kind with
    | CommandKind.fill =>
      match cmd.groups with
      | [[Operand.number n]] =>
        { c with path :=
            if toInt n.value = 0 then c.path.setFillRule FillRule.oddEvenFill
            else if toInt n.value = 1 then c.path.setFillRule FillRule.windingFill
            else c.path }
      | _ => c
    | CommandKind.close => { c with path := c.path.call PathCall.closeSubpath }
    | kind =>
      cmd.groups.foldl
        (fun x g => groupEffect kind cmd.relative c.path.currentPosition g x) c
  { after with lastCommand := cmd.kind.command }

/-- What the outer loop does on a list of well-formed commands. -/
def runCommands (cmds : List PathCommand) (c : ParserCore) : ParserCore :=
  cmds.foldl (fun x cmd => commandEffect cmd x) c

/-- The token is the one read from the text k: the tokenizer has been called on a state
that has k left to read. -/
def Lands (U : QCharTables) (t : AbbPathToken) (k : QString) : Prop :=
  ∃ t0 : AbbPathToken, t0.data.drop t0.curPos = k ∧ t = (nextAbbPathToken U t0).2

/-- A text that ends a number token before it: the empty text, or one that starts with a
space, a comma or a letter. -/
def Delim (U : QCharTables) (k : QString) : Prop :=
  k = [] ∨ ∃ d r, k = d :: r ∧ inNumber U d = false

/-- A number or a comma where a command is expected: a space and a comma before any text,
or, where the command before it takes no run of operands, a space and a plain number
before a text that ends the number. -/
def Stray (U : QCharTables) (afterLoop : Bool) (k : QString) : Prop :=
  (∃ j, k = ' ' :: ',' :: j) ∨
    (afterLoop = false ∧ ∃ (n : WrittenNumber) (j : QString),
      n.wellFormed ∧ Delim U j ∧ k = ' ' :: (n.text ++ j))

/-- Whether a command reads a run of operand groups in a loop: all but f and z. -/
def CommandKind.loops : CommandKind → Bool
  | CommandKind.fill => false
  | CommandKind.close => false
  | _ => true

/-- Whether a list of commands ends with a command that reads operands in a loop. -/
def endsWithLoop : List PathCommand → Bool
  | [] => false
  | [c] => c.kind.loops
  | _ :: c :: cs => endsWithLoop (c :: cs)

/-- The body of the inner loop of a command of the switch. -/
def loopBody (U : QCharTables) (kind : CommandKind) (relative : Bool) (currPos : QPointF) :
    ParserState → ParserState :=
  match kind with
  | CommandKind.move => moveBody U relative currPos
  | CommandKind.line => lineBody U relative currPos
  | CommandKind.horizontal => horizontalBody U relative
  | CommandKind.vertical => verticalBody U relative
  | CommandKind.cubic => cubicBody U relative currPos
  | CommandKind.quad => quadBody U relative currPos
  | CommandKind.smooth => smoothBody U relative currPos
  | CommandKind.arc => arcBody U relative currPos
  | _ => fun s => s


/-! ## Smooth cubics from the current point -/

/-- The cubic of one group of a smooth command whose first control point is the current
point: for a group of two points, a cubic with the current point of the path as first
control point and the two points of the group as second control point and end point. -/
def smoothGroupFromCurrentPoint (relative : Bool) (currPos : QPointF) (path : QPainterPath) :
    List Operand → QPainterPath
  | [Operand.point p1, Operand.point p2] =>
    path.call (PathCall.cubicTo path.currentPosition (resolvePoint relative currPos p1)
      (resolvePoint relative currPos p2))
  | _ => path

/-- The cubics of the groups of a smooth command, each with the current point of the path
at its time as first control point. -/
def smoothFromCurrentPoint (relative : Bool) (currPos : QPointF) (groups : List (List Operand))
    (path : QPainterPath) : QPainterPath :=
  groups.foldl (smoothGroupFromCurrentPoint relative currPos) path

/-! ## Matrices: product and inverse -/

/-- QMatrix::operator*: the product of two matrices, this transformation first. -/
def QMatrix.mul (a b : QMatrix) : QMatrix :=
  ⟨a.m11 * b.m11 + a.m12 * b.m21, a.m11 * b.m12 + a.m12 * b.m22,
    a.m21 * b.m11 + a.m22 * b.m21, a.m21 * b.m12 + a.m22 * b.m22,
    a.dx * b.m11 + a.dy * b.m21 + b.dx, a.dx * b.m12 + a.dy * b.m22 + b.dy⟩

/-- The product of matrices, written with the star. -/
instance : Mul QMatrix := ⟨QMatrix.mul⟩

/-- QMatrix::determinant. -/
def QMatrix.determinant (m : QMatrix) : ℚ := m.m11 * m.m22 - m.m12 * m.m21

/-- QMatrix::inverted: the inverse, and the identity for a matrix that has none. -/
def QMatrix.inverted (m : QMatrix) : QMatrix :=
  if m.determinant = 0 then QMatrix.identity
  else
    let dinv : ℚ := 1 / m.determinant
    ⟨m.m22 * dinv, -m.m12 * dinv, -m.m21 * dinv, m.m11 * dinv,
      (m.m21 * m.dy - m.m22 * m.dx) * dinv, (m.m12 * m.dx - m.m11 * m.dy) * dinv⟩

/-- XpsHandler::parseRscRefMatrix: a reference, which starts with an opening brace
(character 123), reads as the identity. -/
def parseRscRefMatrix (U : QCharTables) (data : QString) : QMatrix :=
  if qAt data 0 = Char.ofNat 123 then QMatrix.identity else attsToMatrix U data

/-! ## Attributes, rectangles, brushes and pens -/

/-- The attributes of an element, name and value, in the order of the document. -/
abbrev QXmlAttributes := List (QString × QString)

/-- QXmlAttributes::value by name: the value of the first attribute of this name, and the
empty string when there is none. -/
def QXmlAttributes.value (atts : QXmlAttributes) (name : QString) : QString :=
  match atts.find? (fun a => a.1 = name) with
  | some a => a.2
  | none => []

/-- A QRectF, by its origin and size. -/
structure QRectF where
  x : ℚ
  y : ℚ
  width : ℚ
  height : ℚ
  deriving DecidableEq

/-- The function stringToRectF. QList::at takes an index within the list only: on a text
with fewer than four fields the function has no result. -/
def stringToRectF (U : QCharTables) (data : QString) : Option QRectF :=
  match split ',' data with
  | n0 :: n1 :: n2 :: n3 :: _ => some ⟨toDouble U n0, toDouble U n1, toDouble U n2, toDouble U n3⟩
  | _ => none

/-- QString::toLatin1: a character outside Latin-1 becomes a question mark. -/
def toLatin1 (s : QString) : List Char := s.map (fun c => if c.toNat < 256 then c else '?')

/-- QString::toInt with its flag: a run of decimal digits with an optional sign, between
spaces, that fits an int; none when the conversion fails. -/
def toIntOk (U : QCharTables) (s : QString) : Option Int :=
  let sr := readSign (trimmed U s)
  if sr.2 ≠ [] ∧ sr.2.all Char.isDigit then
    let v : Int := if sr.1 then - (digitsValue sr.2 : Int) else (digitsValue sr.2 : Int)
    if -2147483648 ≤ v ∧ v ≤ 2147483647 then some v else none
  else none

/-- What processImageBrush uses of a QImage: its resolution. -/
structure QImage where
  physicalDpiX : Int
  physicalDpiY : Int
  deriving DecidableEq

/-- The style of a brush with what it paints: nothing, a colour, or an image. -/
inductive BrushStyle where
  | noBrush
  | solidPattern (color : QColor)
  | texturePattern (image : QImage)
  deriving DecidableEq

/-- A QBrush: its style and its matrix. -/
structure QBrush where
  style : BrushStyle
  matrix : QMatrix
  deriving DecidableEq

/-- The default-constructed brush QBrush(), which paints nothing. -/
def QBrush.empty : QBrush := ⟨BrushStyle.noBrush, QMatrix.identity⟩

/-- The brush QBrush(color). -/
def QBrush.ofColor (color : QColor) : QBrush := ⟨BrushStyle.solidPattern color, QMatrix.identity⟩

/-- The brush QBrush(QPixmap::fromImage(image)). -/
def QBrush.ofImage (image : QImage) : QBrush := ⟨BrushStyle.texturePattern image, QMatrix.identity⟩

/-- QBrush::setMatrix. -/
def QBrush.setMatrix (brush : QBrush) (m : QMatrix) : QBrush := { brush with matrix := m }

/-- A QPen: its brush and its width. -/
structure QPen where
  brush : QBrush
  width : ℚ
  deriving DecidableEq

/-- The default-constructed pen QPen(): black, of width 0. -/
def QPen.default : QPen := ⟨QBrush.ofColor (QColor.rgba 0 0 0 255), 0⟩

/-- The pen QPen(color), of width 0. -/
def QPen.ofColor (color : QColor) : QPen := ⟨QBrush.ofColor color, 0⟩

/-- The colour Qt::transparent. -/
def QColor.transparent : QColor := QColor.rgba 0 0 0 0

/-- XpsHandler::parseRscRefColorForBrush: a reference, which starts with an opening brace
(character 123), reads as the empty brush. -/
def parseRscRefColorForBrush (data : QString) : QBrush :=
  if qAt data 0 = Char.ofNat 123 then QBrush.empty else QBrush.ofColor (hexToRgba (toLatin1 data))

/-- XpsHandler::parseRscRefColorForPen: a reference, which starts with an opening brace
(character 123), reads as the default pen. -/
def parseRscRefColorForPen (data : QString) : QPen :=
  if qAt data 0 = Char.ofNat 123 then QPen.default else QPen.ofColor (hexToRgba (toLatin1 data))

/-! ## The painter -/

/-- The state of a QPainter that save and restore keep. -/
structure PaintState (Font : Type) where
  worldMatrix : QMatrix
  brush : QBrush
  pen : QPen
  opacity : ℚ
  font : Font
  deriving DecidableEq

/-- A drawing call made on the painter, with the state it was made in. -/
inductive Drawn (Font : Type) where
  | path (path : QPainterPath) (state : PaintState Font)
  | text (origin : QPointF) (text : QString) (state : PaintState Font)
  deriving DecidableEq

/-- A QPainter: its state, the states saved (newest first) and the drawing calls it has
received (oldest first), which stand for the page image. -/
structure QPainter (Font : Type) where
  state : PaintState Font
  saved : List (PaintState Font)
  drawn : List (Drawn Font)
  deriving DecidableEq

/-- QPainter::save. -/
def QPainter.save {Font : Type} (p : QPainter Font) : QPainter Font :=
  { p with saved := p.state :: p.saved }

/-- QPainter::restore: without a saved state the call changes nothing. -/
def QPainter.restore {Font : Type} (p : QPainter Font) : QPainter Font :=
  match p.saved with
  | [] => p
  | s :: r => { p with state := s, saved := r }

/-- QPainter::setWorldMatrix: with combine the matrix is multiplied on the left of the
current one. -/
def QPainter.setWorldMatrix {Font : Type} (p : QPainter Font) (m : QMatrix) (combine : Bool) :
    QPainter Font :=
  { p with state := { p.state with
      worldMatrix := if combine then m * p.state.worldMatrix else m } }

/-- QPainter::setBrush. -/
def QPainter.setBrush {Font : Type} (p : QPainter Font) (brush : QBrush) : QPainter Font :=
  { p with state := { p.state with brush := brush } }

/-- QPainter::setPen. -/
def QPainter.setPen {Font : Type} (p : QPainter Font) (pen : QPen) : QPainter Font :=
  { p with state := { p.state with pen := pen } }

/-- QPainter::setOpacity. -/
def QPainter.setOpacity {Font : Type} (p : QPainter Font) (opacity : ℚ) : QPainter Font :=
  { p with state := { p.state with opacity := opacity } }

/-- QPainter::setFont. -/
def QPainter.setFont {Font : Type} (p : QPainter Font) (font : Font) : QPainter Font :=
  { p with state := { p.state with font := font } }

/-- QPainter::drawPath. -/
def QPainter.drawPath {Font : Type} (p : QPainter Font) (path : QPainterPath) : QPainter Font :=
  { p with drawn := p.drawn ++ [Drawn.path path p.state] }

/-- QPainter::drawText. -/
def QPainter.drawText {Font : Type} (p : QPainter Font) (origin : QPointF) (text : QString) :
    QPainter Font :=
  { p with drawn := p.drawn ++ [Drawn.text origin text p.state] }

/-! ## Render nodes -/

/-- What the data pointer of a node points to: a matrix or a brush. -/
inductive NodeData where
  | matrix (m : QMatrix)
  | brush (b : QBrush)
  deriving DecidableEq

/-- An XpsRenderNode, by the members that the source uses: the name, the attributes, the
children (oldest first) and the data pointer, none for NULL. -/
structure XpsRenderNode where
  name : QString
  attributes : QXmlAttributes
  children : List XpsRenderNode
  data : Option NodeData

/-- XpsRenderNode::findChild: the first child of this name. -/
def XpsRenderNode.findChild (node : XpsRenderNode) (name : QString) : Option XpsRenderNode :=
  node.children.find? (fun c => c.name = name)

/-- XpsRenderNode::getRequiredChildData. -/
def XpsRenderNode.getRequiredChildData (node : XpsRenderNode) (name : QString) :
    Option NodeData :=
  match node.findChild name with
  | none => none
  | some child => child.data

/-- XpsRenderNode::getChildData. -/
def XpsRenderNode.getChildData (node : XpsRenderNode) (name : QString) : Option NodeData :=
  match node.findChild name with
  | none => none
  | some child => child.data

/-- The brush read through a data pointer cast to a brush: there is none when the pointer
is to a matrix. -/
def NodeData.asBrush : NodeData → Option QBrush
  | NodeData.brush b => some b
  | NodeData.matrix _ => none

/-- The matrix read through a data pointer cast to a matrix: there is none when the pointer
is to a brush. -/
def NodeData.asMatrix : NodeData → Option QMatrix
  | NodeData.matrix m => some m
  | NodeData.brush _ => none

/-! ## The render visitor -/

/-- What the render visitor uses of its surroundings: the character tables, the token that
parseAbbreviatedPathData finds on its stack, the fuel given to each parse of path data, the
font services of the file and XpsPage::loadImageFromFile. -/
structure RenderServices (Db Font : Type) where
  tables : QCharTables
  uninit : AbbPathToken
  fuel : Nat
  fonts : FontServices Db Font
  loadImageFromFile : QString → QImage

/-- The state of an XpsHandler: the stack m_nodes (top first), the painter, and the font
state of the file of the page. -/
structure XpsHandler (Db Font : Type) where
  nodes : List XpsRenderNode
  painter : QPainter Font
  file : XpsFile Db

/-- The brush of a Glyphs or a Path element from a child: the data of the first child of
the given name read as a brush, the empty brush when that data is NULL. -/
def childBrush (node : XpsRenderNode) (name : QString) : Option QBrush :=
  match node.getChildData name with
  | some data => data.asBrush
  | none => some QBrush.empty

/-- The fill brush that processGlyph resolves. -/
def glyphBrush (node : XpsRenderNode) : Option QBrush :=
  let att := node.attributes.value "Fill".toList
  if att = [] then childBrush node "Glyphs.Fill".toList
  else some (parseRscRefColorForBrush att)

/-- The opacity and the render transform of the attributes, set on the painter when the
attribute is not empty: the end of processGlyph and of processPath before the drawing. -/
def setOpacityAndTransform {Font : Type} (U : QCharTables) (node : XpsRenderNode)
    (p : QPainter Font) : QPainter Font :=
  let att := node.attributes.value "Opacity".toList
  let p1 := if att ≠ [] then p.setOpacity (toDouble U att) else p
  let att2 := node.attributes.value "RenderTransform".toList
  if att2 ≠ [] then p1.setWorldMatrix (parseRscRefMatrix U att2) true else p1

/-- XpsHandler::processGlyph: the painter and the font state after the call, when
getFontByName and the brush have a result. -/
def processGlyph {Db Font : Type} (env : RenderServices Db Font) (node : XpsRenderNode)
    (painter : QPainter Font) (file : XpsFile Db) : Option (QPainter Font × XpsFile Db) :=
  let p1 := painter.save
  match getFontByName env.fonts file (node.attributes.value "FontUri".toList)
      (toDouble env.tables (node.attributes.value "FontRenderingEmSize".toList)) with
  | none => none
  | some loaded =>
    let p2 := p1.setFont loaded.1
    let origin : QPointF := ⟨toDouble env.tables (node.attributes.value "OriginX".toList),
      toDouble env.tables (node.attributes.value "OriginY".toList)⟩
    match glyphBrush node with
    | none => none
    | some brush =>
      let p3 := (p2.setBrush brush).setPen ⟨brush, 0⟩
      let p4 := setOpacityAndTransform env.tables node p3
      let p5 := p4.drawText origin (node.attributes.value "UnicodeString".toList)
      some (p5.restore, loaded.2)

/-- XpsHandler::processFill. -/
def processFill (node : XpsRenderNode) : XpsRenderNode :=
  match node.children with
  | [child] => { node with data := child.data }
  | _ => node

/-- The two matrices of processImageBrush: the matrix of the viewbox and the matrix called
viewportMatrix, after its last assignment. -/
def imageBrushMatrices {Db Font : Type} (env : RenderServices Db Font) (node : XpsRenderNode) :
    Option (QMatrix × QMatrix) :=
  match stringToRectF env.tables (node.attributes.value "Viewport".toList) with
  | none => none
  | some viewport =>
    match stringToRectF env.tables (node.attributes.value "Viewbox".toList) with
    | none => none
    | some viewbox =>
      let image := env.loadImageFromFile (node.attributes.value "ImageSource".toList)
      let viewboxMatrix : QMatrix :=
        ⟨viewbox.width * image.physicalDpiX / 96, 0, 0,
          viewbox.height * image.physicalDpiY / 96, viewbox.x, viewbox.y⟩
      let att := node.attributes.value "Transform".toList
      let first : Option QMatrix :=
        if att = [] then
          match node.getChildData "ImageBrush.Transform".toList with
          | some data => data.asMatrix
          | none => some QMatrix.identity
        else some (parseRscRefMatrix env.tables att)
      match first with
      | none => none
      | some m =>
        some (viewboxMatrix,
          m * ⟨viewport.width, 0, 0, viewport.height, viewport.x, viewbox.y⟩)

/-- XpsHandler::processImageBrush. -/
def processImageBrush {Db Font : Type} (env : RenderServices Db Font) (node : XpsRenderNode) :
    Option XpsRenderNode :=
  match imageBrushMatrices env node with
  | none => none
  | some ms =>
    let image := env.loadImageFromFile (node.attributes.value "ImageSource".toList)
    let brush := (QBrush.ofImage image).setMatrix (ms.1.inverted * ms.2)
    some { node with data := some (NodeData.brush brush) }

/-- The path that processPath draws: the parse of the attribute Data, the empty path for
an empty attribute. -/
def pathOfData {Db Font : Type} (env : RenderServices Db Font) (node : XpsRenderNode) :
    Option QPainterPath :=
  let att := node.attributes.value "Data".toList
  if att ≠ [] then parseAbbreviatedPathData env.tables env.uninit att env.fuel
  else some QPainterPath.empty

/-- The fill brush that processPath resolves. -/
def pathBrush (node : XpsRenderNode) : Option QBrush :=
  let att := node.attributes.value "Fill".toList
  if att ≠ [] then some (parseRscRefColorForBrush att)
  else childBrush node "Path.Fill".toList

/-- The pen that processPath resolves. -/
def pathPen (U : QCharTables) (node : XpsRenderNode) : QPen :=
  let att := node.attributes.value "Stroke".toList
  let pen := if att ≠ [] then parseRscRefColorForPen att else QPen.ofColor QColor.transparent
  let att2 := node.attributes.value "StrokeThickness".toList
  if att2 ≠ [] then
    match toIntOk U att2 with
    | some thickness => { pen with width := thickness }
    | none => pen
  else pen

/-- XpsHandler::processPath. -/
def processPath {Db Font : Type} (env : RenderServices Db Font) (node : XpsRenderNode)
    (painter : QPainter Font) : Option (QPainter Font) :=
  let p1 := painter.save
  match pathOfData env node with
  | none => none
  | some path =>
    match pathBrush node with
    | none => none
    | some brush =>
      let p2 := (p1.setBrush brush).setPen (pathPen env.tables node)
      let p3 := setOpacityAndTransform env.tables node p2
      some (p3.drawPath path).restore

/-- XpsHandler::processStartElement. -/
def processStartElement {Font : Type} (node : XpsRenderNode) (painter : QPainter Font) :
    QPainter Font :=
  if node.name = "Canvas".toList then painter.save else painter

/-- XpsHandler::processEndElement: the node, the painter and the font state after the
call. -/
def processEndElement {Db Font : Type} (env : RenderServices Db Font) (node : XpsRenderNode)
    (painter : QPainter Font) (file : XpsFile Db) :
    Option (XpsRenderNode × QPainter Font × XpsFile Db) :=
  if node.name = "Glyphs".toList then
    match processGlyph env node painter file with
    | none => none
    | some r => some (node, r.1, r.2)
  else if node.name = "Path".toList then
    match processPath env node painter with
    | none => none
    | some p => some (node, p, file)
  else if node.name = "MatrixTransform".toList then
    some ({ node with data := some (NodeData.matrix
      (attsToMatrix env.tables (node.attributes.value "Matrix".toList))) }, painter, file)
  else if node.name = "Canvas.RenderTransform".toList ∨
      node.name = "Glyphs.RenderTransform".toList ∨
      node.name = "Path.RenderTransform".toList then
    match node.getRequiredChildData "MatrixTransform".toList with
    | none => some (node, painter, file)
    | some data =>
      match data.asMatrix with
      | none => none
      | some m => some (node, painter.setWorldMatrix m true, file)
  else if node.name = "Canvas".toList then some (node, painter.restore, file)
  else if node.name = "Path.Fill".toList ∨ node.name = "Glyphs.Fill".toList then
    some (processFill node, painter, file)
  else if node.name = "SolidColorBrush".toList then
    some ({ node with data := some (NodeData.brush (QBrush.ofColor
      (hexToRgba (toLatin1 (node.attributes.value "Color".toList))))) }, painter, file)
  else if node.name = "ImageBrush".toList then
    match processImageBrush env node with
    | none => none
    | some n => some (n, painter, file)
  else if node.name = "ImageBrush.Transform".toList then
    some ({ node with data := node.getRequiredChildData "MatrixTransform".toList },
      painter, file)
  else some (node, painter, file)

/-- The handler that the constructor leaves: no node on the stack. -/
def XpsHandler.create {Db Font : Type} (painter : QPainter Font) (file : XpsFile Db) :
    XpsHandler Db Font := ⟨[], painter, file⟩

/-- XpsHandler::startDocument. The page image is filled with white, so what was drawn
before is gone, and the node document is pushed with its data pointer as the stack holds
it, uninitialised. -/
def XpsHandler.startDocument {Db Font : Type} (uninitData : Option NodeData)
    (h : XpsHandler Db Font) : XpsHandler Db Font :=
  { h with nodes := ⟨"document".toList, [], [], uninitData⟩ :: h.nodes,
           painter := { h.painter with drawn := [] } }

/-- XpsHandler::startElement. -/
def XpsHandler.startElement {Db Font : Type} (h : XpsHandler Db Font) (localName : QString)
    (atts : QXmlAttributes) : XpsHandler Db Font :=
  let node : XpsRenderNode := ⟨localName, atts, [], none⟩
  { h with nodes := node :: h.nodes, painter := processStartElement node h.painter }

/-- XpsHandler::endElement. The name given is only compared with the name of the node for
a debug message. The call pops a node and then needs a node on top of the stack: with
fewer than two nodes it has no result. -/
def XpsHandler.endElement {Db Font : Type} (env : RenderServices Db Font)
    (h : XpsHandler Db Font) (_localName : QString) : Option (XpsHandler Db Font) :=
  match h.nodes with
  | node :: top :: rest =>
    match processEndElement env node h.painter h.file with
    | none => none
    | some r =>
      some ⟨{ top with children := top.children ++ [{ r.1 with children := [] }] } :: rest,
        r.2.1, r.2.2⟩
  | _ => none

/-- An event of the XML reader on the content of the document. -/
inductive XmlEvent where
  | startElement (localName : QString) (atts : QXmlAttributes)
  | endElement (localName : QString)

/-- The render visitor on one event. -/
def XpsHandler.handle {Db Font : Type} (env : RenderServices Db Font) (h : XpsHandler Db Font) :
    XmlEvent → Option (XpsHandler Db Font)
  | XmlEvent.startElement localName atts => some (h.startElement localName atts)
  | XmlEvent.endElement localName => h.endElement env localName

/-- The render visitor on a sequence of events. -/
def XpsHandler.run {Db Font : Type} (env : RenderServices Db Font) :
    List XmlEvent → XpsHandler Db Font → Option (XpsHandler Db Font)
  | [], h => some h
  | e :: es, h =>
    match h.handle env e with
    | none => none
    | some h1 => XpsHandler.run env es h1

/-! ## The text-extraction visitor -/

/-- An Okular::NormalizedRect, by its four edges. -/
structure NormalizedRect where
  left : ℚ
  top : ℚ
  right : ℚ
  bottom : ℚ
  deriving DecidableEq

/-- What the text-extraction visitor uses of its surroundings: the character tables, the
font services of the file, QFontMetrics::width(text, len) and QFontMetrics::height of a
font, the size of the page, and NormalizedRect::transform. -/
structure TextServices (Db Font : Type) where
  tables : QCharTables
  fonts : FontServices Db Font
  width : Font → QString → Nat → Int
  height : Font → Int
  pageWidth : Int
  pageHeight : Int
  transform : NormalizedRect → QMatrix → NormalizedRect

/-- The state of an XpsTextExtractionHandler: the stack m_matrixes (top first), m_matrix,
m_useMatrix, m_glyphsAtts, the text page as the calls of append it has received (oldest
first), and the font state of the file of the page. -/
structure XpsTextExtractionHandler (Db : Type) where
  matrixes : List QMatrix
  matrix : QMatrix
  useMatrix : Bool
  glyphsAtts : QXmlAttributes
  textPage : List (QString × NormalizedRect)
  file : XpsFile Db

/-- XpsTextExtractionHandler::startDocument. -/
def XpsTextExtractionHandler.startDocument {Db : Type} (h : XpsTextExtractionHandler Db) :
    XpsTextExtractionHandler Db :=
  { h with matrixes := QMatrix.identity :: h.matrixes, matrix := QMatrix.identity,
           useMatrix := false }

/-- XpsTextExtractionHandler::startElement. -/
def XpsTextExtractionHandler.startElement {Db : Type} (U : QCharTables)
    (h : XpsTextExtractionHandler Db) (localName : QString) (atts : QXmlAttributes) :
    XpsTextExtractionHandler Db :=
  if localName = "Canvas".toList then
    let att := atts.value "RenderTransform".toList
    { h with matrixes := h.matrix :: h.matrixes,
             matrix := if att ≠ [] then parseRscRefMatrix U att * h.matrix else h.matrix }
  else if localName = "Canvas.RenderTransform".toList ∨
      localName = "Glyphs.RenderTransform".toList then
    { h with useMatrix := true }
  else if h.useMatrix = true ∧ localName = "MatrixTransform".toList then
    { h with matrix := attsToMatrix U (atts.value "Matrix".toList) * h.matrix }
  else if localName = "Glyphs".toList then
    { h with matrixes := h.matrix :: h.matrixes, glyphsAtts := atts }
  else h

/-- The rectangle of the character at index i of a Glyphs element, before it is
transformed: from the widths of the text up to the character and up to and with it. -/
def glyphRect (origin : QPointF) (height pageWidth pageHeight lastWidth width : Int) :
    NormalizedRect :=
  ⟨(origin.x + lastWidth) / pageWidth, (origin.y - height) / pageHeight,
    (origin.x + width) / pageWidth, origin.y / pageHeight⟩

/-- The loop of endElement over the characters of the text of a Glyphs element: n turns
from the index i with lastWidth, each with one call of append. -/
def glyphLoop {Db Font : Type} (env : TextServices Db Font) (font : Font) (origin : QPointF)
    (text : QString) (matrix : QMatrix) :
    Nat → Nat → Int → List (QString × NormalizedRect) → List (QString × NormalizedRect)
  | 0, _, _, page => page
  | n + 1, i, lastWidth, page =>
    let width := env.width font text (i + 1)
    let rect := glyphRect origin (env.height font) env.pageWidth env.pageHeight lastWidth width
    glyphLoop env font origin text matrix n (i + 1) width
      (page ++ [(mid text i 1, env.transform rect matrix)])

/-- XpsTextExtractionHandler::endElement. A pop needs a matrix on the stack: on an empty
stack the call has no result, and the end of a Glyphs element has none either when
getFontByName has none. -/
def XpsTextExtractionHandler.endElement {Db Font : Type} (env : TextServices Db Font)
    (h : XpsTextExtractionHandler Db) (localName : QString) :
    Option (XpsTextExtractionHandler Db) :=
  if localName = "Canvas".toList then
    match h.matrixes with
    | [] => none
    | m :: rest => some { h with matrix := m, matrixes := rest }
  else if localName = "Canvas.RenderTransform".toList ∨
      localName = "Glyphs.RenderTransform".toList then
    some { h with useMatrix := false }
  else if localName = "Glyphs".toList then
    let att := h.glyphsAtts.value "RenderTransform".toList
    let matrix := if att ≠ [] then parseRscRefMatrix env.tables att * h.matrix else h.matrix
    let text := h.glyphsAtts.value "UnicodeString".toList
    match getFontByName env.fonts h.file (h.glyphsAtts.value "FontUri".toList)
        (toDouble env.tables (h.glyphsAtts.value "FontRenderingEmSize".toList) * 72 / 96) with
    | none => none
    | some loaded =>
      let origin : QPointF := ⟨toDouble env.tables (h.glyphsAtts.value "OriginX".toList),
        toDouble env.tables (h.glyphsAtts.value "OriginY".toList)⟩
      let page := glyphLoop env loaded.1 origin text matrix text.length 0 0 h.textPage
      match h.matrixes with
      | [] => none
      | m :: rest => some { h with matrix := m, matrixes := rest, textPage := page,
                                   file := loaded.2 }
  else some h

/-- The text-extraction visitor on one event. -/
def XpsTextExtractionHandler.handle {Db Font : Type} (env : TextServices Db Font)
    (h : XpsTextExtractionHandler Db) : XmlEvent → Option (XpsTextExtractionHandler Db)
  | XmlEvent.startElement localName atts => some (h.startElement env.tables localName atts)
  | XmlEvent.endElement localName => h.endElement env localName

/-- The text-extraction visitor on a sequence of events. -/
def XpsTextExtractionHandler.run {Db Font : Type} (env : TextServices Db Font) :
    List XmlEvent → XpsTextExtractionHandler Db → Option (XpsTextExtractionHandler Db)
  | [], h => some h
  | e :: es, h =>
    match h.handle env e with
    | none => none
    | some h1 => XpsTextExtractionHandler.run env es h1

/-! ## Well-nested events -/

/-- The event sequences of well-nested documents: a run of elements, each a start event,
the events of its content and the end event of the same name. -/
inductive WellNested : List XmlEvent → Prop where
  | nil : WellNested []
  | element (name : QString) (atts : QXmlAttributes) (inner rest : List XmlEvent) :
    WellNested inner → WellNested rest →
    WellNested (XmlEvent.startElement name atts :: (inner ++ XmlEvent.endElement name :: rest))

/-- An element left open in a document, with the events of the closed elements before it
in its parent. -/
structure OpenElement where
  before : List XmlEvent
  name : QString
  atts : QXmlAttributes

/-- The events up to a point of a document: for each element open at that point, the
outermost first, the closed elements before it and its start event; then the closed
elements of the innermost open element. -/
def eventsUpTo : List OpenElement → List XmlEvent → List XmlEvent
  | [], last => last
  | o :: os, last => o.before ++ XmlEvent.startElement o.name o.atts :: eventsUpTo os last

/-- Whether an element name introduces a scope of the transform stack: Canvas and Glyphs. -/
def isScope (name : QString) : Bool := name = "Canvas".toList || name = "Glyphs".toList

/-- The name of the element of an event. -/
def XmlEvent.name : XmlEvent → QString
  | XmlEvent.startElement localName _ => localName
  | XmlEvent.endElement localName => localName

/-- The width of the first i characters of a text as the loop over a Glyphs element holds
it in lastWidth: 0 before the first character, then the width that the metrics give. -/
def widthUpTo {Db Font : Type} (env : TextServices Db Font) (font : Font) (text : QString)
    (i : Nat) : Int :=
  if i = 0 then 0 else env.width font text i

/-- Every child named MatrixTransform of every node of a stack holds as data the matrix
that attsToMatrix reads from its attribute Matrix. -/
def MatrixChildrenResolved (U : QCharTables) (nodes : List XpsRenderNode) : Prop :=
  ∀ n ∈ nodes, ∀ c ∈ n.children, c.name = "MatrixTransform".toList →
    c.data = some (NodeData.matrix (attsToMatrix U (c.attributes.value "Matrix".toList)))

/-- The font of a Glyphs element with the given attributes resolves for the
text-extraction visitor: getFontByName returns it in every state of the file that is
good, and leaves the file good. -/
def GlyphsFontResolves {Db Font : Type} (env : TextServices Db Font)
    (good : XpsFile Db → Prop) (atts : QXmlAttributes) : Prop :=
  ∀ file, good file →
    ∃ r, getFontByName env.fonts file (atts.value "FontUri".toList)
        (toDouble env.tables (atts.value "FontRenderingEmSize".toList) * 72 / 96) = some r ∧
      good r.2

/-- The font of every Glyphs element that starts in the events resolves. -/
def FontsResolve {Db Font : Type} (env : TextServices Db Font) (good : XpsFile Db → Prop)
    (evs : List XmlEvent) : Prop :=
  ∀ atts, XmlEvent.startElement "Glyphs".toList atts ∈ evs → GlyphsFontResolves env good atts

/-- Render services to try the visitor on: the plain character tables, the blank token,
fuel 100 for each path, the sample font services, and every image at 96 dots per inch. -/
def sampleRender : RenderServices (List (List Nat)) (QString × QString × Int) :=
  ⟨QCharTables.plain, AbbPathToken.blank, 100, sampleServices, fun _ => ⟨96, 96⟩⟩

/-- A painter to try the visitor on: the identity matrix, no brush, the default pen, full
opacity, a font without names, nothing saved and nothing drawn. -/
def samplePainter : QPainter (QString × QString × Int) :=
  ⟨⟨QMatrix.identity, QBrush.empty, QPen.default, 1, ([], [], 0)⟩, [], []⟩

/-- The font state of a file that has loaded no font. -/
def sampleFile : XpsFile (List (List Nat)) := ⟨fun _ => none, []⟩

/-- Text services to try the visitor on: the plain character tables, the sample font
services, every character 10 wide but the combining acute accent, which is 0 wide, a font
height of 12, a page of 100 by 200, and rectangles transformed corner by corner. -/
def sampleText : TextServices (List (List Nat)) (QString × QString × Int) where
  tables := QCharTables.plain
  fonts := sampleServices
  width := fun _ text n => 10 * (((text.take n).filter (fun c => c ≠ Char.ofNat 769)).length : Int)
  height := fun _ => 12
  pageWidth := 100
  pageHeight := 200
  transform := fun r m =>
    ⟨r.left * m.m11 + r.top * m.m21 + m.dx, r.left * m.m12 + r.top * m.m22 + m.dy,
      r.right * m.m11 + r.bottom * m.m21 + m.dx, r.right * m.m12 + r.bottom * m.m22 + m.dy⟩

/-- A text-extraction handler as its constructor leaves it, on an empty text page. -/
def sampleTextHandler : XpsTextExtractionHandler (List (List Nat)) :=
  ⟨[], QMatrix.identity, false, [], [], sampleFile⟩

/-! ## Splitting at a separator -/

theorem split_ne_nil (sep : Char) (s : QString) : split sep s ≠ [] := by
  induction s with
  | nil => simp [split]
  | cons c cs ih =>
    unfold split
    split_ifs
    · simp
    · cases h : split sep cs with
      | nil => exact absurd h ih
      | cons f fs => simp

theorem split_length (sep : Char) (s : QString) :
    (split sep s).length = s.count sep + 1 := by
  induction s with
  | nil => simp [split]
  | cons c cs ih =>
    unfold split
    split_ifs with h
    · subst h
      simp [ih]
    · have hne : (c == sep) = false := by simpa using h
      cases hs : split sep cs with
      | nil => exact absurd hs (split_ne_nil sep cs)
      | cons f fs =>
        rw [hs] at ih
        simp only [List.length_cons] at ih ⊢
        rw [List.count_cons, hne]
        simpa using ih

theorem split_cons_of_ne (sep c : Char) (cs f : QString) (fs : List QString) (hc : c ≠ sep)
    (hs : split sep cs = f :: fs) : split sep (c :: cs) = (c :: f) :: fs := by
  rw [split, if_neg hc, hs]

theorem split_of_not_mem (sep : Char) (f : QString) (h : sep ∉ f) : split sep f = [f] := by
  induction f with
  | nil => simp [split]
  | cons c cs ih =>
    have hc : c ≠ sep := fun e => h (by simp [e])
    have hcs : sep ∉ cs := fun e => h (by simp [e])
    exact split_cons_of_ne sep c cs cs [] hc (ih hcs)

theorem split_append_sep (sep : Char) (f rest : QString) (h : sep ∉ f) :
    split sep (f ++ sep :: rest) = f :: split sep rest := by
  induction f with
  | nil => simp [split]
  | cons c cs ih =>
    have hc : c ≠ sep := fun e => h (by simp [e])
    have hcs : sep ∉ cs := fun e => h (by simp [e])
    exact split_cons_of_ne sep c _ cs _ hc (ih hcs)

theorem split_joinComma (fs : List QString) (hne : fs ≠ []) (h : ∀ f ∈ fs, ',' ∉ f) :
    split ',' (joinComma fs) = fs := by
  induction fs with
  | nil => exact absurd rfl hne
  | cons f gs ih =>
    cases gs with
    | nil => simpa [joinComma] using split_of_not_mem ',' f (h f (by simp))
    | cons g gs =>
      show split ',' (f ++ ',' :: joinComma (g :: gs)) = _
      rw [split_append_sep ',' f _ (h f (by simp)),
        ih (by simp) (fun x hx => h x (List.mem_cons_of_mem _ hx))]

/-- The matrix of six comma-free fields has the readings of the fields as coefficients. -/
theorem attsToMatrix_six (U : QCharTables) (f0 f1 f2 f3 f4 f5 : QString)
    (h : ∀ f ∈ [f0, f1, f2, f3, f4, f5], ',' ∉ f) :
    attsToMatrix U (joinComma [f0, f1, f2, f3, f4, f5]) =
      ⟨toDouble U f0, toDouble U f1, toDouble U f2, toDouble U f3, toDouble U f4,
        toDouble U f5⟩ := by
  unfold attsToMatrix
  rw [split_joinComma _ (by simp) h]
  simp

/-! ## Decimal literals -/

theorem readSign_cases (s : List Char) :
    s = '-' :: (readSign s).2 ∨ s = '+' :: (readSign s).2 ∨ s = (readSign s).2 := by
  unfold readSign
  split <;> simp

theorem readSign_chars (s : List Char) (h : ∀ c ∈ (readSign s).2, isLiteralChar c = true) :
    ∀ c ∈ s, isLiteralChar c = true := by
  intro c hc
  rcases readSign_cases s with e | e | e
  · rw [e] at hc
    rcases List.mem_cons.1 hc with rfl | hc
    · decide
    · exact h c hc
  · rw [e] at hc
    rcases List.mem_cons.1 hc with rfl | hc
    · decide
    · exact h c hc
  · rw [e] at hc
    exact h c hc

theorem isLiteralChar_of_isDigit (c : Char) (h : c.isDigit = true) : isLiteralChar c = true := by
  simp [isLiteralChar, h]

theorem readExponent_chars (s : List Char) (e : Int) (h : readExponent s = some e) :
    ∀ c ∈ s, isLiteralChar c = true := by
  cases s with
  | nil => simp
  | cons a r =>
    by_cases h1 : a = 'e' ∨ a = 'E'
    · by_cases h2 : (readSign r).2 ≠ [] ∧ (readSign r).2.all Char.isDigit = true
      · intro c hc
        rcases List.mem_cons.1 hc with rfl | hc
        · rcases h1 with rfl | rfl <;> decide
        · refine readSign_chars r ?_ c hc
          intro d hd
          exact isLiteralChar_of_isDigit d (List.all_eq_true.1 h2.2 d hd)
      · rw [readExponent, if_pos h1] at h
        simp only [if_neg h2] at h
        exact absurd h (by simp)
    · rw [readExponent, if_neg h1] at h
      exact absurd h (by simp)

theorem takeWhile_dropWhile_chars (t : List Char)
    (h : ∀ c ∈ t.dropWhile Char.isDigit, isLiteralChar c = true) :
    ∀ c ∈ t, isLiteralChar c = true := by
  intro c hc
  rw [← List.takeWhile_append_dropWhile Char.isDigit t] at hc
  rcases List.mem_append.1 hc with hc | hc
  · exact isLiteralChar_of_isDigit c (List.mem_takeWhile_imp hc)
  · exact h c hc

theorem readFraction_chars (t : List Char)
    (h : ∀ c ∈ (readFraction t).2, isLiteralChar c = true) :
    ∀ c ∈ t, isLiteralChar c = true := by
  unfold readFraction at h
  split at h
  · intro c hc
    rcases List.mem_cons.1 hc with rfl | hc
    · decide
    · exact takeWhile_dropWhile_chars _ h c hc
  · exact h

theorem readDecimal_exponent (s : List Char) (v : ℚ) (h : readDecimal s = some v) :
    ∃ e, readExponent (readFraction ((readSign s).2.dropWhile Char.isDigit)).2 = some e := by
  cases he : readExponent (readFraction ((readSign s).2.dropWhile Char.isDigit)).2 with
  | none => simp [readDecimal, he] at h
  | some e => exact ⟨e, rfl⟩

theorem readDecimal_chars (s : List Char) (v : ℚ) (h : readDecimal s = some v) :
    ∀ c ∈ s, isLiteralChar c = true := by
  obtain ⟨e, he⟩ := readDecimal_exponent s v h
  apply readSign_chars
  apply takeWhile_dropWhile_chars
  apply readFraction_chars
  exact readExponent_chars _ e he

theorem isSpace_of_isLiteralChar (U : QCharTables) (c : Char) (h : isLiteralChar c = true) :
    isSpace U c = false := by
  have h1 : c.isDigit = true ∨ c = '+' ∨ c = '-' ∨ c = '.' ∨ c = 'e' ∨ c = 'E' := by
    simpa [isLiteralChar, or_assoc] using h
  rcases h1 with h1 | rfl | rfl | rfl | rfl | rfl
  · have h2 : 48 ≤ c.toNat ∧ c.toNat ≤ 57 := by
      simpa [Char.isDigit, Char.toNat, UInt32.le_def, Nat.le_antisymm_iff] using h1
    simp only [isSpace, charClass, asciiClass]
    rw [if_pos (by omega), if_neg (by omega), if_pos h2]
    decide
  all_goals rfl

theorem trimmed_of_no_space (U : QCharTables) (s : QString)
    (h : ∀ c ∈ s, isSpace U c = false) : trimmed U s = s := by
  have key : ∀ t : List Char, (∀ c ∈ t, isSpace U c = false) → t.dropWhile (isSpace U) = t := by
    intro t ht
    cases t with
    | nil => rfl
    | cons a r => exact List.dropWhile_cons_of_neg (by simp [ht a (by simp)])
  unfold trimmed
  rw [key s h, key s.reverse (fun c hc => h c (List.mem_reverse.1 hc)), List.reverse_reverse]

theorem toDouble_of_readDecimal (U : QCharTables) (s : QString) (v : ℚ)
    (h : readDecimal s = some v) : toDouble U s = v := by
  unfold toDouble
  rw [trimmed_of_no_space U s
    (fun c hc => isSpace_of_isLiteralChar U c (readDecimal_chars s v h c hc)), h]

theorem no_comma_of_readDecimal (s : QString) (v : ℚ) (h : readDecimal s = some v) :
    ',' ∉ s := fun hc => by
  have := readDecimal_chars s v h ',' hc
  revert this
  decide

/-! ## Colours -/

theorem hex2int_of_isHexDigit (c : Char) (h : isHexDigit c = true) :
    hex2int c = hexDigitValue c ∧ 0 ≤ hexDigitValue c ∧ hexDigitValue c ≤ 15 ∧
      c ≠ Char.ofNat 0 := by
  have key : ∀ d ∈ "0123456789abcdefABCDEF".toList,
      hex2int d = hexDigitValue d ∧ 0 ≤ hexDigitValue d ∧ hexDigitValue d ≤ 15 ∧
        d ≠ Char.ofNat 0 := by decide
  exact key c (by simpa [isHexDigit] using h)

theorem toUInt_of_byte (x : Int) (h0 : 0 ≤ x) (h1 : x ≤ 255) : ¬ toUInt x > 255 := by
  unfold toUInt
  rw [Int.emod_eq_of_lt h0 (by omega)]
  omega

theorem fromRgba_of_bytes (r g b a : Int) (hr : 0 ≤ r ∧ r ≤ 255) (hg : 0 ≤ g ∧ g ≤ 255)
    (hb : 0 ≤ b ∧ b ≤ 255) (ha : 0 ≤ a ∧ a ≤ 255) :
    QColor.fromRgba r g b a = QColor.rgba r g b a := by
  unfold QColor.fromRgba
  rw [if_neg]
  simp only [not_or]
  exact ⟨toUInt_of_byte r hr.1 hr.2, toUInt_of_byte g hg.1 hg.2, toUInt_of_byte b hb.1 hb.2,
    toUInt_of_byte a ha.1 ha.2⟩

theorem cstr_cons (c : Char) (r : List Char) (h : c ≠ Char.ofNat 0) :
    cstr (c :: r) = c :: cstr r := by
  unfold cstr
  exact List.takeWhile_cons_of_pos (by simpa using h)

/-- The colour made of byte values is the valid colour of these channels. -/
theorem hexToRgba_bytes (s : List Char) (r g b a : Int) (h : cstr s = s)
    (hs : charAt s 0 = '#')
    (hv : (if (s.drop 1).length = 6 then
            (hexPair (s.drop 1) 0, hexPair (s.drop 1) 2, hexPair (s.drop 1) 4, (255 : Int))
          else if (s.drop 1).length = 8 then
            (hexPair (s.drop 1) 2, hexPair (s.drop 1) 4, hexPair (s.drop 1) 6,
              hexPair (s.drop 1) 0)
          else (-1, -1, -1, 255)) = (r, g, b, a))
    (hr : 0 ≤ r ∧ r ≤ 255) (hg : 0 ≤ g ∧ g ≤ 255) (hb : 0 ≤ b ∧ b ≤ 255)
    (ha : 0 ≤ a ∧ a ≤ 255) : hexToRgba s = QColor.rgba r g b a := by
  unfold hexToRgba
  simp only [h, hs, hv, ne_eq, not_true_eq_false, if_false]
  rw [if_neg, fromRgba_of_bytes r g b a hr hg hb ha]
  simp only [not_or]
  exact ⟨toUInt_of_byte r hr.1 hr.2, toUInt_of_byte g hg.1 hg.2, toUInt_of_byte b hb.1 hb.2⟩

/-- C4. A colour string made of the number sign and hex digits only: six digits RRGGBB give
the valid colour with these red, green and blue bytes and alpha 255; eight digits AARRGGBB
give the valid colour whose alpha is the first byte and whose red, green and blue are the
second, third and fourth. -/
theorem hexToRgba_hex_digits (c1 c2 c3 c4 c5 c6 c7 c8 : Char)
    (h1 : isHexDigit c1 = true) (h2 : isHexDigit c2 = true) (h3 : isHexDigit c3 = true)
    (h4 : isHexDigit c4 = true) (h5 : isHexDigit c5 = true) (h6 : isHexDigit c6 = true)
    (h7 : isHexDigit c7 = true) (h8 : isHexDigit c8 = true) :
    hexToRgba ['#', c1, c2, c3, c4, c5, c6] =
        QColor.rgba (16 * hexDigitValue c1 + hexDigitValue c2)
          (16 * hexDigitValue c3 + hexDigitValue c4)
          (16 * hexDigitValue c5 + hexDigitValue c6) 255 ∧
      hexToRgba ['#', c1, c2, c3, c4, c5, c6, c7, c8] =
        QColor.rgba (16 * hexDigitValue c3 + hexDigitValue c4)
          (16 * hexDigitValue c5 + hexDigitValue c6)
          (16 * hexDigitValue c7 + hexDigitValue c8)
          (16 * hexDigitValue c1 + hexDigitValue c2) := by
  obtain ⟨e1, l1, u1, n1⟩ := hex2int_of_isHexDigit c1 h1
  obtain ⟨e2, l2, u2, n2⟩ := hex2int_of_isHexDigit c2 h2
  obtain ⟨e3, l3, u3, n3⟩ := hex2int_of_isHexDigit c3 h3
  obtain ⟨e4, l4, u4, n4⟩ := hex2int_of_isHexDigit c4 h4
  obtain ⟨e5, l5, u5, n5⟩ := hex2int_of_isHexDigit c5 h5
  obtain ⟨e6, l6, u6, n6⟩ := hex2int_of_isHexDigit c6 h6
  obtain ⟨e7, l7, u7, n7⟩ := hex2int_of_isHexDigit c7 h7
  obtain ⟨e8, l8, u8, n8⟩ := hex2int_of_isHexDigit c8 h8
  have hnum : '#' ≠ Char.ofNat 0 := by decide
  have hnil : cstr [] = [] := rfl
  constructor
  · apply hexToRgba_bytes
    · rw [cstr_cons _ _ hnum, cstr_cons _ _ n1, cstr_cons _ _ n2, cstr_cons _ _ n3,
        cstr_cons _ _ n4, cstr_cons _ _ n5, cstr_cons _ _ n6, hnil]
    · rfl
    · simp only [List.drop_succ_cons, List.drop_zero, List.length_cons, List.length_nil,
        hexPair, charAt, List.getD_cons_zero, List.getD_cons_succ, e1, e2, e3, e4, e5, e6]
      simp [mul_comm]
    all_goals constructor <;> omega
  · apply hexToRgba_bytes
    · rw [cstr_cons _ _ hnum, cstr_cons _ _ n1, cstr_cons _ _ n2, cstr_cons _ _ n3,
        cstr_cons _ _ n4, cstr_cons _ _ n5, cstr_cons _ _ n6, cstr_cons _ _ n7,
        cstr_cons _ _ n8, hnil]
    · rfl
    · simp only [List.drop_succ_cons, List.drop_zero, List.length_cons, List.length_nil,
        hexPair, charAt, List.getD_cons_zero, List.getD_cons_succ, e1, e2, e3, e4, e5, e6,
        e7, e8]
      simp [mul_comm]
    all_goals constructor <;> omega

theorem hexToRgba_hex_digits_witness :
    (isHexDigit '8' = true ∧ isHexDigit '0' = true ∧ isHexDigit 'f' = true ∧
      isHexDigit 'F' = true ∧ isHexDigit 'a' = true ∧ isHexDigit '1' = true ∧
      isHexDigit '2' = true ∧ isHexDigit 'C' = true) ∧
    hexToRgba ['#', '8', '0', 'f', 'F', 'a', '1'] =
        QColor.rgba (16 * hexDigitValue '8' + hexDigitValue '0')
          (16 * hexDigitValue 'f' + hexDigitValue 'F')
          (16 * hexDigitValue 'a' + hexDigitValue '1') 255 ∧
      hexToRgba ['#', '8', '0', 'f', 'F', 'a', '1', '2', 'C'] =
        QColor.rgba (16 * hexDigitValue 'f' + hexDigitValue 'F')
          (16 * hexDigitValue 'a' + hexDigitValue '1')
          (16 * hexDigitValue '2' + hexDigitValue 'C')
          (16 * hexDigitValue '8' + hexDigitValue '0') :=
  ⟨by decide, hexToRgba_hex_digits '8' '0' 'f' 'F' 'a' '1' '2' 'C' (by decide) (by decide)
    (by decide) (by decide) (by decide) (by decide) (by decide) (by decide)⟩

/-- C5. The string #1G0000 has the non-hex character G in the low nibble of the red byte,
and hexToRgba answers the valid colour with red 15: the -1 of hex2int is added to the
shifted high nibble 16 and the sum is within 0..255. The same happens in the alpha byte
of the string #1GFF0000. -/
theorem hexToRgba_low_nibble_accepted :
    hex2int 'G' = -1 ∧ hexToRgba "#1G0000".toList = QColor.rgba 15 0 0 255 ∧
      hexToRgba "#1GFF0000".toList = QColor.rgba 255 0 0 15 := by decide

/-- C6. A colour string that starts with the number sign and goes on for a number of
characters other than 6 and 8 (up to the end of the C string) is the invalid colour. -/
theorem hexToRgba_wrong_length (rest : List Char) (h6 : (cstr rest).length ≠ 6)
    (h8 : (cstr rest).length ≠ 8) : hexToRgba ('#' :: rest) = QColor.invalid := by
  unfold hexToRgba
  rw [cstr_cons _ _ (by decide)]
  simp only [List.drop_succ_cons, List.drop_zero, if_neg h6, if_neg h8]
  have : toUInt (-1) > 255 := by decide
  simp [this]

theorem hexToRgba_wrong_length_witness :
    ((cstr "12345".toList).length ≠ 6 ∧ (cstr "12345".toList).length ≠ 8) ∧
      hexToRgba ('#' :: "12345".toList) = QColor.invalid :=
  ⟨by decide, hexToRgba_wrong_length "12345".toList (by decide) (by decide)⟩

/-! ## Matrices -/

/-- C1. Six comma-separated fields, each a decimal literal, give the matrix whose
coefficients m11, m12, m21, m22, dx, dy are the values of the six literals in the order
written. -/
theorem attsToMatrix_literals (U : QCharTables) (f0 f1 f2 f3 f4 f5 : QString)
    (v0 v1 v2 v3 v4 v5 : ℚ) (h0 : readDecimal f0 = some v0) (h1 : readDecimal f1 = some v1)
    (h2 : readDecimal f2 = some v2) (h3 : readDecimal f3 = some v3)
    (h4 : readDecimal f4 = some v4) (h5 : readDecimal f5 = some v5) :
    attsToMatrix U (joinComma [f0, f1, f2, f3, f4, f5]) = ⟨v0, v1, v2, v3, v4, v5⟩ := by
  rw [attsToMatrix_six U f0 f1 f2 f3 f4 f5]
  · rw [toDouble_of_readDecimal U f0 v0 h0, toDouble_of_readDecimal U f1 v1 h1,
      toDouble_of_readDecimal U f2 v2 h2, toDouble_of_readDecimal U f3 v3 h3,
      toDouble_of_readDecimal U f4 v4 h4, toDouble_of_readDecimal U f5 v5 h5]
  · intro f hf
    simp only [List.mem_cons, List.mem_singleton, List.not_mem_nil, or_false] at hf
    rcases hf with rfl | rfl | rfl | rfl | rfl | rfl
    · exact no_comma_of_readDecimal _ v0 h0
    · exact no_comma_of_readDecimal _ v1 h1
    · exact no_comma_of_readDecimal _ v2 h2
    · exact no_comma_of_readDecimal _ v3 h3
    · exact no_comma_of_readDecimal _ v4 h4
    · exact no_comma_of_readDecimal _ v5 h5

theorem attsToMatrix_literals_witness :
    (readDecimal "1.5".toList = some (3 / 2) ∧ readDecimal "-2".toList = some (-2) ∧
      readDecimal "0".toList = some 0 ∧ readDecimal "+4".toList = some 4 ∧
      readDecimal "2e1".toList = some 20 ∧ readDecimal ".25".toList = some (1 / 4)) ∧
    attsToMatrix QCharTables.plain "1.5,-2,0,+4,2e1,.25".toList =
      ⟨3 / 2, -2, 0, 4, 20, 1 / 4⟩ :=
  ⟨by decide!, attsToMatrix_literals QCharTables.plain "1.5".toList "-2".toList "0".toList
    "+4".toList "2e1".toList ".25".toList (3 / 2) (-2) 0 4 20 (1 / 4) (by decide!) (by decide!)
    (by decide!) (by decide!) (by decide!) (by decide!)⟩

/-- C2. A string with a number of comma-separated fields other than six, that is with a
number of commas other than five, gives the identity matrix. -/
theorem attsToMatrix_wrong_count (U : QCharTables) (csv : QString)
    (h : csv.count ',' + 1 ≠ 6) : attsToMatrix U csv = QMatrix.identity := by
  unfold attsToMatrix
  simp only [split_length]
  rw [if_pos h]

theorem attsToMatrix_wrong_count_witness :
    ("".toList.count ',' + 1 ≠ 6 ∧ "1,2,3,4,5".toList.count ',' + 1 ≠ 6 ∧
      "1,2,3,4,5,6,7".toList.count ',' + 1 ≠ 6) ∧
    attsToMatrix QCharTables.plain "".toList = QMatrix.identity ∧
    attsToMatrix QCharTables.plain "1,2,3,4,5".toList = QMatrix.identity ∧
    attsToMatrix QCharTables.plain "1,2,3,4,5,6,7".toList = QMatrix.identity :=
  ⟨by decide, attsToMatrix_wrong_count QCharTables.plain "".toList (by decide),
    attsToMatrix_wrong_count QCharTables.plain "1,2,3,4,5".toList (by decide),
    attsToMatrix_wrong_count QCharTables.plain "1,2,3,4,5,6,7".toList (by decide)⟩

/-- C3, as stated, fails: the six fields of a,b,c,d,e,f are no numbers and the result is the
all-zero matrix, which is not the identity. -/
theorem attsToMatrix_non_numeric_not_identity :
    attsToMatrix QCharTables.plain "a,b,c,d,e,f".toList = ⟨0, 0, 0, 0, 0, 0⟩ ∧
      attsToMatrix QCharTables.plain "a,b,c,d,e,f".toList ≠ QMatrix.identity := by decide!

/-- C3, amended. With six comma-separated fields there is no fall-back to the identity: the
coefficients are the readings of the six fields in order, and the reading of a field that
is no number is 0. -/
theorem attsToMatrix_six_fields (U : QCharTables) (fs : List QString) (hlen : fs.length = 6)
    (hc : ∀ f ∈ fs, ',' ∉ f) :
    (attsToMatrix U (joinComma fs)).coefficients = fs.map (toDouble U) ∧
      ∀ f ∈ fs, readDecimal (trimmed U f) = none → toDouble U f = 0 := by
  constructor
  · match fs, hlen with
    | [f0, f1, f2, f3, f4, f5], _ =>
      rw [attsToMatrix_six U f0 f1 f2 f3 f4 f5 hc]
      rfl
  · intro f _ hf
    simp [toDouble, hf]

theorem attsToMatrix_six_fields_witness :
    (["a", "1", "c", "d", "e", "f"].map String.toList).length = 6 ∧
    (∀ f ∈ ["a", "1", "c", "d", "e", "f"].map String.toList, ',' ∉ f) ∧
    (attsToMatrix QCharTables.plain
        (joinComma (["a", "1", "c", "d", "e", "f"].map String.toList))).coefficients =
      (["a", "1", "c", "d", "e", "f"].map String.toList).map (toDouble QCharTables.plain) ∧
    ∀ f ∈ ["a", "1", "c", "d", "e", "f"].map String.toList,
      readDecimal (trimmed QCharTables.plain f) = none → toDouble QCharTables.plain f = 0 :=
  ⟨by decide, by decide,
    attsToMatrix_six_fields QCharTables.plain (["a", "1", "c", "d", "e", "f"].map String.toList)
      (by decide) (by decide)⟩

/-! ## The tokenizer on well-formed text -/

theorem plainChar_class (U : QCharTables) (c : Char) (h : isPlainChar c = true) :
    isSpace U c = false ∧ inNumber U c = true := by
  have h1 : c.isDigit = true ∨ c = '+' ∨ c = '-' ∨ c = '.' := by
    simpa [isPlainChar, or_assoc] using h
  rcases h1 with h1 | rfl | rfl | rfl
  · have h2 : 48 ≤ c.toNat ∧ c.toNat ≤ 57 := by
      simpa [Char.isDigit, Char.toNat, UInt32.le_def, Nat.le_antisymm_iff] using h1
    have hcls : charClass U c = CharClass.number := by
      simp only [charClass, asciiClass]
      rw [if_pos (by omega), if_neg (by omega), if_pos h2]
    have hne : c ≠ ',' := by
      rintro rfl
      revert h2
      decide
    simp [isSpace, inNumber, isLetter, hcls, hne]
  all_goals exact ⟨rfl, rfl⟩

theorem plainNumber_head (U : QCharTables) (c : Char) (r : List Char)
    (h : isPlainNumber (c :: r) = true) :
    (isNumber U c = true ∨ c = '+' ∨ c = '-') ∧ isPlainChar c = true ∧
      ∀ d ∈ r, isPlainChar d = true := by
  have h0 : (c.isDigit = true ∨ c = '+' ∨ c = '-') ∧ ∀ d ∈ r, isPlainChar d = true := by
    simpa [isPlainNumber, or_assoc] using h
  refine ⟨?_, ?_, h0.2⟩
  · rcases h0.1 with h1 | h1 | h1
    · have h2 : 48 ≤ c.toNat ∧ c.toNat ≤ 57 := by
        simpa [Char.isDigit, Char.toNat, UInt32.le_def, Nat.le_antisymm_iff] using h1
      left
      simp only [isNumber, charClass, asciiClass]
      rw [if_pos (by omega), if_neg (by omega), if_pos h2]
      rfl
    · exact Or.inr (Or.inl h1)
    · exact Or.inr (Or.inr h1)
  · rcases h0.1 with h1 | rfl | rfl
    · simp [isPlainChar, h1]
    · rfl
    · rfl

theorem takeWhile_stop {p : Char → Bool} (xs ys : List Char) (hx : ∀ c ∈ xs, p c = true)
    (hy : ys = [] ∨ ∃ d r, ys = d :: r ∧ p d = false) :
    (xs ++ ys).takeWhile p = xs := by
  rw [List.takeWhile_append_of_pos hx]
  rcases hy with rfl | ⟨d, r, rfl, hd⟩
  · simp
  · simp [List.takeWhile_cons, hd]

theorem drop_add_of_drop (data : List Char) (pos : Nat) (xs ys : List Char)
    (h : data.drop pos = xs ++ ys) : data.drop (pos + xs.length) = ys := by
  rw [← List.drop_drop, h, List.drop_left]

/-- The tokenizer on spaces, a plain number, and text that ends the number. -/
theorem nextAbbPathToken_number (U : QCharTables) (t : AbbPathToken) (ws s r : List Char)
    (hrest : t.data.drop t.curPos = ws ++ (s ++ r)) (hws : ∀ c ∈ ws, isSpace U c = true)
    (hs : isPlainNumber s = true) (hr : r = [] ∨ ∃ d r1, r = d :: r1 ∧ inNumber U d = false) :
    nextAbbPathToken U t =
      (true, { t with curPos := t.curPos + ws.length + s.length, number := toDouble U s,
                      type := AbbPathTokenType.abtNumber }) := by
  cases s with
  | nil => simp [isPlainNumber] at hs
  | cons c s1 =>
    obtain ⟨hhead, hc, hs1⟩ := plainNumber_head U c s1 hs
    have hall : ∀ d ∈ c :: s1, inNumber U d = true := by
      intro d hd
      rcases List.mem_cons.1 hd with rfl | hd
      · exact (plainChar_class U _ hc).2
      · exact (plainChar_class U d (hs1 d hd)).2
    have hsp : (t.data.drop t.curPos).takeWhile (isSpace U) = ws := by
      rw [hrest]
      exact takeWhile_stop ws _ hws (Or.inr ⟨c, s1 ++ r, rfl, (plainChar_class U c hc).1⟩)
    have hdrop : t.data.drop (t.curPos + ws.length) = (c :: s1) ++ r :=
      drop_add_of_drop _ _ _ _ hrest
    have htake : ((c :: s1) ++ r).takeWhile (inNumber U) = c :: s1 :=
      takeWhile_stop _ _ hall hr
    unfold nextAbbPathToken
    simp only [hsp, hdrop]
    rw [List.cons_append]
    simp only
    rw [if_pos hhead, ← List.cons_append, htake]
    simp only [mid, hdrop, List.take_left]

/-- The tokenizer on spaces and a comma. -/
theorem nextAbbPathToken_comma (U : QCharTables) (t : AbbPathToken) (ws r : List Char)
    (hrest : t.data.drop t.curPos = ws ++ ',' :: r) (hws : ∀ c ∈ ws, isSpace U c = true) :
    nextAbbPathToken U t =
      (true, { t with curPos := t.curPos + ws.length + 1,
                      type := AbbPathTokenType.abtComma }) := by
  have hsp : (t.data.drop t.curPos).takeWhile (isSpace U) = ws := by
    rw [hrest]
    exact takeWhile_stop ws _ hws (Or.inr ⟨',', r, rfl, rfl⟩)
  have hdrop : t.data.drop (t.curPos + ws.length) = ',' :: r :=
    drop_add_of_drop _ _ _ _ hrest
  have hn : isNumber U ',' = false := rfl
  unfold nextAbbPathToken
  simp only [hsp, hdrop]
  rw [if_neg (by simp [hn]), if_pos trivial]

/-- The letters the interpreter knows as commands, in either case. -/
theorem asciiLetter_class (U : QCharTables) (c : Char)
    (h : (65 ≤ c.toNat ∧ c.toNat ≤ 90) ∨ (97 ≤ c.toNat ∧ c.toNat ≤ 122)) :
    isSpace U c = false ∧ isNumber U c = false ∧ isLetter U c = true ∧ c ≠ '+' ∧ c ≠ '-' ∧
      c ≠ ',' ∧ inNumber U c = false ∧ cell c = c := by
  have hcls : charClass U c = CharClass.letter := by
    simp only [charClass, asciiClass]
    rw [if_pos (by omega), if_neg (by omega), if_neg (by omega), if_pos h]
  have h1 : c ≠ '+' := by
    rintro rfl
    revert h
    decide
  have h2 : c ≠ '-' := by
    rintro rfl
    revert h
    decide
  have h3 : c ≠ ',' := by
    rintro rfl
    revert h
    decide
  have h4 : cell c = c := by
    unfold cell
    rw [Nat.mod_eq_of_lt (by omega)]
    exact Char.ofNat_toNat c
  simp [isSpace, isNumber, isLetter, inNumber, hcls, h1, h2, h3, h4]

/-- The tokenizer on spaces and an ASCII letter. -/
theorem nextAbbPathToken_command (U : QCharTables) (t : AbbPathToken) (ws r : List Char)
    (c : Char) (hc : (65 ≤ c.toNat ∧ c.toNat ≤ 90) ∨ (97 ≤ c.toNat ∧ c.toNat ≤ 122))
    (hrest : t.data.drop t.curPos = ws ++ c :: r) (hws : ∀ d ∈ ws, isSpace U d = true) :
    nextAbbPathToken U t =
      (true, { t with curPos := t.curPos + ws.length + 1,
                      type := AbbPathTokenType.abtCommand, command := c }) := by
  obtain ⟨k1, k2, k3, k4, k5, k6, _, k8⟩ := asciiLetter_class U c hc
  have hsp : (t.data.drop t.curPos).takeWhile (isSpace U) = ws := by
    rw [hrest]
    exact takeWhile_stop ws _ hws (Or.inr ⟨c, r, rfl, k1⟩)
  have hdrop : t.data.drop (t.curPos + ws.length) = c :: r :=
    drop_add_of_drop _ _ _ _ hrest
  unfold nextAbbPathToken
  simp only [hsp, hdrop]
  rw [if_neg (by simp [k2, k4, k5]), if_neg k6, if_pos k3, k8]

/-- The tokenizer on spaces up to the end of the text. -/
theorem nextAbbPathToken_eof (U : QCharTables) (t : AbbPathToken) (ws : List Char)
    (hrest : t.data.drop t.curPos = ws) (hws : ∀ d ∈ ws, isSpace U d = true) :
    nextAbbPathToken U t =
      (true, { t with curPos := t.curPos + ws.length, type := AbbPathTokenType.abtEOF }) := by
  have hsp : (t.data.drop t.curPos).takeWhile (isSpace U) = ws := by
    rw [hrest]
    simpa using takeWhile_stop ws [] hws (Or.inl rfl)
  have hdrop : t.data.drop (t.curPos + ws.length) = [] := by
    have := drop_add_of_drop t.data t.curPos ws [] (by simpa using hrest)
    exact this
  unfold nextAbbPathToken
  simp only [hsp, hdrop]

/-! ## The tokenizer, by the text left to read -/

theorem number_rest (U : QCharTables) (t : AbbPathToken) (ws s r : List Char)
    (hrest : t.data.drop t.curPos = ws ++ (s ++ r)) (hws : ∀ c ∈ ws, isSpace U c = true)
    (hs : isPlainNumber s = true) (hr : r = [] ∨ ∃ d r1, r = d :: r1 ∧ inNumber U d = false) :
    ∃ t1, nextAbbPathToken U t = (true, t1) ∧ t1.data = t.data ∧
      t1.type = AbbPathTokenType.abtNumber ∧ t1.number = toDouble U s ∧
      t1.command = t.command ∧ t1.data.drop t1.curPos = r := by
  refine ⟨_, nextAbbPathToken_number U t ws s r hrest hws hs hr, rfl, rfl, rfl, rfl, ?_⟩
  have hd := drop_add_of_drop t.data t.curPos (ws ++ s) r (by simpa using hrest)
  have he : t.curPos + ws.length + s.length = t.curPos + (ws ++ s).length := by
    rw [List.length_append, Nat.add_assoc]
  show t.data.drop (t.curPos + ws.length + s.length) = r
  rw [he, hd]

theorem comma_rest (U : QCharTables) (t : AbbPathToken) (ws r : List Char)
    (hrest : t.data.drop t.curPos = ws ++ ',' :: r) (hws : ∀ c ∈ ws, isSpace U c = true) :
    ∃ t1, nextAbbPathToken U t = (true, t1) ∧ t1.data = t.data ∧
      t1.type = AbbPathTokenType.abtComma ∧ t1.number = t.number ∧
      t1.command = t.command ∧ t1.data.drop t1.curPos = r := by
  refine ⟨_, nextAbbPathToken_comma U t ws r hrest hws, rfl, rfl, rfl, rfl, ?_⟩
  have hd := drop_add_of_drop t.data t.curPos (ws ++ [',']) r (by simpa using hrest)
  have he : t.curPos + ws.length + 1 = t.curPos + (ws ++ [',']).length := by
    rw [List.length_append, Nat.add_assoc]
    rfl
  show t.data.drop (t.curPos + ws.length + 1) = r
  rw [he, hd]

theorem command_rest (U : QCharTables) (t : AbbPathToken) (ws r : List Char) (c : Char)
    (hc : (65 ≤ c.toNat ∧ c.toNat ≤ 90) ∨ (97 ≤ c.toNat ∧ c.toNat ≤ 122))
    (hrest : t.data.drop t.curPos = ws ++ c :: r) (hws : ∀ d ∈ ws, isSpace U d = true) :
    ∃ t1, nextAbbPathToken U t = (true, t1) ∧ t1.data = t.data ∧ t1.number = t.number ∧
      AtCommand t1 c r := by
  refine ⟨_, nextAbbPathToken_command U t ws r c hc hrest hws, rfl, rfl, rfl, rfl, ?_⟩
  have hd := drop_add_of_drop t.data t.curPos (ws ++ [c]) r (by simpa using hrest)
  have he : t.curPos + ws.length + 1 = t.curPos + (ws ++ [c]).length := by
    rw [List.length_append, Nat.add_assoc]
    rfl
  show t.data.drop (t.curPos + ws.length + 1) = r
  rw [he, hd]

theorem eof_rest (U : QCharTables) (t : AbbPathToken) (ws : List Char)
    (hrest : t.data.drop t.curPos = ws) (hws : ∀ d ∈ ws, isSpace U d = true) :
    ∃ t1, nextAbbPathToken U t = (true, t1) ∧ t1.type = AbbPathTokenType.abtEOF :=
  ⟨_, nextAbbPathToken_eof U t ws hrest hws, rfl⟩

theorem space_is_space (U : QCharTables) : ∀ c ∈ [' '], isSpace U c = true := by
  intro c hc
  rw [List.mem_singleton.1 hc]
  rfl

/-! ## The interpreter on move, line and close -/

theorem whileNumber_once (body : ParserState → ParserState) (fuel : Nat) (s : ParserState)
    (h1 : s.token.type = AbbPathTokenType.abtNumber)
    (h2 : (body s).token.type ≠ AbbPathTokenType.abtNumber) :
    whileNumber body (fuel + 1) s = some (body s) := by
  rw [whileNumber, if_pos h1]
  cases fuel with
  | zero => rw [whileNumber, if_neg h2]
  | succ n => rw [whileNumber, if_neg h2]

/-- After a command letter, the tokenizer reads the x of a written point. -/
theorem nextAbbPathToken_point_x (U : QCharTables) (t : AbbPathToken) (p : WrittenPoint)
    (r : List Char) (hp : p.wellFormed) (hrest : t.data.drop t.curPos = ' ' :: (p.text ++ r)) :
    ∃ t1, (nextAbbPathToken U t).2 = t1 ∧ t1.type = AbbPathTokenType.abtNumber ∧
      t1.number = p.x ∧ t1.data.drop t1.curPos = ',' :: (p.yText ++ r) := by
  obtain ⟨t1, h1, _, k2, k3, _, k5⟩ := number_rest U t [' '] p.xText (',' :: (p.yText ++ r))
    (by simpa [WrittenPoint.text] using hrest) (space_is_space U) hp.1.1
    (Or.inr ⟨',', _, rfl, rfl⟩)
  exact ⟨t1, by rw [h1], k2, by rw [k3, toDouble_of_readDecimal U _ _ hp.1.2], k5⟩

/-- The function getPointFromString on the rest of a written point that a space and a
command letter follow: the point is the one written, and the token is the letter. -/
theorem getPointFromString_written (U : QCharTables) (t : AbbPathToken) (p : WrittenPoint)
    (c : Char) (r : List Char) (cur : QPointF) (hp : p.wellFormed)
    (hc : (65 ≤ c.toNat ∧ c.toNat ≤ 90) ∨ (97 ≤ c.toNat ∧ c.toNat ≤ 122))
    (hx : t.number = p.x) (hrest : t.data.drop t.curPos = ',' :: (p.yText ++ ' ' :: c :: r)) :
    ∃ t3, getPointFromString U t false cur = (p.point, t3) ∧ AtCommand t3 c r := by
  obtain ⟨t1, h1, _, _, _, _, r1⟩ := comma_rest U t [] (p.yText ++ ' ' :: c :: r)
    (by simpa using hrest) (by simp)
  obtain ⟨t2, h2, _, _, n2, _, r2⟩ := number_rest U t1 [] p.yText (' ' :: c :: r)
    (by simpa using r1) (by simp) hp.2.1 (Or.inr ⟨' ', _, rfl, rfl⟩)
  obtain ⟨t3, h3, _, _, a3⟩ := command_rest U t2 [' '] r c hc (by simpa using r2)
    (space_is_space U)
  refine ⟨t3, ?_, a3⟩
  unfold getPointFromString
  simp only [h1, h2, h3, hx, n2, toDouble_of_readDecimal U _ _ hp.2.2, WrittenPoint.point]
  rfl

theorem runCommand_m (U : QCharTables) (fuel : Nat) (rel : Bool) (cur : QPointF)
    (s : ParserState) :
    runCommand U fuel 'm' rel cur s = whileNumber (moveBody U rel cur) fuel s := rfl

theorem runCommand_l (U : QCharTables) (fuel : Nat) (rel : Bool) (cur : QPointF)
    (s : ParserState) :
    runCommand U fuel 'l' rel cur s = whileNumber (lineBody U rel cur) fuel s := rfl

theorem runCommand_z (U : QCharTables) (fuel : Nat) (rel : Bool) (cur : QPointF)
    (s : ParserState) :
    runCommand U fuel 'z' rel cur s = some { s with path := s.path.call PathCall.closeSubpath } :=
  rfl

theorem parseLoop_command (U : QCharTables) (fuel : Nat) (s : ParserState)
    (h : s.token.type = AbbPathTokenType.abtCommand) :
    parseLoop U (fuel + 1) s =
      match runCommand U fuel (cell (toLower U (cell s.token.command)))
          (isLower U (cell s.token.command)) s.path.currentPosition
          { s with token := (nextAbbPathToken U s.token).2 } with
      | none => none
      | some s2 =>
        parseLoop U fuel { s2 with lastCommand := cell (toLower U (cell s.token.command)) } := by
  rw [parseLoop, if_neg (by simp [h])]

theorem parseLoop_done (U : QCharTables) (fuel : Nat) (s : ParserState)
    (h : s.token.type ≠ AbbPathTokenType.abtCommand) : parseLoop U fuel s = some s.path := by
  cases fuel with
  | zero => rw [parseLoop, if_pos h]
  | succ n => rw [parseLoop, if_pos h]

/-- One turn of the loop on an absolute move or line with one written point, which a space
and a command letter follow. -/
theorem parseLoop_point (U : QCharTables) (s : ParserState) (C : Char)
    (mk : QPointF → PathCall) (p : WrittenPoint) (c : Char) (r : List Char) (fuel : Nat)
    (hC : (C = 'M' ∧ mk = PathCall.moveTo) ∨ (C = 'L' ∧ mk = PathCall.lineTo))
    (hp : p.wellFormed)
    (hc : (65 ≤ c.toNat ∧ c.toNat ≤ 90) ∨ (97 ≤ c.toNat ∧ c.toNat ≤ 122))
    (hs : AtCommand s.token C (' ' :: (p.text ++ ' ' :: c :: r))) :
    ∃ t3 lc, AtCommand t3 c r ∧
      parseLoop U (fuel + 2) s =
        parseLoop U (fuel + 1) ⟨s.path.call (mk p.point), t3, lc, s.lastSecondControlPoint⟩ := by
  obtain ⟨htype, hcmd, hrest⟩ := hs
  obtain ⟨t1, e1, ty1, nx, rest1⟩ :=
    nextAbbPathToken_point_x U s.token p (' ' :: c :: r) hp hrest
  obtain ⟨t3, e3, a3⟩ :=
    getPointFromString_written U t1 p c r s.path.currentPosition hp hc nx rest1
  have hnum : AbbPathTokenType.abtCommand ≠ AbbPathTokenType.abtNumber := by decide
  rcases hC with ⟨rfl, rfl⟩ | ⟨rfl, rfl⟩
  · refine ⟨t3, 'm', a3, ?_⟩
    have h1 : cell (toLower U (cell 'M')) = 'm' := rfl
    have h2 : isLower U (cell 'M') = false := rfl
    rw [parseLoop_command U (fuel + 1) s htype, hcmd, h1, h2, e1, runCommand_m,
      whileNumber_once _ _ _ ty1 (by simp [moveBody, e3, a3.1])]
    simp [moveBody, e3]
  · refine ⟨t3, 'l', a3, ?_⟩
    have h1 : cell (toLower U (cell 'L')) = 'l' := rfl
    have h2 : isLower U (cell 'L') = false := rfl
    rw [parseLoop_command U (fuel + 1) s htype, hcmd, h1, h2, e1, runCommand_l,
      whileNumber_once _ _ _ ty1 (by simp [lineBody, e3, a3.1])]
    simp [lineBody, e3]

/-- The turn of the loop on a final Z. -/
theorem parseLoop_close (U : QCharTables) (s : ParserState) (fuel : Nat)
    (hs : AtCommand s.token 'Z' []) :
    parseLoop U (fuel + 1) s = some (s.path.call PathCall.closeSubpath) := by
  obtain ⟨htype, hcmd, hrest⟩ := hs
  obtain ⟨t1, e1, ty1⟩ := eof_rest U s.token [] hrest (by simp)
  have h1 : cell (toLower U (cell 'Z')) = 'z' := rfl
  rw [parseLoop_command U fuel s htype, hcmd, h1, runCommand_z, e1]
  simp only
  rw [parseLoop_done]
  simp [ty1]

theorem segmentsText_head (ps : List WrittenPoint) :
    ∃ c r, segmentsText ps = ' ' :: c :: r ∧
      ((65 ≤ c.toNat ∧ c.toNat ≤ 90) ∨ (97 ≤ c.toNat ∧ c.toNat ≤ 122)) := by
  cases ps with
  | nil => exact ⟨'Z', [], rfl, by decide⟩
  | cons p ps => exact ⟨'L', _, rfl, by decide⟩

/-- The loop from an L or the Z on: the written points give one lineTo each, the Z a
close. -/
theorem parseLoop_segments (U : QCharTables) (ps : List WrittenPoint) :
    ∀ (s : ParserState) (fuel : Nat) (c : Char) (r : List Char),
      (∀ q ∈ ps, q.wellFormed) → ps.length + 1 ≤ fuel → segmentsText ps = ' ' :: c :: r →
      AtCommand s.token c r →
      parseLoop U fuel s =
        some ⟨s.path.fillRule,
          s.path.calls ++ (ps.map (fun q => PathCall.lineTo q.point) ++
            [PathCall.closeSubpath])⟩ := by
  induction ps with
  | nil =>
    intro s fuel c r _ hf hr hs
    obtain ⟨n, rfl⟩ : ∃ n, fuel = n + 1 := ⟨fuel - 1, by simp at hf; omega⟩
    simp only [segmentsText, List.cons.injEq, true_and] at hr
    rw [← hr.1, ← hr.2] at hs
    rw [parseLoop_close U s n hs]
    rfl
  | cons p ps ih =>
    intro s fuel c r hp hf hr hs
    obtain ⟨n, rfl⟩ : ∃ n, fuel = n + 2 := ⟨fuel - 2, by simp at hf; omega⟩
    obtain ⟨c1, r1, hr1, hc1⟩ := segmentsText_head ps
    simp only [segmentsText, List.cons.injEq, true_and] at hr
    rw [← hr.1, ← hr.2, hr1] at hs
    obtain ⟨t3, lc, a3, e⟩ := parseLoop_point U s 'L' PathCall.lineTo p c1 r1 n
      (Or.inr ⟨rfl, rfl⟩) (hp p (by simp)) hc1 hs
    rw [e, ih _ (n + 1) c1 r1 (fun q hq => hp q (List.mem_cons_of_mem _ hq))
      (by simp at hf ⊢; omega) hr1 a3]
    simp [QPainterPath.call]

/-- C7. The path data M x0,y0 L x1,y1 ... L xn,yn Z of points written as plain decimal
numbers parses, with fuel for its n + 2 commands, to the calls moveTo(x0,y0), lineTo(x1,y1),
..., lineTo(xn,yn), closeSubpath in this order, and the fill rule stays odd-even. -/
theorem parseAbbreviatedPathData_polygon (U : QCharTables) (uninit : AbbPathToken)
    (p0 : WrittenPoint) (ps : List WrittenPoint) (fuel : Nat) (h0 : p0.wellFormed)
    (hps : ∀ q ∈ ps, q.wellFormed) (hfuel : ps.length + 2 ≤ fuel) :
    parseAbbreviatedPathData U uninit (polygonText p0 ps) fuel =
      some ⟨FillRule.oddEvenFill,
        PathCall.moveTo p0.point :: (ps.map (fun q => PathCall.lineTo q.point) ++
          [PathCall.closeSubpath])⟩ := by
  obtain ⟨n, rfl⟩ : ∃ n, fuel = n + 2 := ⟨fuel - 2, by omega⟩
  obtain ⟨c, r, hr, hc⟩ := segmentsText_head ps
  obtain ⟨t0, e0, _, _, a0⟩ := command_rest U { uninit with data := polygonText p0 ps, curPos := 0 }
    [] (' ' :: (p0.text ++ ' ' :: c :: r)) 'M' (by decide)
    (by simp [polygonText, hr]) (by simp)
  obtain ⟨t3, lc, a3, e⟩ := parseLoop_point U ⟨QPainterPath.empty, t0, ' ', ⟨0, 0⟩⟩ 'M'
    PathCall.moveTo p0 c r n (Or.inl ⟨rfl, rfl⟩) h0 hc a0
  unfold parseAbbreviatedPathData
  simp only [e0]
  rw [e, parseLoop_segments U ps _ (n + 1) c r hps (by omega) hr a3]
  rfl

theorem parseAbbreviatedPathData_polygon_witness :
    ((⟨"0".toList, "0".toList, 0, 0⟩ : WrittenPoint).wellFormed ∧
      (∀ q ∈ [(⟨"10".toList, "0".toList, 10, 0⟩ : WrittenPoint),
          ⟨"10".toList, "10".toList, 10, 10⟩], q.wellFormed) ∧
      [(⟨"10".toList, "0".toList, 10, 0⟩ : WrittenPoint),
          ⟨"10".toList, "10".toList, 10, 10⟩].length + 2 ≤ 4) ∧
    parseAbbreviatedPathData QCharTables.plain AbbPathToken.blank
        "M 0,0 L 10,0 L 10,10 Z".toList 4 =
      some ⟨FillRule.oddEvenFill,
        [PathCall.moveTo ⟨0, 0⟩, PathCall.lineTo ⟨10, 0⟩, PathCall.lineTo ⟨10, 10⟩,
          PathCall.closeSubpath]⟩ :=
  ⟨by decide!,
    parseAbbreviatedPathData_polygon QCharTables.plain AbbPathToken.blank
      ⟨"0".toList, "0".toList, 0, 0⟩
      [⟨"10".toList, "0".toList, 10, 0⟩, ⟨"10".toList, "10".toList, 10, 10⟩] 4
      (by decide!) (by decide!) (by decide)⟩

/-! ## Relative groups, smooth curves, horizontal and vertical lines -/

/-- C8. On m 0,0 l 10,0 10,0 the second group of the relative l is resolved against the
point the command started from, not against the end of the first group: both lines go to
(10,0). The same on m 1,1 l 10,0 10,0, where both go to (11,1). -/
theorem relative_groups_share_start :
    parseAbbreviatedPathData QCharTables.plain AbbPathToken.blank
        "m 0,0 l 10,0 10,0".toList 10 =
      some ⟨FillRule.oddEvenFill,
        [PathCall.moveTo ⟨0, 0⟩, PathCall.lineTo ⟨10, 0⟩, PathCall.lineTo ⟨10, 0⟩]⟩ ∧
    parseAbbreviatedPathData QCharTables.plain AbbPathToken.blank
        "m 1,1 l 10,0 10,0".toList 10 =
      some ⟨FillRule.oddEvenFill,
        [PathCall.moveTo ⟨1, 1⟩, PathCall.lineTo ⟨11, 1⟩, PathCall.lineTo ⟨11, 1⟩]⟩ := by
  decide!

/-- C9. On M 1,1 C 2,2 3,4 5,5 S 6,6 7,7 the second control point of the C is C = (3,4)
and the current point at the S is P = (5,5). The first control point of the smooth cubic
is (11,13) = C + (C + P), not the reflection 2P - C = (7,6). -/
theorem smooth_first_control_not_reflection :
    parseAbbreviatedPathData QCharTables.plain AbbPathToken.blank
        "M 1,1 C 2,2 3,4 5,5 S 6,6 7,7".toList 10 =
      some ⟨FillRule.oddEvenFill,
        [PathCall.moveTo ⟨1, 1⟩, PathCall.cubicTo ⟨2, 2⟩ ⟨3, 4⟩ ⟨5, 5⟩,
          PathCall.cubicTo ⟨11, 13⟩ ⟨6, 6⟩ ⟨7, 7⟩]⟩ ∧
    (⟨11, 13⟩ : QPointF) ≠ ⟨2 * 5 - 3, 2 * 5 - 4⟩ := by
  decide!

/-- C10. From the current point (1,2): H 5, h 3, V 7 and v 3 each emit lineTo(1,2). The
operand only decides between the current coordinate and 0, it is never the coordinate. -/
theorem axis_lines_ignore_operand :
    parseAbbreviatedPathData QCharTables.plain AbbPathToken.blank "M 1,2 H 5".toList 10 =
      some ⟨FillRule.oddEvenFill, [PathCall.moveTo ⟨1, 2⟩, PathCall.lineTo ⟨1, 2⟩]⟩ ∧
    parseAbbreviatedPathData QCharTables.plain AbbPathToken.blank "M 1,2 h 3".toList 10 =
      some ⟨FillRule.oddEvenFill, [PathCall.moveTo ⟨1, 2⟩, PathCall.lineTo ⟨1, 2⟩]⟩ ∧
    parseAbbreviatedPathData QCharTables.plain AbbPathToken.blank "M 1,2 V 7".toList 10 =
      some ⟨FillRule.oddEvenFill, [PathCall.moveTo ⟨1, 2⟩, PathCall.lineTo ⟨1, 2⟩]⟩ ∧
    parseAbbreviatedPathData QCharTables.plain AbbPathToken.blank "M 1,2 v 3".toList 10 =
      some ⟨FillRule.oddEvenFill, [PathCall.moveTo ⟨1, 2⟩, PathCall.lineTo ⟨1, 2⟩]⟩ ∧
    parseAbbreviatedPathData QCharTables.plain AbbPathToken.blank "M 1,2 H 0".toList 10 =
      some ⟨FillRule.oddEvenFill, [PathCall.moveTo ⟨1, 2⟩, PathCall.lineTo ⟨0, 2⟩]⟩ := by
  decide!

/-! ## GUIDs -/

theorem hex2int_cell_of_isHexDigit (c : Char) (h : isHexDigit c = true) :
    hex2int (cell c) = hexDigitValue c ∧ 0 ≤ hexDigitValue c ∧ hexDigitValue c ≤ 15 := by
  have key : ∀ d ∈ "0123456789abcdefABCDEF".toList,
      hex2int (cell d) = hexDigitValue d ∧ 0 ≤ hexDigitValue d ∧ hexDigitValue d ≤ 15 := by
    decide
  exact key c (by simpa [isHexDigit] using h)

theorem isHexDigit_of_hex2int_cell (c : Char) (h : ¬ hex2int (cell c) < 0) :
    isHexDigit (cell c) = true := by
  have key : ∀ n, n < 256 → ¬ hex2int (Char.ofNat n) < 0 → isHexDigit (Char.ofNat n) = true := by
    decide!
  exact key (c.toNat % 256) (Nat.mod_lt _ (by decide)) h

theorem parseGUIDLoop_of_hex (s : QString) (ps : List Nat)
    (h : ∀ p ∈ ps, isHexDigit (qAt s p) = true ∧ isHexDigit (qAt s (p + 1)) = true) :
    parseGUIDLoop s ps =
      some (ps.map (fun p =>
        (hexDigitValue (qAt s p) * 16 + hexDigitValue (qAt s (p + 1))).toNat)) := by
  induction ps with
  | nil => rfl
  | cons p ps ih =>
    obtain ⟨h1, h2⟩ := h p (by simp)
    obtain ⟨e1, l1, _⟩ := hex2int_cell_of_isHexDigit _ h1
    obtain ⟨e2, l2, _⟩ := hex2int_cell_of_isHexDigit _ h2
    rw [parseGUIDLoop, ih (fun q hq => h q (List.mem_cons_of_mem _ hq))]
    simp only [e1, e2]
    rw [if_neg (by omega)]
    rfl

theorem parseGUIDLoop_some (s : QString) (ps : List Nat) (g : List Nat)
    (h : parseGUIDLoop s ps = some g) :
    (∀ p ∈ ps, isHexDigit (cell (qAt s p)) = true ∧ isHexDigit (cell (qAt s (p + 1))) = true) ∧
      g = ps.map (fun p =>
        (hex2int (cell (qAt s p)) * 16 + hex2int (cell (qAt s (p + 1)))).toNat) := by
  induction ps generalizing g with
  | nil =>
    simp only [parseGUIDLoop, Option.some.injEq] at h
    simp [← h]
  | cons p ps ih =>
    rw [parseGUIDLoop] at h
    by_cases hneg : hex2int (cell (qAt s p)) < 0 ∨ hex2int (cell (qAt s (p + 1))) < 0
    · simp [hneg] at h
    · simp only [hneg, if_false] at h
      cases hl : parseGUIDLoop s ps with
      | none => simp [hl] at h
      | some g1 =>
        simp only [hl, Option.some.injEq] at h
        obtain ⟨ih1, ih2⟩ := ih g1 hl
        rw [not_or] at hneg
        refine ⟨?_, ?_⟩
        · intro q hq
          rcases List.mem_cons.1 hq with rfl | hq
          · exact ⟨isHexDigit_of_hex2int_cell _ hneg.1, isHexDigit_of_hex2int_cell _ hneg.2⟩
          · exact ih1 q hq
        · rw [← h, ih2]
          rfl

theorem canonicalGuid_hex (s : QString) (h : isCanonicalGuid s = true) :
    s.length = 36 ∧
      ∀ p ∈ guidIndexes, isHexDigit (qAt s p) = true ∧ isHexDigit (qAt s (p + 1)) = true := by
  have h1 : s.length = 36 ∧ ∀ i, i < 36 →
      (if i = 8 ∨ i = 13 ∨ i = 18 ∨ i = 23 then (qAt s i == '-') = true
        else isHexDigit (qAt s i) = true) := by
    simp only [isCanonicalGuid, Bool.and_eq_true, beq_iff_eq, List.all_eq_true, List.mem_range]
      at h
    refine ⟨h.1, fun i hi => ?_⟩
    have := h.2 i hi
    split_ifs at this ⊢ with hc
    · simpa using this
    · exact this
  have key : ∀ p ∈ guidIndexes, p < 36 ∧ p + 1 < 36 ∧ ¬(p = 8 ∨ p = 13 ∨ p = 18 ∨ p = 23) ∧
      ¬(p + 1 = 8 ∨ p + 1 = 13 ∨ p + 1 = 18 ∨ p + 1 = 23) := by decide
  refine ⟨h1.1, fun p hp => ?_⟩
  obtain ⟨k1, k2, k3, k4⟩ := key p hp
  have a := h1.2 p k1
  have b := h1.2 (p + 1) k2
  rw [if_neg k3] at a
  rw [if_neg k4] at b
  exact ⟨a, b⟩

/-- C16. On a canonical GUID string (36 characters, dashes at 8, 13, 18 and 23, hex digits
elsewhere) parseGUID succeeds, and byte i is 16 times the hex value of the character at
position p_i plus the hex value of the next character, for the table
p = [6,4,2,0,11,9,16,14,19,21,24,26,28,30,32,34]. On a string of at most 35 characters
parseGUID fails. -/
theorem parseGUID_canonical (s : QString) :
    (isCanonicalGuid s = true →
      parseGUID s =
        some ([6, 4, 2, 0, 11, 9, 16, 14, 19, 21, 24, 26, 28, 30, 32, 34].map (fun p =>
          (hexDigitValue (qAt s p) * 16 + hexDigitValue (qAt s (p + 1))).toNat))) ∧
      (s.length ≤ 35 → parseGUID s = none) := by
  constructor
  · intro h
    obtain ⟨hlen, hhex⟩ := canonicalGuid_hex s h
    unfold parseGUID
    rw [if_neg (by omega), parseGUIDLoop_of_hex s guidIndexes hhex]
    rfl
  · intro h
    unfold parseGUID
    rw [if_pos h]

theorem parseGUID_canonical_witness :
    (isCanonicalGuid "01234567-89ab-cdef-0123-456789ABCDEF".toList = true ∧
      parseGUID "01234567-89ab-cdef-0123-456789ABCDEF".toList =
        some ([6, 4, 2, 0, 11, 9, 16, 14, 19, 21, 24, 26, 28, 30, 32, 34].map (fun p =>
          (hexDigitValue (qAt "01234567-89ab-cdef-0123-456789ABCDEF".toList p) * 16 +
            hexDigitValue (qAt "01234567-89ab-cdef-0123-456789ABCDEF".toList (p + 1))).toNat))) ∧
    ("01234567-89ab-cdef-0123-456789ABCDE".toList.length ≤ 35 ∧
      parseGUID "01234567-89ab-cdef-0123-456789ABCDE".toList = none) :=
  ⟨⟨by decide,
      (parseGUID_canonical "01234567-89ab-cdef-0123-456789ABCDEF".toList).1 (by decide)⟩,
    ⟨by decide,
      (parseGUID_canonical "01234567-89ab-cdef-0123-456789ABCDE".toList).2 (by decide)⟩⟩

/-- C17, as stated, fails: 36 zeros have no dash and parseGUID accepts them, and it accepts
a GUID that more characters follow. -/
theorem parseGUID_accepts_without_dashes :
    parseGUID "000000000000000000000000000000000000".toList = some (List.replicate 16 0) ∧
      qAt "000000000000000000000000000000000000".toList 8 ≠ '-' ∧
      (parseGUID "01234567-89ab-cdef-0123-456789ABCDEF.odttf".toList).isSome = true := by
  decide

/-- C17, amended. When parseGUID returns true the string has more than 35 characters and
the 32 characters the table reads (positions p and p + 1 for each p of the table, that is
0 to 7, 9 to 12, 14 to 17, 19 to 22 and 24 to 35) are hex digits, taken by their low byte,
and the bytes are made of them. The characters at 8, 13, 18 and 23 and after 35 are not
read. -/
theorem parseGUID_accepts (s : QString) (g : List Nat) (h : parseGUID s = some g) :
    35 < s.length ∧
      (∀ p ∈ [6, 4, 2, 0, 11, 9, 16, 14, 19, 21, 24, 26, 28, 30, 32, 34],
        isHexDigit (cell (qAt s p)) = true ∧ isHexDigit (cell (qAt s (p + 1))) = true) ∧
      g = [6, 4, 2, 0, 11, 9, 16, 14, 19, 21, 24, 26, 28, 30, 32, 34].map (fun p =>
        (hex2int (cell (qAt s p)) * 16 + hex2int (cell (qAt s (p + 1)))).toNat) := by
  unfold parseGUID at h
  by_cases hlen : s.length ≤ 35
  · simp [hlen] at h
  · rw [if_neg hlen] at h
    exact ⟨by omega, parseGUIDLoop_some s guidIndexes g h⟩

theorem parseGUID_accepts_witness :
    parseGUID "000000000000000000000000000000000000".toList = some (List.replicate 16 0) ∧
    35 < "000000000000000000000000000000000000".toList.length ∧
      (∀ p ∈ [6, 4, 2, 0, 11, 9, 16, 14, 19, 21, 24, 26, 28, 30, 32, 34],
        isHexDigit (cell (qAt "000000000000000000000000000000000000".toList p)) = true ∧
          isHexDigit (cell (qAt "000000000000000000000000000000000000".toList (p + 1))) =
            true) ∧
      List.replicate 16 0 = [6, 4, 2, 0, 11, 9, 16, 14, 19, 21, 24, 26, 28, 30, 32, 34].map
        (fun p =>
          (hex2int (cell (qAt "000000000000000000000000000000000000".toList p)) * 16 +
            hex2int (cell (qAt "000000000000000000000000000000000000".toList (p + 1)))).toNat) :=
  ⟨by decide,
    parseGUID_accepts "000000000000000000000000000000000000".toList (List.replicate 16 0)
      (by decide)⟩

/-! ## Font de-obfuscation -/

theorem deobfuscateStep_length (guid d : List Nat) (i : Nat) :
    (deobfuscateStep guid d i).length = d.length := by
  simp [deobfuscateStep]

theorem deobfuscateStep_getElem (guid d : List Nat) (i j : Nat) (h : i + 16 < d.length) :
    (deobfuscateStep guid d i)[j]? =
      if j = i then some (xorByte (d.getD i 0) (guid.getD (fontMapping.getD i 0) 0))
      else if j = i + 16 then
        some (xorByte (d.getD (i + 16) 0) (guid.getD (fontMapping.getD i 0) 0))
      else d[j]? := by
  have h1 : i < d.length := by omega
  simp only [deobfuscateStep, List.getElem?_set, List.length_set, List.getD_eq_getElem?_getD]
  by_cases e1 : j = i
  · subst e1
    simp [h1]
  · by_cases e2 : j = i + 16
    · subst e2
      simp [h]
    · have n1 : ¬ i = j := fun e => e1 e.symm
      have n2 : ¬ i + 16 = j := fun e => e2 e.symm
      simp [e1, e2, n1, n2]

theorem deobfuscateLoop_spec (guid d : List Nat) (hd : 32 ≤ d.length) :
    ∀ n, n ≤ 16 →
      (deobfuscateLoop guid n d).length = d.length ∧
        ∀ j, (deobfuscateLoop guid n d)[j]? =
          if j < n then some (xorByte (d.getD j 0) (guid.getD (fontMapping.getD j 0) 0))
          else if 16 ≤ j ∧ j < 16 + n then
            some (xorByte (d.getD j 0) (guid.getD (fontMapping.getD (j - 16) 0) 0))
          else d[j]? := by
  intro n
  induction n with
  | zero =>
    intro _
    refine ⟨rfl, fun j => ?_⟩
    rw [if_neg (by omega), if_neg (by omega)]
    rfl
  | succ n ih =>
    intro hn
    obtain ⟨hl, hp⟩ := ih (by omega)
    refine ⟨by rw [deobfuscateLoop, deobfuscateStep_length, hl], fun j => ?_⟩
    have hn0 : (deobfuscateLoop guid n d).getD n 0 = d.getD n 0 := by
      rw [List.getD_eq_getElem?_getD, hp n, if_neg (by omega), if_neg (by omega),
        ← List.getD_eq_getElem?_getD]
    have hn1 : (deobfuscateLoop guid n d).getD (n + 16) 0 = d.getD (n + 16) 0 := by
      rw [List.getD_eq_getElem?_getD, hp (n + 16), if_neg (by omega), if_neg (by omega),
        ← List.getD_eq_getElem?_getD]
    rw [deobfuscateLoop, deobfuscateStep_getElem _ _ _ _ (by omega), hn0, hn1, hp j]
    by_cases e1 : j = n
    · subst e1
      rw [if_pos rfl, if_pos (show j < j + 1 by omega)]
    · rw [if_neg e1]
      by_cases e2 : j = n + 16
      · subst e2
        rw [if_pos rfl, if_neg (show ¬ n + 16 < n + 1 by omega),
          if_pos (show 16 ≤ n + 16 ∧ n + 16 < 16 + (n + 1) by omega)]
        simp
      · rw [if_neg e2]
        by_cases e3 : j < n
        · rw [if_pos e3, if_pos (show j < n + 1 by omega)]
        · rw [if_neg e3, if_neg (show ¬ j < n + 1 by omega)]
          by_cases e4 : 16 ≤ j ∧ j < 16 + n
          · rw [if_pos e4, if_pos (show 16 ≤ j ∧ j < 16 + (n + 1) by omega)]
          · rw [if_neg e4, if_neg (show ¬ (16 ≤ j ∧ j < 16 + (n + 1)) by omega)]

theorem xorByte_of_bytes (b k : Nat) (hb : b < 256) (hk : k < 256) :
    xorByte b k = b ^^^ k ∧ b ^^^ k < 256 := by
  have h : b ^^^ k < 2 ^ 8 := Nat.xor_lt_two_pow (by simpa using hb) (by simpa using hk)
  exact ⟨Nat.mod_eq_of_lt (by simpa using h), by simpa using h⟩

theorem getD_lt_of_forall (l : List Nat) (j : Nat) (h : ∀ b ∈ l, b < 256) :
    l.getD j 0 < 256 := by
  rw [List.getD_eq_getElem?_getD]
  cases e : l[j]? with
  | none => simp
  | some b => simpa using h b (List.getElem?_mem e)

/-- The de-obfuscated array, byte by byte. -/
theorem deobfuscate_getElem (guid d : List Nat) (hd : 32 ≤ d.length)
    (hk : ∀ k ∈ guid, k < 256) (hb : ∀ b ∈ d, b < 256) (j : Nat) :
    (deobfuscate guid d)[j]? =
      if j < 16 then some (d.getD j 0 ^^^ guid.getD (fontMapping.getD j 0) 0)
      else if j < 32 then some (d.getD j 0 ^^^ guid.getD (fontMapping.getD (j - 16) 0) 0)
      else d[j]? := by
  rw [deobfuscate, (deobfuscateLoop_spec guid d hd 16 (Nat.le_refl _)).2 j]
  by_cases e1 : j < 16
  · rw [if_pos e1, if_pos e1,
      (xorByte_of_bytes _ _ (getD_lt_of_forall d j hb) (getD_lt_of_forall guid _ hk)).1]
  · rw [if_neg e1, if_neg e1]
    by_cases e2 : j < 32
    · rw [if_pos (by omega), if_pos e2,
        (xorByte_of_bytes _ _ (getD_lt_of_forall d j hb) (getD_lt_of_forall guid _ hk)).1]
    · rw [if_neg (by omega), if_neg e2]

theorem deobfuscate_bytes (guid d : List Nat) (hd : 32 ≤ d.length)
    (hk : ∀ k ∈ guid, k < 256) (hb : ∀ b ∈ d, b < 256) :
    ∀ b ∈ deobfuscate guid d, b < 256 := by
  intro b hm
  obtain ⟨j, hj⟩ := List.getElem?_of_mem hm
  rw [deobfuscate_getElem guid d hd hk hb j] at hj
  split_ifs at hj
  · rw [← Option.some.inj hj]
    exact (xorByte_of_bytes _ _ (getD_lt_of_forall d j hb) (getD_lt_of_forall guid _ hk)).2
  · rw [← Option.some.inj hj]
    exact (xorByte_of_bytes _ _ (getD_lt_of_forall d j hb) (getD_lt_of_forall guid _ hk)).2
  · exact hb b (List.getElem?_mem hj)

/-- C18. With a key of 16 bytes and an array of at least 32 bytes, the de-obfuscation
keeps the length, replaces byte i and byte i + 16 (for i from 0 to 15) by their exclusive
or with guid[m_i], for m = [15,14,13,12,11,10,9,8,6,7,4,5,0,1,2,3], keeps every byte from
index 32 on, and applied twice with the same key gives the array back. The table m is a
permutation of 0 to 15. -/
theorem deobfuscate_involution (guid fontData : List Nat) (_hg : guid.length = 16)
    (hk : ∀ k ∈ guid, k < 256) (hd : 32 ≤ fontData.length) (hb : ∀ b ∈ fontData, b < 256) :
    (deobfuscate guid fontData).length = fontData.length ∧
      (∀ i, i < 16 →
        (deobfuscate guid fontData).getD i 0 =
            fontData.getD i 0 ^^^
              guid.getD ([15, 14, 13, 12, 11, 10, 9, 8, 6, 7, 4, 5, 0, 1, 2, 3].getD i 0) 0 ∧
          (deobfuscate guid fontData).getD (i + 16) 0 =
            fontData.getD (i + 16) 0 ^^^
              guid.getD ([15, 14, 13, 12, 11, 10, 9, 8, 6, 7, 4, 5, 0, 1, 2, 3].getD i 0) 0) ∧
      (∀ j, 32 ≤ j → (deobfuscate guid fontData)[j]? = fontData[j]?) ∧
      deobfuscate guid (deobfuscate guid fontData) = fontData ∧
      fontMapping.Perm (List.range 16) := by
  have hlen : (deobfuscate guid fontData).length = fontData.length :=
    (deobfuscateLoop_spec guid fontData hd 16 (Nat.le_refl _)).1
  have hget := deobfuscate_getElem guid fontData hd hk hb
  refine ⟨hlen, ?_, ?_, ?_, by decide⟩
  · intro i hi
    constructor
    · rw [List.getD_eq_getElem?_getD, hget i, if_pos hi]
      rfl
    · rw [List.getD_eq_getElem?_getD, hget (i + 16), if_neg (by omega), if_pos (by omega)]
      simp [fontMapping]
  · intro j hj
    rw [hget j, if_neg (by omega), if_neg (by omega)]
  · apply List.ext_getElem?
    intro j
    have h2 := deobfuscate_getElem guid (deobfuscate guid fontData) (by omega) hk
      (deobfuscate_bytes guid fontData hd hk hb) j
    rw [h2]
    by_cases e1 : j < 16
    · rw [if_pos e1, List.getD_eq_getElem?_getD, hget j, if_pos e1]
      simp only [Option.getD_some]
      rw [Nat.xor_cancel_right, List.getD_eq_getElem?_getD,
        List.getElem?_eq_getElem (by omega : j < fontData.length)]
      rfl
    · rw [if_neg e1]
      by_cases e2 : j < 32
      · rw [if_pos e2, List.getD_eq_getElem?_getD, hget j, if_neg e1, if_pos e2]
        simp only [Option.getD_some]
        rw [Nat.xor_cancel_right, List.getD_eq_getElem?_getD,
          List.getElem?_eq_getElem (by omega : j < fontData.length)]
        rfl
      · rw [if_neg e2, hget j, if_neg e1, if_neg e2]

theorem deobfuscate_involution_witness :
    ((List.range 16).length = 16 ∧ (∀ k ∈ List.range 16, k < 256) ∧
      32 ≤ (List.replicate 34 7).length ∧ (∀ b ∈ List.replicate 34 7, b < 256)) ∧
    ((deobfuscate (List.range 16) (List.replicate 34 7)).length =
        (List.replicate 34 7).length ∧
      (∀ i, i < 16 →
        (deobfuscate (List.range 16) (List.replicate 34 7)).getD i 0 =
            (List.replicate 34 7).getD i 0 ^^^
              (List.range 16).getD
                ([15, 14, 13, 12, 11, 10, 9, 8, 6, 7, 4, 5, 0, 1, 2, 3].getD i 0) 0 ∧
          (deobfuscate (List.range 16) (List.replicate 34 7)).getD (i + 16) 0 =
            (List.replicate 34 7).getD (i + 16) 0 ^^^
              (List.range 16).getD
                ([15, 14, 13, 12, 11, 10, 9, 8, 6, 7, 4, 5, 0, 1, 2, 3].getD i 0) 0) ∧
      (∀ j, 32 ≤ j →
        (deobfuscate (List.range 16) (List.replicate 34 7))[j]? = (List.replicate 34 7)[j]?) ∧
      deobfuscate (List.range 16) (deobfuscate (List.range 16) (List.replicate 34 7)) =
        List.replicate 34 7 ∧
      fontMapping.Perm (List.range 16)) :=
  ⟨by decide,
    deobfuscate_involution (List.range 16) (List.replicate 34 7) (by decide) (by decide)
      (by decide) (by decide)⟩

/-! ## Loading and caching fonts -/

/-- C19. The three outcomes of loadFontByName, with first the outcome of loading the bytes
of the entry as they are. If that load succeeds, its font id is returned and the database
has seen this one load only. If it fails, and the base name is no GUID or the entry has
fewer than 32 bytes, -1 is returned and the database has seen this one load only.
Otherwise the outcome is that of loading the de-obfuscated bytes next. -/
theorem loadFontByName_cases {Db Font : Type} (env : FontServices Db Font) (db : Db)
    (fileName : QString) :
    ((env.addApplicationFontFromData db (env.entryData fileName)).1 ≠ -1 →
      loadFontByName env db fileName =
        env.addApplicationFontFromData db (env.entryData fileName)) ∧
    ((env.addApplicationFontFromData db (env.entryData fileName)).1 = -1 →
      (parseGUID (env.baseName fileName) = none ∨ (env.entryData fileName).length < 32) →
      loadFontByName env db fileName =
        (-1, (env.addApplicationFontFromData db (env.entryData fileName)).2)) ∧
    ((env.addApplicationFontFromData db (env.entryData fileName)).1 = -1 →
      ∀ guid, parseGUID (env.baseName fileName) = some guid →
        32 ≤ (env.entryData fileName).length →
        loadFontByName env db fileName =
          env.addApplicationFontFromData
            (env.addApplicationFontFromData db (env.entryData fileName)).2
            (deobfuscate guid (env.entryData fileName))) := by
  refine ⟨?_, ?_, ?_⟩
  · intro h
    unfold loadFontByName
    simp only [if_neg h]
  · intro h hbad
    unfold loadFontByName
    simp only [if_pos h]
    have hfirst : env.addApplicationFontFromData db (env.entryData fileName) =
        (-1, (env.addApplicationFontFromData db (env.entryData fileName)).2) := by
      rw [← h]
    cases hg : parseGUID (env.baseName fileName) with
    | none => exact hfirst
    | some guid =>
      rcases hbad with hbad | hbad
      · rw [hg] at hbad
        exact absurd hbad (by simp)
      · simp only [if_pos hbad]
        exact hfirst
  · intro h guid hg hlen
    unfold loadFontByName
    simp only [if_pos h, hg, if_neg (show ¬ (env.entryData fileName).length < 32 by omega)]

theorem loadFontByName_cases_witness :
    ((sampleServices.addApplicationFontFromData [] (sampleServices.entryData "a.ttf".toList)).1
        ≠ -1 ∧
      loadFontByName sampleServices [] "a.ttf".toList =
        sampleServices.addApplicationFontFromData [] (sampleServices.entryData "a.ttf".toList)) ∧
    (((sampleServices.addApplicationFontFromData [] (sampleServices.entryData "b.odttf".toList)).1
        = -1 ∧
      (parseGUID (sampleServices.baseName "b.odttf".toList) = none ∨
        (sampleServices.entryData "b.odttf".toList).length < 32)) ∧
      loadFontByName sampleServices [] "b.odttf".toList =
        (-1, (sampleServices.addApplicationFontFromData []
          (sampleServices.entryData "b.odttf".toList)).2)) ∧
    (((sampleServices.addApplicationFontFromData []
          (sampleServices.entryData "00000000-0000-0000-0000-000000000001.odttf".toList)).1 = -1 ∧
      parseGUID (sampleServices.baseName "00000000-0000-0000-0000-000000000001.odttf".toList) =
        some [0, 0, 0, 0, 0, 0, 0, 0, 0, 0, 0, 0, 0, 0, 0, 1] ∧
      32 ≤ (sampleServices.entryData
        "00000000-0000-0000-0000-000000000001.odttf".toList).length) ∧
      loadFontByName sampleServices [] "00000000-0000-0000-0000-000000000001.odttf".toList =
        sampleServices.addApplicationFontFromData
          (sampleServices.addApplicationFontFromData []
            (sampleServices.entryData "00000000-0000-0000-0000-000000000001.odttf".toList)).2
          (deobfuscate [0, 0, 0, 0, 0, 0, 0, 0, 0, 0, 0, 0, 0, 0, 0, 1]
            (sampleServices.entryData "00000000-0000-0000-0000-000000000001.odttf".toList))) :=
  ⟨⟨by decide, (loadFontByName_cases sampleServices [] "a.ttf".toList).1 (by decide)⟩,
    ⟨by decide,
      (loadFontByName_cases sampleServices [] "b.odttf".toList).2.1 (by decide) (by decide)⟩,
    ⟨by decide,
      (loadFontByName_cases sampleServices []
        "00000000-0000-0000-0000-000000000001.odttf".toList).2.2 (by decide)
        [0, 0, 0, 0, 0, 0, 0, 0, 0, 0, 0, 0, 0, 0, 0, 1] (by decide) (by decide)⟩⟩

theorem fontOfIndex_no_font {Db Font : Type} (env : FontServices Db Font) (db : Db)
    (size : ℚ) : fontOfIndex env db (-1) size = none := by
  unfold fontOfIndex
  rw [env.noFamilies db]

/-- A call of getFontByName that has a result: on a miss the file after it holds the loaded
id under the identifier and the database after the load, on a hit the file is as it was;
the font is the one of the id in the database after the call. -/
theorem getFontByName_result {Db Font : Type} (env : FontServices Db Font) (file : XpsFile Db)
    (name : QString) (size : ℚ) (r : Font × XpsFile Db)
    (h : getFontByName env file name size = some r) :
    (cacheValue file.fontCache name (-1) = -1 →
      (loadFontByName env file.fontDatabase name).1 ≠ -1 ∧
      r.2 = ⟨cacheInsert file.fontCache name (loadFontByName env file.fontDatabase name).1,
        (loadFontByName env file.fontDatabase name).2⟩ ∧
      fontOfIndex env (loadFontByName env file.fontDatabase name).2
        (loadFontByName env file.fontDatabase name).1 size = some r.1) ∧
    (cacheValue file.fontCache name (-1) ≠ -1 →
      r.2 = file ∧
      fontOfIndex env file.fontDatabase (cacheValue file.fontCache name (-1)) size =
        some r.1) := by
  unfold getFontByName at h
  constructor
  · intro hc
    simp only [if_pos hc] at h
    cases hf : fontOfIndex env (loadFontByName env file.fontDatabase name).2
        (loadFontByName env file.fontDatabase name).1 size with
    | none =>
      rw [hf] at h
      exact absurd h (by simp)
    | some font =>
      rw [hf] at h
      simp only [Option.some.injEq] at h
      refine ⟨?_, by rw [← h], by rw [← h]⟩
      intro hneg
      rw [hneg, fontOfIndex_no_font] at hf
      exact absurd hf (by simp)
  · intro hc
    simp only [if_neg hc] at h
    cases hf : fontOfIndex env file.fontDatabase (cacheValue file.fontCache name (-1)) size with
    | none =>
      rw [hf] at h
      exact absurd h (by simp)
    | some font =>
      rw [hf] at h
      simp only [Option.some.injEq] at h
      exact ⟨by rw [← h], by rw [← h]⟩

theorem cacheValue_insert_self (m : QString → Option Int) (key : QString) (v : Int) :
    cacheValue (cacheInsert m key v) key (-1) = v := by
  simp [cacheValue, cacheInsert]

theorem cacheValue_insert_other (m : QString → Option Int) (key other : QString) (v : Int)
    (h : key ≠ other) : cacheValue (cacheInsert m other v) key (-1) = cacheValue m key (-1) := by
  simp [cacheValue, cacheInsert, h]

theorem getFontByName_keeps {Db Font : Type} (env : FontServices Db Font) (file : XpsFile Db)
    (name other : QString) (size : ℚ) (index : Int) (r : Font × XpsFile Db) (hne : index ≠ -1)
    (h : cacheValue file.fontCache name (-1) = index)
    (hr : getFontByName env file other size = some r) :
    cacheValue r.2.fontCache name (-1) = index := by
  obtain ⟨k1, k2⟩ := getFontByName_result env file other size r hr
  by_cases hc : cacheValue file.fontCache other (-1) = -1
  · have hno : name ≠ other := by
      rintro rfl
      exact hne (h ▸ hc)
    rw [(k1 hc).2.1]
    show cacheValue (cacheInsert file.fontCache other _) name (-1) = index
    rw [cacheValue_insert_other _ _ _ _ hno]
    exact h
  · rw [(k2 hc).1]
    exact h

theorem getFonts_keeps {Db Font : Type} (env : FontServices Db Font) (name : QString)
    (index : Int) (hne : index ≠ -1) (calls : List (QString × ℚ)) :
    ∀ file file2 : XpsFile Db, cacheValue file.fontCache name (-1) = index →
      getFonts env calls file = some file2 →
      cacheValue file2.fontCache name (-1) = index := by
  induction calls with
  | nil =>
    intro file file2 h hc
    simp only [getFonts, Option.some.injEq] at hc
    rw [← hc]
    exact h
  | cons c cs ih =>
    intro file file2 h hc
    simp only [getFonts] at hc
    cases hr : getFontByName env file c.1 c.2 with
    | none =>
      rw [hr] at hc
      exact absurd hc (by simp)
    | some r =>
      rw [hr] at hc
      exact ih r.2 file2 (getFontByName_keeps env file name c.1 c.2 index r hne h hr) hc

/-- C20. A call of getFontByName that finds no cached id for an identifier and returns a
font has loaded the identifier with success: the id is not -1, and the file after the call
holds the id under the identifier and the database after the load. After any further
calls of getFontByName that return, a call with the same identifier and any size is the
look-up of that id in the database as it is: it loads nothing and writes nothing, the
cache map and the database after it are the ones before it, and when the id still has a
family and the family a style, it returns the font of the two in the size asked for. -/
theorem getFontByName_cached {Db Font : Type} (env : FontServices Db Font) (file : XpsFile Db)
    (name : QString) (size later : ℚ) (calls : List (QString × ℚ)) (r1 : Font × XpsFile Db)
    (file2 : XpsFile Db)
    (hmiss : cacheValue file.fontCache name (-1) = -1)
    (hfirst : getFontByName env file name size = some r1)
    (hcalls : getFonts env calls r1.2 = some file2) :
    (loadFontByName env file.fontDatabase name).1 ≠ -1 ∧
    r1.2 = ⟨cacheInsert file.fontCache name (loadFontByName env file.fontDatabase name).1,
      (loadFontByName env file.fontDatabase name).2⟩ ∧
    file2.fontCache name = some (loadFontByName env file.fontDatabase name).1 ∧
    getFontByName env file2 name later =
      (fontOfIndex env file2.fontDatabase (loadFontByName env file.fontDatabase name).1
        later).map (fun font => (font, file2)) ∧
    (∀ family fs style ss,
      env.applicationFontFamilies file2.fontDatabase
        (loadFontByName env file.fontDatabase name).1 = family :: fs →
      env.styles file2.fontDatabase family = style :: ss →
      getFontByName env file2 name later =
        some (env.font file2.fontDatabase family style (qRound later), file2)) := by
  obtain ⟨k1, _⟩ := getFontByName_result env file name size r1 hfirst
  obtain ⟨hload, hfile, _⟩ := k1 hmiss
  have h1 : cacheValue r1.2.fontCache name (-1) =
      (loadFontByName env file.fontDatabase name).1 := by
    rw [hfile]
    exact cacheValue_insert_self _ _ _
  have h2 := getFonts_keeps env name _ hload calls r1.2 file2 h1 hcalls
  have h3 : file2.fontCache name = some (loadFontByName env file.fontDatabase name).1 := by
    unfold cacheValue at h2
    cases hm : file2.fontCache name with
    | none =>
      rw [hm] at h2
      exact absurd h2.symm hload
    | some v =>
      rw [hm] at h2
      rw [show v = (loadFontByName env file.fontDatabase name).1 from h2]
  have h4 : getFontByName env file2 name later =
      (fontOfIndex env file2.fontDatabase (loadFontByName env file.fontDatabase name).1
        later).map (fun font => (font, file2)) := by
    unfold getFontByName
    simp only [h2, if_neg hload]
    cases fontOfIndex env file2.fontDatabase (loadFontByName env file.fontDatabase name).1
      later <;> rfl
  refine ⟨hload, hfile, h3, h4, ?_⟩
  intro family fs style ss hfam hsty
  rw [h4]
  unfold fontOfIndex
  rw [hfam]
  simp only
  rw [hsty]
  rfl

theorem getFontByName_cached_witness :
    (cacheValue (⟨fun _ => none, []⟩ : XpsFile (List (List Nat))).fontCache "a.ttf".toList (-1)
        = -1 ∧
      (getFontByName sampleServices ⟨fun _ => none, []⟩ "a.ttf".toList 8).map
          (fun r => (r.1, r.2.fontDatabase, r.2.fontCache "a.ttf".toList)) =
        some (("Sample".toList, "Regular".toList, 8), [List.replicate 32 0], some 0)) ∧
    ∃ r1 file2, getFontByName sampleServices ⟨fun _ => none, []⟩ "a.ttf".toList 8 = some r1 ∧
      getFonts sampleServices [("abc.ttf".toList, 10), ("a.ttf".toList, 12)] r1.2 =
        some file2 ∧
      file2.fontDatabase = [List.replicate 32 0, List.replicate 32 0] ∧
      file2.fontCache "a.ttf".toList = some 0 ∧
      getFontByName sampleServices file2 "a.ttf".toList 24 =
        some (("Sample".toList, "Regular".toList, 24), file2) := by
  refine ⟨⟨by decide, by decide!⟩, ?_⟩
  cases h1 : getFontByName sampleServices ⟨fun _ => none, []⟩ "a.ttf".toList 8 with
  | none =>
    have : (getFontByName sampleServices ⟨fun _ => none, []⟩ "a.ttf".toList 8).isSome = true := by
      decide!
    rw [h1] at this
    exact absurd this (by simp)
  | some r1 =>
    cases h2 : getFonts sampleServices [("abc.ttf".toList, 10), ("a.ttf".toList, 12)] r1.2 with
    | none =>
      have : ((getFontByName sampleServices ⟨fun _ => none, []⟩ "a.ttf".toList 8).bind
          (fun r => getFonts sampleServices
            [("abc.ttf".toList, 10), ("a.ttf".toList, 12)] r.2)).isSome = true := by
        decide!
      rw [h1] at this
      simp only [Option.bind] at this
      rw [h2] at this
      exact absurd this (by simp)
    | some file2 =>
      have hdb : ((getFontByName sampleServices ⟨fun _ => none, []⟩ "a.ttf".toList 8).bind
          (fun r => getFonts sampleServices
            [("abc.ttf".toList, 10), ("a.ttf".toList, 12)] r.2)).map
            (fun f => f.fontDatabase) =
          some [List.replicate 32 0, List.replicate 32 0] := by
        decide!
      rw [h1] at hdb
      simp only [Option.bind] at hdb
      rw [h2] at hdb
      simp only [Option.map, Option.some.injEq] at hdb
      obtain ⟨k1, k2, k3, _, k5⟩ := getFontByName_cached sampleServices ⟨fun _ => none, []⟩
        "a.ttf".toList 8 24 [("abc.ttf".toList, 10), ("a.ttf".toList, 12)] r1 file2
        (by decide) h1 h2
      refine ⟨r1, file2, rfl, h2, hdb, k3.trans (by decide!), ?_⟩
      have hid : (loadFontByName sampleServices
          (⟨fun _ => none, []⟩ : XpsFile (List (List Nat))).fontDatabase "a.ttf".toList).1 = 0 := by
        decide
      have hq : qRound 24 = 24 := by decide!
      have k6 := k5 "Sample".toList [] "Regular".toList [] (by rw [hid]; rfl) rfl
      rw [hq] at k6
      exact k6

/-! ## The tokenization rule -/

theorem class_of_isLetter (U : QCharTables) (ch : Char) (h : isLetter U ch = true) :
    isSpace U ch = false ∧ isNumber U ch = false ∧ ch ≠ '+' ∧ ch ≠ '-' ∧ ch ≠ ',' := by
  have hcls : charClass U ch = CharClass.letter := by simpa [isLetter] using h
  refine ⟨by simp [isSpace, hcls], by simp [isNumber, hcls], ?_, ?_, ?_⟩
  · rintro rfl
    rw [show isLetter U '+' = false from rfl] at h
    exact absurd h (by simp)
  · rintro rfl
    rw [show isLetter U '-' = false from rfl] at h
    exact absurd h (by simp)
  · rintro rfl
    rw [show isLetter U ',' = false from rfl] at h
    exact absurd h (by simp)

theorem inNumber_not_space (U : QCharTables) (c : Char) (h : inNumber U c = true) :
    isSpace U c = false := by
  simp only [inNumber, Bool.and_eq_true, Bool.not_eq_true'] at h
  exact h.1.1

theorem inNumber_of_start (U : QCharTables) (ch : Char)
    (h : isNumber U ch = true ∨ ch = '+' ∨ ch = '-') : inNumber U ch = true := by
  rcases h with h | rfl | rfl
  · have hcls : charClass U ch = CharClass.number := by simpa [isNumber] using h
    have hne : ch ≠ ',' := by
      rintro rfl
      rw [show isNumber U ',' = false from rfl] at h
      exact absurd h (by simp)
    simp [inNumber, isSpace, isLetter, hcls, hne]
  · rfl
  · rfl

/-- The tokenizer on spaces and a run of number characters that starts with a number
character or a sign. -/
theorem nextAbbPathToken_run (U : QCharTables) (t : AbbPathToken) (ws run after : List Char)
    (ch : Char) (hws : ∀ c ∈ ws, isSpace U c = true)
    (hch : isNumber U ch = true ∨ ch = '+' ∨ ch = '-')
    (hrest : t.data.drop t.curPos = ws ++ (ch :: run ++ after))
    (hrun : ∀ c ∈ run, inNumber U c = true)
    (hafter : after = [] ∨ ∃ d r, after = d :: r ∧ inNumber U d = false) :
    nextAbbPathToken U t =
      (true, { t with curPos := t.curPos + ws.length + (run.length + 1),
                      number := toDouble U (ch :: run),
                      type := AbbPathTokenType.abtNumber }) := by
  have hc := inNumber_of_start U ch hch
  have hall : ∀ d ∈ ch :: run, inNumber U d = true := by
    intro d hd
    rcases List.mem_cons.1 hd with rfl | hd
    · exact hc
    · exact hrun d hd
  have hsp : (t.data.drop t.curPos).takeWhile (isSpace U) = ws := by
    rw [hrest]
    exact takeWhile_stop ws _ hws
      (Or.inr ⟨ch, run ++ after, rfl, inNumber_not_space U ch hc⟩)
  have hdrop : t.data.drop (t.curPos + ws.length) = (ch :: run) ++ after :=
    drop_add_of_drop _ _ _ _ hrest
  have htake : ((ch :: run) ++ after).takeWhile (inNumber U) = ch :: run :=
    takeWhile_stop _ _ hall hafter
  unfold nextAbbPathToken
  simp only [hsp, hdrop]
  rw [List.cons_append]
  simp only
  have htk : List.take (run.length + 1) (ch :: run ++ after) = ch :: run :=
    List.take_left' (by simp)
  rw [if_pos hch, ← List.cons_append, htake]
  simp only [mid, hdrop, List.length_cons, htk]

/-- The tokenizer on spaces and a letter. -/
theorem nextAbbPathToken_letter (U : QCharTables) (t : AbbPathToken) (ws after : List Char)
    (ch : Char) (hws : ∀ c ∈ ws, isSpace U c = true) (hch : isLetter U ch = true)
    (hrest : t.data.drop t.curPos = ws ++ ch :: after) :
    nextAbbPathToken U t =
      (true, { t with curPos := t.curPos + ws.length + 1,
                      type := AbbPathTokenType.abtCommand, command := cell ch }) := by
  obtain ⟨k1, k2, k3, k4, k5⟩ := class_of_isLetter U ch hch
  have hsp : (t.data.drop t.curPos).takeWhile (isSpace U) = ws := by
    rw [hrest]
    exact takeWhile_stop ws _ hws (Or.inr ⟨ch, after, rfl, k1⟩)
  have hdrop : t.data.drop (t.curPos + ws.length) = ch :: after :=
    drop_add_of_drop _ _ _ _ hrest
  unfold nextAbbPathToken
  simp only [hsp, hdrop]
  rw [if_neg (by simp [k2, k3, k4]), if_neg k5, if_pos hch]

theorem cell_of_lt (ch : Char) (h : ch.toNat < 256) : cell ch = ch := by
  unfold cell
  rw [Nat.mod_eq_of_lt h]
  exact Char.ofNat_toNat ch

/-- C15. The tokenization rule of nextAbbPathToken, on a text that starts with the spaces
ws. A number character or a sign starts a Number token: its text is the run of characters
up to the end of the text or the next space, comma or letter, its value is that text read
by toDouble, and the cursor is left after the run. A comma gives a Comma token and a letter
a Command token that carries the letter (its low byte, which is the letter itself below
256), the cursor after it. Spaces to the end of the text give the end-of-input token. The
call returns true in all four cases. -/
theorem nextAbbPathToken_rule (U : QCharTables) (t : AbbPathToken) (ws : List Char)
    (hws : ∀ c ∈ ws, isSpace U c = true) :
    (∀ ch run after, (isNumber U ch = true ∨ ch = '+' ∨ ch = '-') →
      t.data.drop t.curPos = ws ++ (ch :: run ++ after) →
      (∀ c ∈ run, isSpace U c = false ∧ c ≠ ',' ∧ isLetter U c = false) →
      (after = [] ∨ ∃ d r, after = d :: r ∧ (isSpace U d = true ∨ d = ',' ∨ isLetter U d = true)) →
      nextAbbPathToken U t =
        (true, { t with curPos := t.curPos + ws.length + (run.length + 1),
                        number := toDouble U (ch :: run),
                        type := AbbPathTokenType.abtNumber })) ∧
    (∀ after, t.data.drop t.curPos = ws ++ ',' :: after →
      nextAbbPathToken U t =
        (true, { t with curPos := t.curPos + ws.length + 1,
                        type := AbbPathTokenType.abtComma })) ∧
    (∀ ch after, isLetter U ch = true → t.data.drop t.curPos = ws ++ ch :: after →
      nextAbbPathToken U t =
          (true, { t with curPos := t.curPos + ws.length + 1,
                          type := AbbPathTokenType.abtCommand, command := cell ch }) ∧
        (ch.toNat < 256 → cell ch = ch)) ∧
    (t.data.drop t.curPos = ws →
      nextAbbPathToken U t =
        (true, { t with curPos := t.curPos + ws.length,
                        type := AbbPathTokenType.abtEOF })) := by
  refine ⟨?_, ?_, ?_, ?_⟩
  · intro ch run after hch hrest hrun hafter
    refine nextAbbPathToken_run U t ws run after ch hws hch hrest ?_ ?_
    · intro c hc
      obtain ⟨a, b, d⟩ := hrun c hc
      simp [inNumber, a, b, d]
    · rcases hafter with h | ⟨d, r, h, hd⟩
      · exact Or.inl h
      · refine Or.inr ⟨d, r, h, ?_⟩
        rcases hd with hd | hd | hd
        · simp [inNumber, hd]
        · simp [inNumber, hd]
        · simp [inNumber, hd]
  · intro after hrest
    exact nextAbbPathToken_comma U t ws after hrest hws
  · intro ch after hch hrest
    exact ⟨nextAbbPathToken_letter U t ws after ch hws hch hrest, cell_of_lt ch⟩
  · intro hrest
    exact nextAbbPathToken_eof U t ws hrest hws

theorem nextAbbPathToken_rule_witness :
    (∀ c ∈ [' ', ' '], isSpace QCharTables.plain c = true) ∧
    nextAbbPathToken QCharTables.plain ⟨"L  -1.5,2".toList, 1, AbbPathTokenType.abtCommand, 'L', 0⟩ =
        (true, ⟨"L  -1.5,2".toList, 7, AbbPathTokenType.abtNumber, 'L', -3 / 2⟩) ∧
    nextAbbPathToken QCharTables.plain ⟨"1  ,2".toList, 1, AbbPathTokenType.abtNumber, 'L', 1⟩ =
        (true, ⟨"1  ,2".toList, 4, AbbPathTokenType.abtComma, 'L', 1⟩) ∧
    nextAbbPathToken QCharTables.plain ⟨"1  z".toList, 1, AbbPathTokenType.abtNumber, 'L', 1⟩ =
        (true, ⟨"1  z".toList, 4, AbbPathTokenType.abtCommand, 'z', 1⟩) ∧
    nextAbbPathToken QCharTables.plain ⟨"1  ".toList, 1, AbbPathTokenType.abtNumber, 'L', 1⟩ =
        (true, ⟨"1  ".toList, 3, AbbPathTokenType.abtEOF, 'L', 1⟩) :=
  ⟨by decide,
    by
      have h := (nextAbbPathToken_rule QCharTables.plain
        ⟨"L  -1.5,2".toList, 1, AbbPathTokenType.abtCommand, 'L', 0⟩ [' ', ' '] (by decide)).1
        '-' "1.5".toList ",2".toList (by decide) (by decide) (by decide)
        (Or.inr ⟨',', "2".toList, rfl, Or.inr (Or.inl rfl)⟩)
      rw [h]
      decide!,
    by
      have h := (nextAbbPathToken_rule QCharTables.plain
        ⟨"1  ,2".toList, 1, AbbPathTokenType.abtNumber, 'L', 1⟩ [' ', ' '] (by decide)).2.1
        "2".toList (by decide)
      rw [h]
      decide!,
    by
      have h := ((nextAbbPathToken_rule QCharTables.plain
        ⟨"1  z".toList, 1, AbbPathTokenType.abtNumber, 'L', 1⟩ [' ', ' '] (by decide)).2.2.1
        'z' [] (by decide) (by decide)).1
      rw [h]
      decide!,
    by
      have h := (nextAbbPathToken_rule QCharTables.plain
        ⟨"1  ".toList, 1, AbbPathTokenType.abtNumber, 'L', 1⟩ [' ', ' '] (by decide)).2.2.2
        (by decide)
      rw [h]
      decide!⟩

/-! ## An unrecognised character -/

theorem whileNumber_skip (body : ParserState → ParserState) (fuel : Nat) (s : ParserState)
    (h : s.token.type ≠ AbbPathTokenType.abtNumber) : whileNumber body fuel s = some s := by
  cases fuel with
  | zero => rw [whileNumber, if_neg h]
  | succ n => rw [whileNumber, if_neg h]

/-- The shapes a command turn can have. -/
theorem runCommand_cases (U : QCharTables) (fuel : Nat) (command : Char) (rel : Bool)
    (cur : QPointF) (s : ParserState) :
    runCommand U fuel command rel cur s = some (fillRuleBody U s) ∨
      (∃ body, runCommand U fuel command rel cur s = whileNumber body fuel s) ∨
      runCommand U fuel command rel cur s =
        some { s with path := s.path.call PathCall.closeSubpath } ∨
      runCommand U fuel command rel cur s = some s := by
  unfold runCommand
  by_cases h1 : command = 'f'
  · rw [if_pos h1]
    exact Or.inl rfl
  rw [if_neg h1]
  by_cases h2 : command = 'm'
  · rw [if_pos h2]
    exact Or.inr (Or.inl ⟨_, rfl⟩)
  rw [if_neg h2]
  by_cases h3 : command = 'l'
  · rw [if_pos h3]
    exact Or.inr (Or.inl ⟨_, rfl⟩)
  rw [if_neg h3]
  by_cases h4 : command = 'h'
  · rw [if_pos h4]
    exact Or.inr (Or.inl ⟨_, rfl⟩)
  rw [if_neg h4]
  by_cases h5 : command = 'v'
  · rw [if_pos h5]
    exact Or.inr (Or.inl ⟨_, rfl⟩)
  rw [if_neg h5]
  by_cases h6 : command = 'c'
  · rw [if_pos h6]
    exact Or.inr (Or.inl ⟨_, rfl⟩)
  rw [if_neg h6]
  by_cases h7 : command = 'q'
  · rw [if_pos h7]
    exact Or.inr (Or.inl ⟨_, rfl⟩)
  rw [if_neg h7]
  by_cases h8 : command = 's'
  · rw [if_pos h8]
    exact Or.inr (Or.inl ⟨_, rfl⟩)
  rw [if_neg h8]
  by_cases h9 : command = 'a'
  · rw [if_pos h9]
    exact Or.inr (Or.inl ⟨_, rfl⟩)
  rw [if_neg h9]
  by_cases h10 : command = 'z'
  · rw [if_pos h10]
    exact Or.inr (Or.inr (Or.inl rfl))
  rw [if_neg h10]
  exact Or.inr (Or.inr (Or.inr rfl))

/-- A command turn that starts from a command token which the tokenizer leaves in place
ends with the same token. -/
theorem runCommand_token_fixed (U : QCharTables) (T : AbbPathToken)
    (hT : T.type = AbbPathTokenType.abtCommand) (hfix : (nextAbbPathToken U T).2 = T)
    (fuel : Nat) (command : Char) (rel : Bool) (cur : QPointF) (s : ParserState)
    (hs : s.token = T) :
    ∃ s2, runCommand U fuel command rel cur s = some s2 ∧ s2.token = T := by
  have hn : s.token.type ≠ AbbPathTokenType.abtNumber := by
    rw [hs, hT]
    decide
  rcases runCommand_cases U fuel command rel cur s with h | ⟨body, h⟩ | h | h
  · refine ⟨fillRuleBody U s, h, ?_⟩
    show (nextAbbPathToken U s.token).2 = T
    rw [hs, hfix]
  · exact ⟨s, by rw [h, whileNumber_skip _ _ _ hn], hs⟩
  · exact ⟨_, h, hs⟩
  · exact ⟨s, h, hs⟩

/-- The loop never returns from a command token that the tokenizer leaves in place. -/
theorem parseLoop_stuck (U : QCharTables) (T : AbbPathToken)
    (hT : T.type = AbbPathTokenType.abtCommand) (hfix : (nextAbbPathToken U T).2 = T) :
    ∀ (fuel : Nat) (s : ParserState), s.token = T → parseLoop U fuel s = none := by
  intro fuel
  induction fuel with
  | zero =>
    intro s hs
    rw [parseLoop, if_neg (by simp [hs, hT])]
  | succ n ih =>
    intro s hs
    obtain ⟨s2, h2, t2⟩ := runCommand_token_fixed U T hT hfix n
      (cell (toLower U (cell s.token.command))) (isLower U (cell s.token.command))
      s.path.currentPosition { s with token := (nextAbbPathToken U s.token).2 }
      (by simp [hs, hfix])
    rw [parseLoop_command U n s (by rw [hs, hT]), h2]
    exact ih _ t2

/-- C12. On M .5,0 and on Z # the function never returns: whatever the fuel, the answer is
none. The tokenizer returns false at the point and at the number sign and leaves the
command token in place, and the loop runs the same command again. -/
theorem parseAbbreviatedPathData_never_returns (U : QCharTables) (uninit : AbbPathToken)
    (fuel : Nat) :
    parseAbbreviatedPathData U uninit "M .5,0".toList fuel = none ∧
      parseAbbreviatedPathData U uninit "Z #".toList fuel = none ∧
      (nextAbbPathToken U ⟨"M .5,0".toList, 1, AbbPathTokenType.abtCommand, 'M', 0⟩).1 =
        false := by
  refine ⟨?_, ?_, rfl⟩
  · have h0 : (nextAbbPathToken U { uninit with data := "M .5,0".toList, curPos := 0 }).2 =
        ⟨"M .5,0".toList, 1, AbbPathTokenType.abtCommand, 'M', uninit.number⟩ := rfl
    have h1 : (nextAbbPathToken U
        ⟨"M .5,0".toList, 1, AbbPathTokenType.abtCommand, 'M', uninit.number⟩).2 =
        ⟨"M .5,0".toList, 2, AbbPathTokenType.abtCommand, 'M', uninit.number⟩ := rfl
    have h2 : (nextAbbPathToken U
        ⟨"M .5,0".toList, 2, AbbPathTokenType.abtCommand, 'M', uninit.number⟩).2 =
        ⟨"M .5,0".toList, 2, AbbPathTokenType.abtCommand, 'M', uninit.number⟩ := rfl
    unfold parseAbbreviatedPathData
    simp only [h0]
    cases fuel with
    | zero => rfl
    | succ n =>
      rw [parseLoop_command U n _ rfl]
      simp only [h1]
      obtain ⟨s2, e2, t2⟩ := runCommand_token_fixed U _ rfl h2 n
        (cell (toLower U (cell 'M'))) (isLower U (cell 'M'))
        (QPainterPath.currentPosition QPainterPath.empty)
        ⟨QPainterPath.empty,
          ⟨"M .5,0".toList, 2, AbbPathTokenType.abtCommand, 'M', uninit.number⟩, ' ', ⟨0, 0⟩⟩ rfl
      rw [e2]
      exact parseLoop_stuck U _ rfl h2 n _ t2
  · have h0 : (nextAbbPathToken U { uninit with data := "Z #".toList, curPos := 0 }).2 =
        ⟨"Z #".toList, 1, AbbPathTokenType.abtCommand, 'Z', uninit.number⟩ := rfl
    have h1 : (nextAbbPathToken U
        ⟨"Z #".toList, 1, AbbPathTokenType.abtCommand, 'Z', uninit.number⟩).2 =
        ⟨"Z #".toList, 2, AbbPathTokenType.abtCommand, 'Z', uninit.number⟩ := rfl
    have h2 : (nextAbbPathToken U
        ⟨"Z #".toList, 2, AbbPathTokenType.abtCommand, 'Z', uninit.number⟩).2 =
        ⟨"Z #".toList, 2, AbbPathTokenType.abtCommand, 'Z', uninit.number⟩ := rfl
    unfold parseAbbreviatedPathData
    simp only [h0]
    cases fuel with
    | zero => rfl
    | succ n =>
      rw [parseLoop_command U n _ rfl]
      simp only [h1]
      obtain ⟨s2, e2, t2⟩ := runCommand_token_fixed U _ rfl h2 n
        (cell (toLower U (cell 'Z'))) (isLower U (cell 'Z'))
        (QPainterPath.currentPosition QPainterPath.empty)
        ⟨QPainterPath.empty,
          ⟨"Z #".toList, 2, AbbPathTokenType.abtCommand, 'Z', uninit.number⟩, ' ', ⟨0, 0⟩⟩ rfl
      rw [e2]
      exact parseLoop_stuck U _ rfl h2 n _ t2

/-! ## Points written with a space -/

theorem delim_space (U : QCharTables) (r : List Char) :
    (' ' :: r = [] ∨ ∃ d r1, ' ' :: r = d :: r1 ∧ inNumber U d = false) :=
  Or.inr ⟨' ', r, rfl, rfl⟩

theorem eof_rest_full (U : QCharTables) (t : AbbPathToken) (ws : List Char)
    (hrest : t.data.drop t.curPos = ws) (hws : ∀ d ∈ ws, isSpace U d = true) :
    ∃ t1, nextAbbPathToken U t = (true, t1) ∧ t1.type = AbbPathTokenType.abtEOF ∧
      t1.number = t.number ∧ t1.command = t.command ∧ t1.data.drop t1.curPos = [] := by
  refine ⟨_, nextAbbPathToken_eof U t ws hrest hws, rfl, rfl, rfl, ?_⟩
  exact drop_add_of_drop t.data t.curPos ws [] (by simpa using hrest)

/-- The function getPointFromString on the y of a point written with a space, the last
point of the text: the y is read, and the end of input twice. -/
theorem getPointFromString_spaced_last (U : QCharTables) (t : AbbPathToken) (p : WrittenPoint)
    (cur : QPointF) (hp : p.wellFormed) (hx : t.number = p.x)
    (hrest : t.data.drop t.curPos = ' ' :: p.yText) :
    ∃ t3, getPointFromString U t false cur = (p.point, t3) ∧
      t3.type = AbbPathTokenType.abtEOF := by
  obtain ⟨t1, h1, _, _, n1, _, r1⟩ := number_rest U t [' '] p.yText []
    (by simpa using hrest) (space_is_space U) hp.2.1 (Or.inl rfl)
  obtain ⟨t2, h2, _, n2, _, r2⟩ := eof_rest_full U t1 [] r1 (by simp)
  obtain ⟨t3, h3, ty3, _, _, _⟩ := eof_rest_full U t2 [] r2 (by simp)
  refine ⟨t3, ?_, ty3⟩
  unfold getPointFromString
  simp only [h1, h2, h3, hx, n2, n1, toDouble_of_readDecimal U _ _ hp.2.2, WrittenPoint.point]
  rfl

/-- The function getPointFromString on the y of a point written with a space, when L and a
further point follow: the y is read, the L is skipped where the comma is expected, and the
token is the x of the further point. -/
theorem getPointFromString_spaced (U : QCharTables) (t : AbbPathToken) (p q : WrittenPoint)
    (r : List Char) (cur : QPointF) (hp : p.wellFormed) (hq : q.wellFormed)
    (hx : t.number = p.x)
    (hrest : t.data.drop t.curPos =
      ' ' :: (p.yText ++ ' ' :: 'L' :: ' ' :: (q.xText ++ ' ' :: r))) :
    ∃ t3, getPointFromString U t false cur = (p.point, t3) ∧
      t3.type = AbbPathTokenType.abtNumber ∧ t3.number = q.x ∧
      t3.data.drop t3.curPos = ' ' :: r := by
  obtain ⟨t1, h1, _, _, n1, _, r1⟩ := number_rest U t [' '] p.yText
    (' ' :: 'L' :: ' ' :: (q.xText ++ ' ' :: r))
    (by simpa using hrest) (space_is_space U) hp.2.1 (delim_space U _)
  obtain ⟨t2, h2, _, n2, a2⟩ := command_rest U t1 [' '] (' ' :: (q.xText ++ ' ' :: r)) 'L'
    (by decide) (by simpa using r1) (space_is_space U)
  obtain ⟨t3, h3, _, ty3, n3, _, r3⟩ := number_rest U t2 [' '] q.xText (' ' :: r)
    (by simpa using a2.2.2) (space_is_space U) hq.1.1 (delim_space U _)
  refine ⟨t3, ?_, ty3, by rw [n3, toDouble_of_readDecimal U _ _ hq.1.2], r3⟩
  unfold getPointFromString
  simp only [h1, h2, h3, hx, n2, n1, toDouble_of_readDecimal U _ _ hp.2.2, WrittenPoint.point]
  rfl

/-- The loop of case m on points written with a space: one moveTo for each point, the L
between them read as separators. -/
theorem whileNumber_spaced (U : QCharTables) (cur : QPointF) (ps : List WrittenPoint) :
    ∀ (p : WrittenPoint) (s : ParserState) (fuel : Nat), p.wellFormed →
      (∀ q ∈ ps, q.wellFormed) → ps.length + 1 ≤ fuel →
      s.token.type = AbbPathTokenType.abtNumber → s.token.number = p.x →
      s.token.data.drop s.token.curPos = ' ' :: (p.yText ++ spacedLinesText ps) →
      ∃ s1, whileNumber (moveBody U false cur) fuel s = some s1 ∧
        s1.token.type = AbbPathTokenType.abtEOF ∧
        s1.path = ⟨s.path.fillRule,
          s.path.calls ++ PathCall.moveTo p.point ::
            ps.map (fun q => PathCall.moveTo q.point)⟩ := by
  induction ps with
  | nil =>
    intro p s fuel hp _ hf hty hx hrest
    obtain ⟨n, rfl⟩ : ∃ n, fuel = n + 1 := ⟨fuel - 1, by simp at hf; omega⟩
    obtain ⟨t3, e3, ty3⟩ := getPointFromString_spaced_last U s.token p cur hp hx
      (by simpa [spacedLinesText] using hrest)
    refine ⟨moveBody U false cur s, ?_, ?_, ?_⟩
    · exact whileNumber_once _ _ _ hty (by simp [moveBody, e3, ty3])
    · simp [moveBody, e3, ty3]
    · simp [moveBody, e3, QPainterPath.call]
  | cons q qs ih =>
    intro p s fuel hp hps hf hty hx hrest
    obtain ⟨n, rfl⟩ : ∃ n, fuel = n + 1 := ⟨fuel - 1, by simp at hf; omega⟩
    obtain ⟨t3, e3, ty3, n3, r3⟩ := getPointFromString_spaced U s.token p q
      (q.yText ++ spacedLinesText qs) cur hp (hps q (by simp)) hx
      (by simpa [spacedLinesText, WrittenPoint.spacedText] using hrest)
    obtain ⟨s1, e1, ty1, p1⟩ := ih q (moveBody U false cur s) n (hps q (by simp))
      (fun x hx => hps x (List.mem_cons_of_mem _ hx)) (by simp at hf ⊢; omega)
      (by simp [moveBody, e3, ty3]) (by simp [moveBody, e3, n3])
      (by simpa [moveBody, e3] using r3)
    refine ⟨s1, ?_, ty1, ?_⟩
    · rw [whileNumber, if_pos hty, e1]
    · rw [p1]
      simp [moveBody, e3, QPainterPath.call]

/-- C14, as stated, fails: with spaces in place of the commas, M 1 2 L 3 4 parses to
moveTo(1,2), moveTo(3,4), where M 1,2 L 3,4 parses to moveTo(1,2), lineTo(3,4). -/
theorem spaced_points_parse_differently :
    parseAbbreviatedPathData QCharTables.plain AbbPathToken.blank "M 1 2 L 3 4".toList 10 =
      some ⟨FillRule.oddEvenFill, [PathCall.moveTo ⟨1, 2⟩, PathCall.moveTo ⟨3, 4⟩]⟩ ∧
    parseAbbreviatedPathData QCharTables.plain AbbPathToken.blank "M 1,2 L 3,4".toList 10 =
      some ⟨FillRule.oddEvenFill, [PathCall.moveTo ⟨1, 2⟩, PathCall.lineTo ⟨3, 4⟩]⟩ ∧
    parseAbbreviatedPathData QCharTables.plain AbbPathToken.blank "M 1 2 L 3 4".toList 10 ≠
      parseAbbreviatedPathData QCharTables.plain AbbPathToken.blank "M 1,2 L 3,4".toList 10 := by
  decide!

/-- C14, amended. The x and y of a point are to be written with a comma between them. With
a space in place of each comma, the path data M x0 y0 L x1 y1 ... L xn yn parses to
moveTo(x0,y0), moveTo(x1,y1), ..., moveTo(xn,yn): getPointFromString skips the token after
the y where it skips the comma otherwise, so every L is passed over and its point is read
as one more operand of the M. -/
theorem parseAbbreviatedPathData_spaced (U : QCharTables) (uninit : AbbPathToken)
    (p0 : WrittenPoint) (ps : List WrittenPoint) (fuel : Nat) (h0 : p0.wellFormed)
    (hps : ∀ q ∈ ps, q.wellFormed) (hfuel : ps.length + 2 ≤ fuel) :
    parseAbbreviatedPathData U uninit (spacedPathText p0 ps) fuel =
      some ⟨FillRule.oddEvenFill,
        PathCall.moveTo p0.point :: ps.map (fun q => PathCall.moveTo q.point)⟩ := by
  obtain ⟨n, rfl⟩ : ∃ n, fuel = n + 1 := ⟨fuel - 1, by omega⟩
  obtain ⟨t0, e0, _, _, ty0, c0, r0⟩ := command_rest U
    { uninit with data := spacedPathText p0 ps, curPos := 0 } []
    (' ' :: (p0.spacedText ++ spacedLinesText ps)) 'M' (by decide)
    (by simp [spacedPathText]) (by simp)
  obtain ⟨t1, e1, _, ty1, n1, _, r1⟩ := number_rest U t0 [' '] p0.xText
    (' ' :: (p0.yText ++ spacedLinesText ps))
    (by simpa [WrittenPoint.spacedText] using r0) (space_is_space U) h0.1.1 (delim_space U _)
  obtain ⟨s1, w1, ty2, p1⟩ := whileNumber_spaced U
    (QPainterPath.currentPosition QPainterPath.empty) ps p0
    ⟨QPainterPath.empty, t1, ' ', ⟨0, 0⟩⟩ n h0 hps (by omega) ty1
    (by rw [n1, toDouble_of_readDecimal U _ _ h0.1.2]) r1
  have h1 : cell (toLower U (cell 'M')) = 'm' := rfl
  have h2 : isLower U (cell 'M') = false := rfl
  unfold parseAbbreviatedPathData
  simp only [e0]
  rw [parseLoop_command U n _ ty0]
  simp only [c0, h1, h2, e1, runCommand_m, w1]
  rw [parseLoop_done U n _ (by simp [ty2]), p1]
  rfl

theorem parseAbbreviatedPathData_spaced_witness :
    ((⟨"1".toList, "2".toList, 1, 2⟩ : WrittenPoint).wellFormed ∧
      (∀ q ∈ [(⟨"3".toList, "4".toList, 3, 4⟩ : WrittenPoint)], q.wellFormed) ∧
      [(⟨"3".toList, "4".toList, 3, 4⟩ : WrittenPoint)].length + 2 ≤ 3) ∧
    parseAbbreviatedPathData QCharTables.plain AbbPathToken.blank "M 1 2 L 3 4".toList 3 =
      some ⟨FillRule.oddEvenFill, [PathCall.moveTo ⟨1, 2⟩, PathCall.moveTo ⟨3, 4⟩]⟩ :=
  ⟨by decide!,
    parseAbbreviatedPathData_spaced QCharTables.plain AbbPathToken.blank
      ⟨"1".toList, "2".toList, 1, 2⟩ [⟨"3".toList, "4".toList, 3, 4⟩] 3
      (by decide!) (by decide!) (by decide)⟩

/-! ## Landing on a text -/

theorem lands_next (U : QCharTables) (t : AbbPathToken) (k : QString)
    (h : t.data.drop t.curPos = k) : Lands U (nextAbbPathToken U t).2 k :=
  ⟨t, h, rfl⟩

theorem lands_nil (U : QCharTables) (t : AbbPathToken) (h : Lands U t []) :
    t.type = AbbPathTokenType.abtEOF := by
  obtain ⟨t0, h0, rfl⟩ := h
  obtain ⟨t1, e1, ty1⟩ := eof_rest U t0 [] h0 (by simp)
  rw [e1]
  exact ty1

theorem lands_comma (U : QCharTables) (t : AbbPathToken) (j : QString)
    (h : Lands U t (' ' :: ',' :: j)) : t.type = AbbPathTokenType.abtComma := by
  obtain ⟨t0, h0, rfl⟩ := h
  obtain ⟨t1, e1, _, ty1, _⟩ := comma_rest U t0 [' '] j (by simpa using h0) (space_is_space U)
  rw [e1]
  exact ty1

theorem lands_letter (U : QCharTables) (t : AbbPathToken) (c : Char) (r : QString)
    (hc : (65 ≤ c.toNat ∧ c.toNat ≤ 90) ∨ (97 ≤ c.toNat ∧ c.toNat ≤ 122))
    (h : Lands U t (' ' :: c :: r)) : AtCommand t c r := by
  obtain ⟨t0, h0, rfl⟩ := h
  obtain ⟨t1, e1, _, _, a1⟩ := command_rest U t0 [' '] r c hc (by simpa using h0)
    (space_is_space U)
  rw [e1]
  exact a1

theorem lands_number (U : QCharTables) (t : AbbPathToken) (n : WrittenNumber) (k : QString)
    (hn : n.wellFormed) (hk : Delim U k) (h : Lands U t (' ' :: (n.text ++ k))) :
    t.type = AbbPathTokenType.abtNumber ∧ t.number = n.value ∧ t.data.drop t.curPos = k := by
  obtain ⟨t0, h0, rfl⟩ := h
  obtain ⟨t1, e1, _, ty1, n1, _, r1⟩ := number_rest U t0 [' '] n.text k (by simpa using h0)
    (space_is_space U) hn.1 hk
  rw [e1]
  exact ⟨ty1, by rw [n1, toDouble_of_readDecimal U _ _ hn.2], r1⟩

theorem lands_point (U : QCharTables) (t : AbbPathToken) (p : WrittenPoint) (k : QString)
    (hp : p.wellFormed) (h : Lands U t (' ' :: (p.text ++ k))) :
    t.type = AbbPathTokenType.abtNumber ∧ t.number = p.x ∧
      t.data.drop t.curPos = ',' :: (p.yText ++ k) := by
  obtain ⟨t0, h0, rfl⟩ := h
  obtain ⟨t1, e1, _, ty1, n1, _, r1⟩ := number_rest U t0 [' '] p.xText (',' :: (p.yText ++ k))
    (by simpa [WrittenPoint.text] using h0) (space_is_space U) hp.1.1
    (Or.inr ⟨',', _, rfl, rfl⟩)
  rw [e1]
  exact ⟨ty1, by rw [n1, toDouble_of_readDecimal U _ _ hp.1.2], r1⟩

theorem delim_operands (U : QCharTables) (os : List Operand) (k : QString) (hk : Delim U k) :
    Delim U (operandsText os ++ k) := by
  cases os with
  | nil => simpa [operandsText] using hk
  | cons o os => exact Or.inr ⟨' ', _, rfl, rfl⟩

theorem operandsText_append (os ps : List Operand) :
    operandsText (os ++ ps) = operandsText os ++ operandsText ps := by
  induction os with
  | nil => rfl
  | cons o os ih => simp [operandsText, ih]

/-- The function getPointFromString on a token read from a written point and a text k that
ends its y: the point is the one written, resolved, and the token is read from k. -/
theorem getPointFromString_lands (U : QCharTables) (t : AbbPathToken) (p : WrittenPoint)
    (k : QString) (rel : Bool) (cur : QPointF) (hp : p.wellFormed) (hk : Delim U k)
    (h : Lands U t (' ' :: (p.text ++ k))) :
    ∃ t3, getPointFromString U t rel cur = (resolvePoint rel cur p, t3) ∧ Lands U t3 k := by
  obtain ⟨_, hx, hrest⟩ := lands_point U t p k hp h
  obtain ⟨t1, h1, _, _, _, _, r1⟩ := comma_rest U t [] (p.yText ++ k) (by simpa using hrest)
    (by simp)
  obtain ⟨t2, h2, _, _, n2, _, r2⟩ := number_rest U t1 [] p.yText k (by simpa using r1)
    (by simp) hp.2.1 hk
  refine ⟨(nextAbbPathToken U t2).2, ?_, lands_next U t2 k r2⟩
  unfold getPointFromString
  simp only [h1, h2, hx, n2, toDouble_of_readDecimal U _ _ hp.2.2, resolvePoint,
    WrittenPoint.point]

/-- The tokenizer on a token read from a written number and a text k that ends it: the
next token is read from k. -/
theorem nextAbbPathToken_lands (U : QCharTables) (t : AbbPathToken) (n : WrittenNumber)
    (k : QString) (hn : n.wellFormed) (hk : Delim U k) (h : Lands U t (' ' :: (n.text ++ k))) :
    Lands U (nextAbbPathToken U t).2 k :=
  lands_next U t k (lands_number U t n k hn hk h).2.2

/-! ## One group of operands -/

theorem delim_space_cons (U : QCharTables) (r : List Char) : Delim U (' ' :: r) :=
  Or.inr ⟨' ', r, rfl, rfl⟩

theorem group_move (U : QCharTables) (rel : Bool) (cur : QPointF) (p : WrittenPoint)
    (s : ParserState) (k : QString) (hp : p.wellFormed) (hk : Delim U k)
    (h : Lands U s.token (' ' :: (p.text ++ k))) :
    s.token.type = AbbPathTokenType.abtNumber ∧ Lands U (moveBody U rel cur s).token k ∧
      (moveBody U rel cur s).core =
        groupEffect CommandKind.move rel cur [Operand.point p] s.core := by
  obtain ⟨t3, e3, l3⟩ := getPointFromString_lands U s.token p k rel cur hp hk h
  refine ⟨(lands_point U s.token p k hp h).1, ?_, ?_⟩
  · simpa [moveBody, e3] using l3
  · simp [moveBody, e3, ParserState.core, groupEffect]

theorem group_line (U : QCharTables) (rel : Bool) (cur : QPointF) (p : WrittenPoint)
    (s : ParserState) (k : QString) (hp : p.wellFormed) (hk : Delim U k)
    (h : Lands U s.token (' ' :: (p.text ++ k))) :
    s.token.type = AbbPathTokenType.abtNumber ∧ Lands U (lineBody U rel cur s).token k ∧
      (lineBody U rel cur s).core =
        groupEffect CommandKind.line rel cur [Operand.point p] s.core := by
  obtain ⟨t3, e3, l3⟩ := getPointFromString_lands U s.token p k rel cur hp hk h
  refine ⟨(lands_point U s.token p k hp h).1, ?_, ?_⟩
  · simpa [lineBody, e3] using l3
  · simp [lineBody, e3, ParserState.core, groupEffect]

theorem group_horizontal (U : QCharTables) (rel : Bool) (cur : QPointF) (n : WrittenNumber)
    (s : ParserState) (k : QString) (hn : n.wellFormed) (hk : Delim U k)
    (h : Lands U s.token (' ' :: (n.text ++ k))) :
    s.token.type = AbbPathTokenType.abtNumber ∧ Lands U (horizontalBody U rel s).token k ∧
      (horizontalBody U rel s).core =
        groupEffect CommandKind.horizontal rel cur [Operand.number n] s.core := by
  obtain ⟨ty, nv, _⟩ := lands_number U s.token n k hn hk h
  refine ⟨ty, ?_, ?_⟩
  · simpa [horizontalBody] using nextAbbPathToken_lands U s.token n k hn hk h
  · simp [horizontalBody, nv, ParserState.core, groupEffect]

theorem group_vertical (U : QCharTables) (rel : Bool) (cur : QPointF) (n : WrittenNumber)
    (s : ParserState) (k : QString) (hn : n.wellFormed) (hk : Delim U k)
    (h : Lands U s.token (' ' :: (n.text ++ k))) :
    s.token.type = AbbPathTokenType.abtNumber ∧ Lands U (verticalBody U rel s).token k ∧
      (verticalBody U rel s).core =
        groupEffect CommandKind.vertical rel cur [Operand.number n] s.core := by
  obtain ⟨ty, nv, _⟩ := lands_number U s.token n k hn hk h
  refine ⟨ty, ?_, ?_⟩
  · simpa [verticalBody] using nextAbbPathToken_lands U s.token n k hn hk h
  · simp [verticalBody, nv, ParserState.core, groupEffect]

theorem group_cubic (U : QCharTables) (rel : Bool) (cur : QPointF) (p1 p2 p3 : WrittenPoint)
    (s : ParserState) (k : QString) (h1 : p1.wellFormed) (h2 : p2.wellFormed)
    (h3 : p3.wellFormed) (hk : Delim U k)
    (h : Lands U s.token (' ' :: (p1.text ++ ' ' :: (p2.text ++ ' ' :: (p3.text ++ k))))) :
    s.token.type = AbbPathTokenType.abtNumber ∧ Lands U (cubicBody U rel cur s).token k ∧
      (cubicBody U rel cur s).core =
        groupEffect CommandKind.cubic rel cur
          [Operand.point p1, Operand.point p2, Operand.point p3] s.core := by
  obtain ⟨t1, e1, l1⟩ := getPointFromString_lands U s.token p1 _ rel cur h1
    (delim_space_cons U _) h
  obtain ⟨t2, e2, l2⟩ := getPointFromString_lands U t1 p2 _ rel cur h2
    (delim_space_cons U _) l1
  obtain ⟨t3, e3, l3⟩ := getPointFromString_lands U t2 p3 k rel cur h3 hk l2
  refine ⟨(lands_point U s.token p1 _ h1 h).1, ?_, ?_⟩
  · simpa [cubicBody, e1, e2, e3] using l3
  · simp [cubicBody, e1, e2, e3, ParserState.core, groupEffect]

theorem group_quad (U : QCharTables) (rel : Bool) (cur : QPointF) (p1 p2 : WrittenPoint)
    (s : ParserState) (k : QString) (h1 : p1.wellFormed) (h2 : p2.wellFormed)
    (hk : Delim U k) (h : Lands U s.token (' ' :: (p1.text ++ ' ' :: (p2.text ++ k)))) :
    s.token.type = AbbPathTokenType.abtNumber ∧ Lands U (quadBody U rel cur s).token k ∧
      (quadBody U rel cur s).core =
        groupEffect CommandKind.quad rel cur [Operand.point p1, Operand.point p2] s.core := by
  obtain ⟨t1, e1, l1⟩ := getPointFromString_lands U s.token p1 _ rel cur h1
    (delim_space_cons U _) h
  obtain ⟨t2, e2, l2⟩ := getPointFromString_lands U t1 p2 k rel cur h2 hk l1
  refine ⟨(lands_point U s.token p1 _ h1 h).1, ?_, ?_⟩
  · simpa [quadBody, e1, e2] using l2
  · simp [quadBody, e1, e2, ParserState.core, groupEffect]

theorem group_smooth (U : QCharTables) (rel : Bool) (cur : QPointF) (p1 p2 : WrittenPoint)
    (s : ParserState) (k : QString) (h1 : p1.wellFormed) (h2 : p2.wellFormed)
    (hk : Delim U k) (h : Lands U s.token (' ' :: (p1.text ++ ' ' :: (p2.text ++ k)))) :
    s.token.type = AbbPathTokenType.abtNumber ∧ Lands U (smoothBody U rel cur s).token k ∧
      (smoothBody U rel cur s).core =
        groupEffect CommandKind.smooth rel cur [Operand.point p1, Operand.point p2] s.core := by
  obtain ⟨t1, e1, l1⟩ := getPointFromString_lands U s.token p1 _ rel cur h1
    (delim_space_cons U _) h
  obtain ⟨t2, e2, l2⟩ := getPointFromString_lands U t1 p2 k rel cur h2 hk l1
  refine ⟨(lands_point U s.token p1 _ h1 h).1, ?_, ?_⟩
  · simpa [smoothBody, e1, e2] using l2
  · simp [smoothBody, e1, e2, ParserState.core, groupEffect]

theorem group_arc (U : QCharTables) (rel : Bool) (cur : QPointF) (p1 p2 : WrittenPoint)
    (n1 n2 n3 : WrittenNumber) (s : ParserState) (k : QString) (h1 : p1.wellFormed)
    (h2 : p2.wellFormed) (m1 : n1.wellFormed) (m2 : n2.wellFormed) (m3 : n3.wellFormed)
    (hk : Delim U k)
    (h : Lands U s.token (' ' :: (p1.text ++ ' ' :: (n1.text ++ ' ' :: (n2.text ++
      ' ' :: (n3.text ++ ' ' :: (p2.text ++ k))))))) :
    s.token.type = AbbPathTokenType.abtNumber ∧ Lands U (arcBody U rel cur s).token k ∧
      (arcBody U rel cur s).core =
        groupEffect CommandKind.arc rel cur
          [Operand.point p1, Operand.number n1, Operand.number n2, Operand.number n3,
            Operand.point p2] s.core := by
  obtain ⟨t1, e1, l1⟩ := getPointFromString_lands U s.token p1 _ rel cur h1
    (delim_space_cons U _) h
  have l2 := nextAbbPathToken_lands U t1 n1 _ m1 (delim_space_cons U _) l1
  have l3 := nextAbbPathToken_lands U _ n2 _ m2 (delim_space_cons U _) l2
  have l4 := nextAbbPathToken_lands U _ n3 _ m3 (delim_space_cons U _) l3
  obtain ⟨t5, e5, l5⟩ := getPointFromString_lands U _ p2 k rel cur h2 hk l4
  refine ⟨(lands_point U s.token p1 _ h1 h).1, ?_, ?_⟩
  · simpa [arcBody, e1, e5] using l5
  · simp [arcBody, ParserState.core, groupEffect]

/-- One turn of the inner loop of a command on one well-formed group and a text k that
ends it: the loop is entered, the values of the group have their effect, and the token
is read from k. -/
theorem loopBody_group (U : QCharTables) (kind : CommandKind) (rel : Bool) (cur : QPointF)
    (g : List Operand) (s : ParserState) (k : QString) (hshape : groupShape kind g = true)
    (hloops : kind.loops = true) (hwf : ∀ o ∈ g, o.wellFormed) (hk : Delim U k)
    (h : Lands U s.token (operandsText g ++ k)) :
    s.token.type = AbbPathTokenType.abtNumber ∧
      Lands U (loopBody U kind rel cur s).token k ∧
      (loopBody U kind rel cur s).core = groupEffect kind rel cur g s.core := by
  unfold groupShape at hshape
  split at hshape
  · exact absurd hloops (by decide)
  · rename_i p
    exact group_move U rel cur p s k (hwf (Operand.point p) (by simp)) hk
      (by simpa [operandsText, Operand.text] using h)
  · rename_i p
    exact group_line U rel cur p s k (hwf (Operand.point p) (by simp)) hk
      (by simpa [operandsText, Operand.text] using h)
  · rename_i n
    exact group_horizontal U rel cur n s k (hwf (Operand.number n) (by simp)) hk
      (by simpa [operandsText, Operand.text] using h)
  · rename_i n
    exact group_vertical U rel cur n s k (hwf (Operand.number n) (by simp)) hk
      (by simpa [operandsText, Operand.text] using h)
  · rename_i p1 p2 p3
    exact group_cubic U rel cur p1 p2 p3 s k (hwf (Operand.point p1) (by simp))
      (hwf (Operand.point p2) (by simp)) (hwf (Operand.point p3) (by simp)) hk
      (by simpa [operandsText, Operand.text] using h)
  · rename_i p1 p2
    exact group_quad U rel cur p1 p2 s k (hwf (Operand.point p1) (by simp))
      (hwf (Operand.point p2) (by simp)) hk (by simpa [operandsText, Operand.text] using h)
  · rename_i p1 p2
    exact group_smooth U rel cur p1 p2 s k (hwf (Operand.point p1) (by simp))
      (hwf (Operand.point p2) (by simp)) hk (by simpa [operandsText, Operand.text] using h)
  · rename_i p1 n1 n2 n3 p2
    exact group_arc U rel cur p1 p2 n1 n2 n3 s k (hwf (Operand.point p1) (by simp))
      (hwf (Operand.point p2) (by simp)) (hwf (Operand.number n1) (by simp))
      (hwf (Operand.number n2) (by simp)) (hwf (Operand.number n3) (by simp)) hk
      (by simpa [operandsText, Operand.text] using h)
  · exact absurd hshape (by decide)

/-! ## The loops on well-formed commands -/

/-- The inner loop of a command on well-formed groups and a text k that leaves the loop:
with fuel for the groups, the loop ends after the last group, the groups have had their
effects in order, and the token is read from k. -/
theorem whileNumber_groups (U : QCharTables) (kind : CommandKind) (rel : Bool) (cur : QPointF)
    (hloops : kind.loops = true) (gs : List (List Operand)) :
    ∀ (s : ParserState) (fuel : Nat) (k : QString),
      (∀ g ∈ gs, groupShape kind g = true ∧ ∀ o ∈ g, o.wellFormed) → Delim U k →
      (∀ t, Lands U t k → t.type ≠ AbbPathTokenType.abtNumber) →
      Lands U s.token (operandsText gs.flatten ++ k) → gs.length ≤ fuel →
      ∃ s1, whileNumber (loopBody U kind rel cur) fuel s = some s1 ∧ Lands U s1.token k ∧
        s1.core = gs.foldl (fun x g => groupEffect kind rel cur g x) s.core := by
  induction gs with
  | nil =>
    intro s fuel k _ _ hend hs _
    exact ⟨s, whileNumber_skip _ _ _ (hend _ (by simpa [operandsText] using hs)),
      by simpa [operandsText] using hs, rfl⟩
  | cons g gs ih =>
    intro s fuel k hwf hk hend hs hf
    obtain ⟨n, rfl⟩ : ∃ n, fuel = n + 1 := ⟨fuel - 1, by simp at hf; omega⟩
    obtain ⟨hshape, hops⟩ := hwf g (by simp)
    obtain ⟨ty, l1, c1⟩ := loopBody_group U kind rel cur g s (operandsText gs.flatten ++ k)
      hshape hloops hops (delim_operands U _ k hk)
      (by simpa [operandsText_append, List.append_assoc] using hs)
    obtain ⟨s1, e1, l2, c2⟩ := ih (loopBody U kind rel cur s) n k
      (fun x hx => hwf x (List.mem_cons_of_mem _ hx)) hk hend l1 (by simp at hf; omega)
    refine ⟨s1, ?_, l2, ?_⟩
    · rw [whileNumber, if_pos ty, e1]
    · rw [c2, c1]
      rfl

theorem letter_facts (U : QCharTables) (c : PathCommand) :
    cell (toLower U (cell c.letter)) = c.kind.command ∧
      isLower U (cell c.letter) = c.relative ∧
      ((65 ≤ c.letter.toNat ∧ c.letter.toNat ≤ 90) ∨
        (97 ≤ c.letter.toNat ∧ c.letter.toNat ≤ 122)) := by
  rcases c with ⟨kind, rel, groups⟩
  cases kind <;> cases rel <;> refine ⟨rfl, rfl, ?_⟩ <;>
    simp only [PathCommand.letter, CommandKind.command] <;> decide

theorem runCommand_loop (U : QCharTables) (kind : CommandKind) (hloops : kind.loops = true)
    (fuel : Nat) (rel : Bool) (cur : QPointF) (s : ParserState) :
    runCommand U fuel kind.command rel cur s =
      whileNumber (loopBody U kind rel cur) fuel s := by
  cases kind
  · exact absurd hloops (by decide)
  · rfl
  · rfl
  · rfl
  · rfl
  · rfl
  · rfl
  · rfl
  · rfl
  · exact absurd hloops (by decide)

theorem runCommand_f (U : QCharTables) (fuel : Nat) (rel : Bool) (cur : QPointF)
    (s : ParserState) : runCommand U fuel 'f' rel cur s = some (fillRuleBody U s) := rfl

theorem commandEffect_loop (c : PathCommand) (hloops : c.kind.loops = true) (x : ParserCore) :
    commandEffect c x =
      { c.groups.foldl (fun y g => groupEffect c.kind c.relative x.path.currentPosition g y) x
        with lastCommand := c.kind.command } := by
  rcases c with ⟨kind, rel, groups⟩
  cases kind
  · simp [CommandKind.loops] at hloops
  · rfl
  · rfl
  · rfl
  · rfl
  · rfl
  · rfl
  · rfl
  · rfl
  · simp [CommandKind.loops] at hloops

theorem groupShape_fill (g : List Operand) (h : groupShape CommandKind.fill g = true) :
    ∃ n, g = [Operand.number n] := by
  rcases g with _ | ⟨o, _ | ⟨o2, r⟩⟩
  · simp [groupShape] at h
  · cases o with
    | point p => simp [groupShape] at h
    | number n => exact ⟨n, rfl⟩
  · simp [groupShape] at h

theorem fill_groups (c : PathCommand) (hwf : c.wellFormed) (hk : c.kind = CommandKind.fill) :
    ∃ n : WrittenNumber, c.groups = [[Operand.number n]] ∧ n.wellFormed := by
  obtain ⟨h1, h2⟩ := hwf
  have hlen := h2 hk
  rcases hg : c.groups with _ | ⟨g, _ | ⟨g2, r⟩⟩
  · simp [hg] at hlen
  · obtain ⟨hs, ho⟩ := h1 g (by simp [hg])
    rw [hk] at hs
    obtain ⟨n, rfl⟩ := groupShape_fill g hs
    exact ⟨n, rfl, ho (Operand.number n) (by simp)⟩
  · simp [hg] at hlen

theorem close_groups (c : PathCommand) (hwf : c.wellFormed) (hk : c.kind = CommandKind.close) :
    c.groups = [] := by
  obtain ⟨h1, _⟩ := hwf
  cases hg : c.groups with
  | nil => rfl
  | cons g gs =>
    obtain ⟨hs, _⟩ := h1 g (by simp [hg])
    rw [hk] at hs
    exact absurd hs (by simp [groupShape])

/-- One turn of the outer loop on a well-formed command and a text k that ends it: with fuel
for its groups, the turn has the effect of the command on its values and the next turn
starts with the token read from k. -/
theorem parseLoop_turn (U : QCharTables) (c : PathCommand) (s : ParserState) (k : QString)
    (fuel : Nat) (hwf : c.wellFormed)
    (hs : AtCommand s.token c.letter (operandsText c.groups.flatten ++ k)) (hk : Delim U k)
    (hend : c.kind.loops = true → ∀ t, Lands U t k → t.type ≠ AbbPathTokenType.abtNumber)
    (hf : c.groups.length ≤ fuel) :
    ∃ s1, parseLoop U (fuel + 1) s = parseLoop U fuel s1 ∧ Lands U s1.token k ∧
      s1.core = commandEffect c s.core := by
  obtain ⟨hty, hcmd, hrest⟩ := hs
  obtain ⟨l1, l2, _⟩ := letter_facts U c
  have hl := lands_next U s.token _ hrest
  rw [parseLoop_command U fuel s hty, hcmd, l1, l2]
  by_cases hloops : c.kind.loops = true
  · obtain ⟨s1, e1, la, co⟩ := whileNumber_groups U c.kind c.relative s.path.currentPosition
      hloops c.groups { s with token := (nextAbbPathToken U s.token).2 } fuel k hwf.1 hk
      (hend hloops) hl hf
    rw [runCommand_loop U c.kind hloops, e1]
    refine ⟨{ s1 with lastCommand := c.kind.command }, rfl, la, ?_⟩
    rw [commandEffect_loop c hloops]
    show ({ s1.core with lastCommand := c.kind.command } : ParserCore) = _
    rw [co]
    rfl
  · cases hkind : c.kind with
    | fill =>
      obtain ⟨n, hg, hn⟩ := fill_groups c hwf hkind
      have hl2 : Lands U (nextAbbPathToken U s.token).2 (' ' :: (n.text ++ k)) := by
        simpa [hg, operandsText, Operand.text] using hl
      obtain ⟨_, nv, _⟩ := lands_number U _ n k hn hk hl2
      refine ⟨{ fillRuleBody U { s with token := (nextAbbPathToken U s.token).2 } with
        lastCommand := 'f' }, ?_, ?_, ?_⟩
      · simp only [CommandKind.command, runCommand_f]
      · exact nextAbbPathToken_lands U _ n k hn hk hl2
      · simp only [commandEffect, hkind, hg, fillRuleBody, nv, ParserState.core,
          CommandKind.command]
    | close =>
      have hg := close_groups c hwf hkind
      refine ⟨{ s with token := (nextAbbPathToken U s.token).2,
                       path := s.path.call PathCall.closeSubpath, lastCommand := 'z' },
        ?_, ?_, ?_⟩
      · simp only [CommandKind.command, runCommand_z]
      · simpa [hg, operandsText] using hl
      · simp only [commandEffect, hkind, ParserState.core, CommandKind.command]
    | move => simp [hkind, CommandKind.loops] at hloops
    | line => simp [hkind, CommandKind.loops] at hloops
    | horizontal => simp [hkind, CommandKind.loops] at hloops
    | vertical => simp [hkind, CommandKind.loops] at hloops
    | cubic => simp [hkind, CommandKind.loops] at hloops
    | quad => simp [hkind, CommandKind.loops] at hloops
    | smooth => simp [hkind, CommandKind.loops] at hloops
    | arc => simp [hkind, CommandKind.loops] at hloops

/-- The outer loop on well-formed commands and a text k that no command starts: the loop
returns the path that the commands have built. -/
theorem parseLoop_commands (U : QCharTables) (cs : List PathCommand) :
    ∀ (c : PathCommand) (s : ParserState) (fuel : Nat) (k : QString),
      (∀ x ∈ c :: cs, x.wellFormed) →
      AtCommand s.token c.letter (operandsText c.groups.flatten ++ (commandsText cs ++ k)) →
      Delim U k → (∀ t, Lands U t k → t.type ≠ AbbPathTokenType.abtCommand) →
      (endsWithLoop (c :: cs) = true →
        ∀ t, Lands U t k → t.type ≠ AbbPathTokenType.abtNumber) →
      fuelFor (c :: cs) ≤ fuel →
      parseLoop U fuel s = some (runCommands (c :: cs) s.core).path := by
  induction cs with
  | nil =>
    intro c s fuel k hwf hs hk hcmd hnum hf
    obtain ⟨n, rfl⟩ : ∃ n, fuel = n + 1 := ⟨fuel - 1, by simp [fuelFor] at hf; omega⟩
    obtain ⟨s1, e1, l1, c1⟩ := parseLoop_turn U c s k n (hwf c (by simp))
      (by simpa [commandsText] using hs) hk (fun h => hnum (by simpa [endsWithLoop] using h))
      (by simp [fuelFor] at hf; omega)
    rw [e1, parseLoop_done U n s1 (hcmd _ l1)]
    show some s1.core.path = _
    rw [c1]
    rfl
  | cons c2 cs ih =>
    intro c s fuel k hwf hs hk hcmd hnum hf
    obtain ⟨n, rfl⟩ : ∃ n, fuel = n + 1 := ⟨fuel - 1, by simp [fuelFor] at hf; omega⟩
    obtain ⟨_, _, hletter⟩ := letter_facts U c2
    have hK : commandsText (c2 :: cs) ++ k =
        ' ' :: c2.letter :: (operandsText c2.groups.flatten ++ (commandsText cs ++ k)) := by
      simp [commandsText, PathCommand.text]
    obtain ⟨s1, e1, l1, c1⟩ := parseLoop_turn U c s (commandsText (c2 :: cs) ++ k) n
      (hwf c (by simp)) hs (by rw [hK]; exact delim_space_cons U _)
      (fun _ t ht => by
        rw [hK] at ht
        rw [(lands_letter U t _ _ hletter ht).1]
        decide)
      (by simp [fuelFor] at hf; omega)
    rw [hK] at l1
    rw [e1, ih c2 s1 n k (fun x hx => hwf x (List.mem_cons_of_mem _ hx))
      (lands_letter U _ _ _ hletter l1) hk hcmd hnum (by simp [fuelFor] at hf ⊢; omega), c1]
    rfl

theorem lands_nil_final (U : QCharTables) :
    Delim U [] ∧ (∀ t, Lands U t [] → t.type ≠ AbbPathTokenType.abtCommand) ∧
      (∀ t, Lands U t [] → t.type ≠ AbbPathTokenType.abtNumber) := by
  refine ⟨Or.inl rfl, fun t ht => ?_, fun t ht => ?_⟩
  · rw [lands_nil U t ht]
    decide
  · rw [lands_nil U t ht]
    decide

/-- The interpreter on well-formed commands and a text k that no command starts: with fuel
for the commands it returns the path that the commands build from the empty path. -/
theorem parseAbbreviatedPathData_commands (U : QCharTables) (uninit : AbbPathToken)
    (cmds : List PathCommand) (k : QString) (fuel : Nat) (hwf : ∀ x ∈ cmds, x.wellFormed)
    (hk : Delim U k) (hcmd : ∀ t, Lands U t k → t.type ≠ AbbPathTokenType.abtCommand)
    (hnum : endsWithLoop cmds = true →
      ∀ t, Lands U t k → t.type ≠ AbbPathTokenType.abtNumber)
    (hf : fuelFor cmds ≤ fuel) :
    parseAbbreviatedPathData U uninit (pathText cmds ++ k) fuel =
      some (runCommands cmds ⟨QPainterPath.empty, ' ', ⟨0, 0⟩⟩).path := by
  unfold parseAbbreviatedPathData
  cases cmds with
  | nil =>
    have hl : Lands U (nextAbbPathToken U { uninit with data := [] ++ k, curPos := 0 }).2 k :=
      lands_next U _ k rfl
    simp only [pathText]
    rw [parseLoop_done U fuel _ (hcmd _ hl)]
    rfl
  | cons c cs =>
    obtain ⟨_, _, hletter⟩ := letter_facts U c
    obtain ⟨t0, e0, _, _, a0⟩ := command_rest U
      { uninit with data := pathText (c :: cs) ++ k, curPos := 0 } []
      (operandsText c.groups.flatten ++ (commandsText cs ++ k)) c.letter hletter
      (by simp [pathText, PathCommand.text]) (by simp)
    simp only [e0]
    rw [parseLoop_commands U cs c ⟨QPainterPath.empty, t0, ' ', ⟨0, 0⟩⟩ fuel k hwf a0 hk hcmd
      hnum hf]
    rfl

/-! ## An arc among well-formed commands -/

theorem fuelFor_append (xs ys : List PathCommand) :
    fuelFor (xs ++ ys) = fuelFor xs + fuelFor ys := by
  induction xs with
  | nil => simp [fuelFor]
  | cons x xs ih =>
    show fuelFor (x :: (xs ++ ys)) = fuelFor (x :: xs) + fuelFor ys
    rw [fuelFor, fuelFor, ih]
    omega

theorem runCommands_append (xs ys : List PathCommand) (x : ParserCore) :
    runCommands (xs ++ ys) x = runCommands ys (runCommands xs x) := by
  simp [runCommands, List.foldl_append]

theorem groupEffect_arc (rel : Bool) (cur : QPointF) (g : List Operand) (x : ParserCore) :
    groupEffect CommandKind.arc rel cur g x = x := by
  unfold groupEffect
  split <;> rfl

theorem foldl_groupEffect_arc (rel : Bool) (cur : QPointF) (gs : List (List Operand))
    (x : ParserCore) :
    gs.foldl (fun y g => groupEffect CommandKind.arc rel cur g y) x = x := by
  induction gs generalizing x with
  | nil => rfl
  | cons g gs ih => rw [List.foldl_cons, groupEffect_arc, ih]

theorem commandEffect_arc (a : PathCommand) (hkind : a.kind = CommandKind.arc)
    (x : ParserCore) : commandEffect a x = { x with lastCommand := 'a' } := by
  rw [commandEffect_loop a (by rw [hkind]; rfl), hkind, foldl_groupEffect_arc]
  rfl

theorem groupEffect_lastCommand (kind : CommandKind) (hkind : kind ≠ CommandKind.smooth)
    (rel : Bool) (cur : QPointF) (g : List Operand) (x : ParserCore) (l : Char) :
    groupEffect kind rel cur g { x with lastCommand := l } =
      { groupEffect kind rel cur g x with lastCommand := l } := by
  unfold groupEffect
  split <;> cases kind <;> first | rfl | exact absurd rfl hkind

theorem foldl_groupEffect_lastCommand (kind : CommandKind)
    (hkind : kind ≠ CommandKind.smooth) (rel : Bool) (cur : QPointF)
    (gs : List (List Operand)) (x : ParserCore) (l : Char) :
    gs.foldl (fun y g => groupEffect kind rel cur g y) { x with lastCommand := l } =
      { gs.foldl (fun y g => groupEffect kind rel cur g y) x with lastCommand := l } := by
  induction gs generalizing x with
  | nil => rfl
  | cons g gs ih =>
    rw [List.foldl_cons, List.foldl_cons, groupEffect_lastCommand kind hkind, ih]

/-- A command other than s does the same whatever the command before it was. -/
theorem commandEffect_lastCommand (c : PathCommand) (hkind : c.kind ≠ CommandKind.smooth)
    (x : ParserCore) (l : Char) :
    commandEffect c { x with lastCommand := l } = commandEffect c x := by
  by_cases hloops : c.kind.loops = true
  · rw [commandEffect_loop c hloops, commandEffect_loop c hloops]
    show ({ c.groups.foldl (fun y g =>
        groupEffect c.kind c.relative x.path.currentPosition g y) { x with lastCommand := l }
          with lastCommand := c.kind.command } : ParserCore) = _
    rw [foldl_groupEffect_lastCommand c.kind hkind]
  · rcases c with ⟨kind, rel, groups⟩
    cases kind
    · simp only [commandEffect]
      split <;> rfl
    · simp [CommandKind.loops] at hloops
    · simp [CommandKind.loops] at hloops
    · simp [CommandKind.loops] at hloops
    · simp [CommandKind.loops] at hloops
    · simp [CommandKind.loops] at hloops
    · simp [CommandKind.loops] at hloops
    · simp [CommandKind.loops] at hloops
    · simp [CommandKind.loops] at hloops
    · rfl

theorem runCommands_lastCommand (suf : List PathCommand)
    (hs : ∀ c, suf.head? = some c → c.kind ≠ CommandKind.smooth) (x : ParserCore) (l : Char) :
    (runCommands suf { x with lastCommand := l }).path = (runCommands suf x).path := by
  cases suf with
  | nil => rfl
  | cons c cs =>
    show (runCommands cs (commandEffect c { x with lastCommand := l })).path = _
    rw [commandEffect_lastCommand c (hs c rfl)]
    rfl

/-- C11. Among well-formed commands, a well-formed arc command (A or a with its groups
rx,ry rot large sweep x,y) adds nothing to the path and leaves every command after it as
it was: when the command after the arc is not s or S, the path data with the arc parses,
with fuel for its commands, to the same path as the path data without it, and both parse
to a path. -/
theorem arc_contributes_nothing (U : QCharTables) (uninit : AbbPathToken)
    (pre suf : List PathCommand) (a : PathCommand) (fuel : Nat)
    (hpre : ∀ x ∈ pre, x.wellFormed) (hsuf : ∀ x ∈ suf, x.wellFormed) (ha : a.wellFormed)
    (hkind : a.kind = CommandKind.arc)
    (hs : ∀ c, suf.head? = some c → c.kind ≠ CommandKind.smooth)
    (hf : fuelFor (pre ++ a :: suf) ≤ fuel) :
    parseAbbreviatedPathData U uninit (pathText (pre ++ a :: suf)) fuel =
        parseAbbreviatedPathData U uninit (pathText (pre ++ suf)) fuel ∧
      (parseAbbreviatedPathData U uninit (pathText (pre ++ suf)) fuel).isSome = true := by
  obtain ⟨f1, f2, f3⟩ := lands_nil_final U
  have hf2 : fuelFor (pre ++ suf) ≤ fuel := by
    rw [fuelFor_append] at hf ⊢
    simp only [fuelFor] at hf
    omega
  have h1 := parseAbbreviatedPathData_commands U uninit (pre ++ a :: suf) [] fuel
    (by
      intro x hx
      rcases List.mem_append.1 hx with hx | hx
      · exact hpre x hx
      · rcases List.mem_cons.1 hx with rfl | hx
        · exact ha
        · exact hsuf x hx)
    f1 f2 (fun _ => f3) hf
  have h2 := parseAbbreviatedPathData_commands U uninit (pre ++ suf) [] fuel
    (by
      intro x hx
      rcases List.mem_append.1 hx with hx | hx
      · exact hpre x hx
      · exact hsuf x hx)
    f1 f2 (fun _ => f3) hf2
  rw [List.append_nil] at h1 h2
  refine ⟨?_, by rw [h2]; rfl⟩
  rw [h1, h2, runCommands_append, runCommands_append]
  show some (runCommands suf (commandEffect a _)).path = _
  rw [commandEffect_arc a hkind, runCommands_lastCommand suf hs]

theorem arc_contributes_nothing_witness :
    ((∀ x ∈ [(⟨CommandKind.move, false, [[Operand.point ⟨"0".toList, "0".toList, 0, 0⟩]]⟩ :
        PathCommand)], x.wellFormed) ∧
      (∀ x ∈ [(⟨CommandKind.line, false, [[Operand.point ⟨"5".toList, "5".toList, 5, 5⟩]]⟩ :
        PathCommand)], x.wellFormed) ∧
      (⟨CommandKind.arc, false,
        [[Operand.point ⟨"10".toList, "10".toList, 10, 10⟩, Operand.number ⟨"0".toList, 0⟩,
          Operand.number ⟨"1".toList, 1⟩, Operand.number ⟨"0".toList, 0⟩,
          Operand.point ⟨"20".toList, "20".toList, 20, 20⟩]]⟩ : PathCommand).wellFormed) ∧
    (parseAbbreviatedPathData QCharTables.plain AbbPathToken.blank
        "M 0,0 A 10,10 0 1 0 20,20 L 5,5".toList 6 =
      parseAbbreviatedPathData QCharTables.plain AbbPathToken.blank "M 0,0 L 5,5".toList 6 ∧
    (parseAbbreviatedPathData QCharTables.plain AbbPathToken.blank
      "M 0,0 L 5,5".toList 6).isSome = true) :=
  ⟨by decide!,
    arc_contributes_nothing QCharTables.plain AbbPathToken.blank
      [⟨CommandKind.move, false, [[Operand.point ⟨"0".toList, "0".toList, 0, 0⟩]]⟩]
      [⟨CommandKind.line, false, [[Operand.point ⟨"5".toList, "5".toList, 5, 5⟩]]⟩]
      ⟨CommandKind.arc, false,
        [[Operand.point ⟨"10".toList, "10".toList, 10, 10⟩, Operand.number ⟨"0".toList, 0⟩,
          Operand.number ⟨"1".toList, 1⟩, Operand.number ⟨"0".toList, 0⟩,
          Operand.point ⟨"20".toList, "20".toList, 20, 20⟩]]⟩
      6 (by decide!) (by decide!) (by decide!) rfl (by decide) (by decide)⟩


/-! ## A number or a comma where a command is expected -/

theorem stray_final (U : QCharTables) (afterLoop : Bool) (k : QString)
    (h : Stray U afterLoop k) :
    Delim U k ∧ (∀ t, Lands U t k → t.type ≠ AbbPathTokenType.abtCommand) ∧
      (afterLoop = true → ∀ t, Lands U t k → t.type ≠ AbbPathTokenType.abtNumber) := by
  rcases h with ⟨j, rfl⟩ | ⟨hb, n, j, hn, hj, rfl⟩
  · refine ⟨delim_space_cons U _, fun t ht => ?_, fun _ t ht => ?_⟩
    · rw [lands_comma U t j ht]
      decide
    · rw [lands_comma U t j ht]
      decide
  · refine ⟨delim_space_cons U _, fun t ht => ?_, fun hl => ?_⟩
    · rw [(lands_number U t n j hn hj ht).1]
      decide
    · rw [hb] at hl
      exact absurd hl (by decide)

/-- C13. After well-formed commands, a stray token where a command is expected (a comma
after any command, or a number after a command that reads no run of operands, such as Z)
stops the interpreter: with fuel for the commands it returns the path of the commands
before the token, the same path as without the token and the text after it, whatever this
text is. -/
theorem stray_token_stops (U : QCharTables) (uninit : AbbPathToken) (cmds : List PathCommand)
    (k : QString) (fuel : Nat) (hwf : ∀ x ∈ cmds, x.wellFormed)
    (hstray : Stray U (endsWithLoop cmds) k) (hf : fuelFor cmds ≤ fuel) :
    ∃ path, parseAbbreviatedPathData U uninit (pathText cmds) fuel = some path ∧
      parseAbbreviatedPathData U uninit (pathText cmds ++ k) fuel = some path := by
  obtain ⟨f1, f2, f3⟩ := lands_nil_final U
  obtain ⟨g1, g2, g3⟩ := stray_final U _ k hstray
  have h1 := parseAbbreviatedPathData_commands U uninit cmds [] fuel hwf f1 f2 (fun _ => f3) hf
  have h2 := parseAbbreviatedPathData_commands U uninit cmds k fuel hwf g1 g2 g3 hf
  rw [List.append_nil] at h1
  exact ⟨_, h1, h2⟩

theorem stray_token_stops_witness :
    ((∀ x ∈ [(⟨CommandKind.move, false, [[Operand.point ⟨"0".toList, "0".toList, 0, 0⟩]]⟩ :
        PathCommand), ⟨CommandKind.close, false, []⟩], x.wellFormed) ∧
      Stray QCharTables.plain false " 5 L 1,1".toList ∧
      Stray QCharTables.plain true " , L 1,1".toList) ∧
    (∃ path,
      parseAbbreviatedPathData QCharTables.plain AbbPathToken.blank "M 0,0 Z".toList 3
        = some path ∧
      parseAbbreviatedPathData QCharTables.plain AbbPathToken.blank
        "M 0,0 Z 5 L 1,1".toList 3 = some path) ∧
    (∃ path,
      parseAbbreviatedPathData QCharTables.plain AbbPathToken.blank "M 0,0".toList 2
        = some path ∧
      parseAbbreviatedPathData QCharTables.plain AbbPathToken.blank
        "M 0,0 , L 1,1".toList 2 = some path) ∧
    parseAbbreviatedPathData QCharTables.plain AbbPathToken.blank "M 0,0 Z 5 L 1,1".toList 3 =
      some ⟨FillRule.oddEvenFill, [PathCall.moveTo ⟨0, 0⟩, PathCall.closeSubpath]⟩ ∧
    parseAbbreviatedPathData QCharTables.plain AbbPathToken.blank "M 0,0 , L 1,1".toList 2 =
      some ⟨FillRule.oddEvenFill, [PathCall.moveTo ⟨0, 0⟩]⟩ :=
  ⟨⟨by decide!,
      Or.inr ⟨rfl, ⟨"5".toList, 5⟩, " L 1,1".toList, by decide!, Or.inr ⟨' ', _, rfl, rfl⟩, rfl⟩,
      Or.inl ⟨" L 1,1".toList, rfl⟩⟩,
    stray_token_stops QCharTables.plain AbbPathToken.blank
      [⟨CommandKind.move, false, [[Operand.point ⟨"0".toList, "0".toList, 0, 0⟩]]⟩,
        ⟨CommandKind.close, false, []⟩]
      " 5 L 1,1".toList 3 (by decide!)
      (Or.inr ⟨rfl, ⟨"5".toList, 5⟩, " L 1,1".toList, by decide!, Or.inr ⟨' ', _, rfl, rfl⟩,
        rfl⟩)
      (by decide),
    stray_token_stops QCharTables.plain AbbPathToken.blank
      [⟨CommandKind.move, false, [[Operand.point ⟨"0".toList, "0".toList, 0, 0⟩]]⟩]
      " , L 1,1".toList 2 (by decide!) (Or.inl ⟨" L 1,1".toList, rfl⟩) (by decide),
    by decide!, by decide!⟩

/-! ## Well-nested events and their prefixes -/

theorem wellNested_append {xs ys : List XmlEvent} (hx : WellNested xs) (hy : WellNested ys) :
    WellNested (xs ++ ys) := by
  induction hx with
  | nil => exact hy
  | element name atts inner rest hi _ _ ihr =>
    have := WellNested.element name atts inner (rest ++ ys) hi ihr
    simpa using this

theorem prefix_append_cases {α : Type} (p xs ys : List α) (h : p <+: xs ++ ys) :
    p <+: xs ∨ ∃ t, p = xs ++ t ∧ t <+: ys := by
  induction xs generalizing p with
  | nil => exact Or.inr ⟨p, rfl, h⟩
  | cons x xs ih =>
    cases p with
    | nil => exact Or.inl (List.nil_prefix)
    | cons a p =>
      rw [List.cons_append, List.cons_prefix_cons] at h
      obtain ⟨rfl, h⟩ := h
      rcases ih p h with h1 | ⟨t, rfl, ht⟩
      · exact Or.inl (List.cons_prefix_cons.2 ⟨rfl, h1⟩)
      · exact Or.inr ⟨t, rfl, ht⟩

theorem eventsUpTo_after {xs : List XmlEvent} (hx : WellNested xs) (opens : List OpenElement)
    (last : List XmlEvent) (hopens : ∀ o ∈ opens, WellNested o.before)
    (hlast : WellNested last) :
    ∃ opens1 last1, xs ++ eventsUpTo opens last = eventsUpTo opens1 last1 ∧
      (∀ o ∈ opens1, WellNested o.before) ∧ WellNested last1 ∧
      opens1.map (fun o => (o.name, o.atts)) = opens.map (fun o => (o.name, o.atts)) := by
  cases opens with
  | nil => exact ⟨[], xs ++ last, rfl, by simp, wellNested_append hx hlast, rfl⟩
  | cons o os =>
    refine ⟨⟨xs ++ o.before, o.name, o.atts⟩ :: os, last, ?_, ?_, hlast, rfl⟩
    · simp [eventsUpTo]
    · intro x hx1
      rcases List.mem_cons.1 hx1 with rfl | hx1
      · exact wellNested_append hx (hopens o (by simp))
      · exact hopens x (by simp [hx1])

/-- Every prefix of a well-nested sequence of events is the events up to a point of a
document: closed elements and the start events of the elements still open. -/
theorem prefix_eventsUpTo {evs : List XmlEvent} (hw : WellNested evs) :
    ∀ pre, pre <+: evs → ∃ opens last, pre = eventsUpTo opens last ∧
      (∀ o ∈ opens, WellNested o.before) ∧ WellNested last := by
  induction hw with
  | nil =>
    intro pre hp
    have : pre = [] := List.prefix_nil.1 hp
    exact ⟨[], [], by rw [this]; rfl, by simp, WellNested.nil⟩
  | element name atts inner rest hi hr ihi ihr =>
    intro pre hp
    cases pre with
    | nil => exact ⟨[], [], rfl, by simp, WellNested.nil⟩
    | cons a p =>
      rw [List.cons_prefix_cons] at hp
      obtain ⟨rfl, hp⟩ := hp
      rcases prefix_append_cases p inner _ hp with h1 | ⟨t, rfl, ht⟩
      · obtain ⟨opens, last, rfl, ho, hl⟩ := ihi p h1
        refine ⟨⟨[], name, atts⟩ :: opens, last, rfl, ?_, hl⟩
        intro x hx
        rcases List.mem_cons.1 hx with rfl | hx
        · exact WellNested.nil
        · exact ho x hx
      · cases t with
        | nil =>
          obtain ⟨opens, last, hpre, ho, hl⟩ := ihi inner (List.prefix_refl _)
          refine ⟨⟨[], name, atts⟩ :: opens, last, ?_, ?_, hl⟩
          · rw [List.append_nil, hpre]
            rfl
          · intro x hx
            rcases List.mem_cons.1 hx with rfl | hx
            · exact WellNested.nil
            · exact ho x hx
        | cons b t =>
          rw [List.cons_prefix_cons] at ht
          obtain ⟨rfl, ht⟩ := ht
          obtain ⟨opens, last, rfl, ho, hl⟩ := ihr t ht
          obtain ⟨opens1, last1, e1, ho1, hl1, _⟩ := eventsUpTo_after
            (WellNested.element name atts inner [] hi WellNested.nil) opens last ho hl
          refine ⟨opens1, last1, ?_, ho1, hl1⟩
          rw [← e1]
          simp

/-! ## The text-extraction visitor on closed elements -/

theorem text_run_append {Db Font : Type} (env : TextServices Db Font) (xs ys : List XmlEvent)
    (h : XpsTextExtractionHandler Db) :
    XpsTextExtractionHandler.run env (xs ++ ys) h =
      (XpsTextExtractionHandler.run env xs h).bind (XpsTextExtractionHandler.run env ys) := by
  induction xs generalizing h with
  | nil => rfl
  | cons x xs ih =>
    show XpsTextExtractionHandler.run env (x :: (xs ++ ys)) h = _
    simp only [XpsTextExtractionHandler.run]
    cases h.handle env x with
    | none => rfl
    | some h1 => exact ih h1

theorem text_run_cons {Db Font : Type} (env : TextServices Db Font) (x : XmlEvent)
    (xs : List XmlEvent) (h : XpsTextExtractionHandler Db) :
    XpsTextExtractionHandler.run env (x :: xs) h =
      (h.handle env x).bind (XpsTextExtractionHandler.run env xs) := by
  simp only [XpsTextExtractionHandler.run]
  cases h.handle env x <;> rfl

theorem isScope_iff (name : QString) :
    isScope name = true ↔ name = "Canvas".toList ∨ name = "Glyphs".toList := by
  simp [isScope]

/-- A start event pushes the active matrix for Canvas and Glyphs and leaves the stack as it
is for every other element; it never touches the text page. -/
theorem text_start_facts {Db : Type} (U : QCharTables) (h : XpsTextExtractionHandler Db)
    (name : QString) (atts : QXmlAttributes) :
    (h.startElement U name atts).matrixes =
        (if isScope name = true then h.matrix :: h.matrixes else h.matrixes) ∧
      (h.startElement U name atts).textPage = h.textPage ∧
      (h.startElement U name atts).file = h.file ∧
      (name ≠ "Glyphs".toList → (h.startElement U name atts).glyphsAtts = h.glyphsAtts) ∧
      (name = "Glyphs".toList → (h.startElement U name atts).glyphsAtts = atts ∧
        (h.startElement U name atts).matrix = h.matrix) := by
  unfold XpsTextExtractionHandler.startElement
  by_cases h1 : name = "Canvas".toList
  · subst h1
    rw [if_pos rfl]
    refine ⟨rfl, rfl, rfl, fun _ => rfl, fun hc => absurd hc (by decide)⟩
  · rw [if_neg h1]
    by_cases h2 : name = "Canvas.RenderTransform".toList ∨
        name = "Glyphs.RenderTransform".toList
    · rw [if_pos h2]
      have hs : isScope name = false := by
        rcases h2 with rfl | rfl <;> rfl
      rw [hs]
      refine ⟨rfl, rfl, rfl, fun _ => rfl, fun hc => ?_⟩
      subst hc
      rcases h2 with h2 | h2 <;> exact absurd h2 (by decide)
    · rw [if_neg h2]
      by_cases h3 : h.useMatrix = true ∧ name = "MatrixTransform".toList
      · rw [if_pos h3]
        have hs : isScope name = false := by
          rw [h3.2]
          rfl
        rw [hs]
        refine ⟨rfl, rfl, rfl, fun _ => rfl, fun hc => ?_⟩
        rw [h3.2] at hc
        exact absurd hc (by decide)
      · rw [if_neg h3]
        by_cases h4 : name = "Glyphs".toList
        · subst h4
          rw [if_pos rfl]
          exact ⟨rfl, rfl, rfl, fun hc => absurd rfl hc, fun _ => ⟨rfl, rfl⟩⟩
        · rw [if_neg h4]
          have hs : isScope name = false := by
            unfold isScope
            rw [decide_eq_false h1, decide_eq_false h4]
            rfl
          rw [hs]
          exact ⟨rfl, rfl, rfl, fun _ => rfl, fun hc => absurd hc h4⟩

/-- An end event of Canvas on a stack that is not empty pops the stack into the active
matrix and changes nothing else. -/
theorem text_end_canvas {Db Font : Type} (env : TextServices Db Font)
    (h : XpsTextExtractionHandler Db) (m : QMatrix) (rest : List QMatrix)
    (hm : h.matrixes = m :: rest) :
    h.endElement env "Canvas".toList = some { h with matrix := m, matrixes := rest } := by
  unfold XpsTextExtractionHandler.endElement
  rw [if_pos rfl]
  simp only [hm]

/-- The end event of Glyphs on a stack that is not empty, when getFontByName returns: the
loop runs over the text of the attributes kept at the last start of a Glyphs element, and
the stack is popped into the active matrix. -/
theorem text_end_glyphs {Db Font : Type} (env : TextServices Db Font)
    (h : XpsTextExtractionHandler Db) (m : QMatrix) (rest : List QMatrix)
    (r : Font × XpsFile Db) (hm : h.matrixes = m :: rest)
    (hfont : getFontByName env.fonts h.file (h.glyphsAtts.value "FontUri".toList)
      (toDouble env.tables (h.glyphsAtts.value "FontRenderingEmSize".toList) * 72 / 96) =
        some r) :
    ∃ h1, h.endElement env "Glyphs".toList = some h1 ∧ h1.matrix = m ∧ h1.matrixes = rest ∧
      h1.glyphsAtts = h.glyphsAtts ∧ h1.file = r.2 ∧
      h1.textPage =
        glyphLoop env r.1
          ⟨toDouble env.tables (h.glyphsAtts.value "OriginX".toList),
            toDouble env.tables (h.glyphsAtts.value "OriginY".toList)⟩
          (h.glyphsAtts.value "UnicodeString".toList)
          (if h.glyphsAtts.value "RenderTransform".toList ≠ [] then
            parseRscRefMatrix env.tables (h.glyphsAtts.value "RenderTransform".toList) * h.matrix
          else h.matrix)
          (h.glyphsAtts.value "UnicodeString".toList).length 0 0 h.textPage := by
  unfold XpsTextExtractionHandler.endElement
  rw [if_neg (by decide), if_neg (by decide), if_pos rfl]
  simp only [hfont, hm]
  exact ⟨_, rfl, rfl, rfl, rfl, rfl, rfl⟩

/-- The end event of Glyphs has no result when getFontByName has none. -/
theorem text_end_glyphs_none {Db Font : Type} (env : TextServices Db Font)
    (h : XpsTextExtractionHandler Db)
    (hfont : getFontByName env.fonts h.file (h.glyphsAtts.value "FontUri".toList)
      (toDouble env.tables (h.glyphsAtts.value "FontRenderingEmSize".toList) * 72 / 96) =
        none) :
    h.endElement env "Glyphs".toList = none := by
  unfold XpsTextExtractionHandler.endElement
  rw [if_neg (by decide), if_neg (by decide), if_pos rfl]
  simp only [hfont]

/-- An end event of an element other than Canvas and Glyphs leaves the stack, the active
matrix, the text page and the file as they are. -/
theorem text_end_other {Db Font : Type} (env : TextServices Db Font)
    (h : XpsTextExtractionHandler Db) (name : QString) (hs : isScope name = false) :
    ∃ h1, h.endElement env name = some h1 ∧ h1.matrix = h.matrix ∧
      h1.matrixes = h.matrixes ∧ h1.glyphsAtts = h.glyphsAtts ∧ h1.textPage = h.textPage ∧
      h1.file = h.file := by
  have hn : name ≠ "Canvas".toList ∧ name ≠ "Glyphs".toList := by
    constructor <;> rintro rfl <;> exact absurd hs (by decide)
  unfold XpsTextExtractionHandler.endElement
  rw [if_neg hn.1]
  by_cases h2 : name = "Canvas.RenderTransform".toList ∨
      name = "Glyphs.RenderTransform".toList
  · rw [if_pos h2]
    exact ⟨_, rfl, rfl, rfl, rfl, rfl, rfl⟩
  · rw [if_neg h2, if_neg hn.2]
    exact ⟨_, rfl, rfl, rfl, rfl, rfl, rfl⟩

/-- An end event of an element other than Glyphs, on a stack that holds the matrix of its
start when the element is a Canvas: it returns, with the stack as it was before the start,
and the text page, the attributes kept for Glyphs and the file as they are. -/
theorem text_end_plain {Db Font : Type} (env : TextServices Db Font)
    (h : XpsTextExtractionHandler Db) (name : QString) (m : QMatrix) (rest : List QMatrix)
    (hname : name ≠ "Glyphs".toList)
    (hm : h.matrixes = if isScope name = true then m :: rest else rest) :
    ∃ h1, h.endElement env name = some h1 ∧ h1.matrixes = rest ∧
      (isScope name = true → h1.matrix = m) ∧
      h1.glyphsAtts = h.glyphsAtts ∧ h1.textPage = h.textPage ∧ h1.file = h.file := by
  by_cases hs : isScope name = true
  · rw [if_pos hs] at hm
    rcases (isScope_iff name).1 hs with rfl | rfl
    · exact ⟨_, text_end_canvas env h m rest hm, rfl, fun _ => rfl, rfl, rfl, rfl⟩
    · exact absurd rfl hname
  · rw [if_neg hs] at hm
    obtain ⟨h1, e1, _, m1, g1, t1, f1⟩ := text_end_other env h name (by simpa using hs)
    exact ⟨h1, e1, by rw [m1, hm], fun hc => absurd hc hs, g1, t1, f1⟩

/-- The text-extraction visitor on the events of closed elements with no Glyphs element
among them: it returns, with the transform stack, the text page, the attributes kept
for Glyphs and the file as they were. -/
theorem text_forest_plain {Db Font : Type} (env : TextServices Db Font) {evs : List XmlEvent}
    (hw : WellNested evs) :
    (∀ e ∈ evs, e.name ≠ "Glyphs".toList) →
    ∀ h : XpsTextExtractionHandler Db, ∃ h1,
      XpsTextExtractionHandler.run env evs h = some h1 ∧ h1.matrixes = h.matrixes ∧
        h1.textPage = h.textPage ∧ h1.glyphsAtts = h.glyphsAtts ∧ h1.file = h.file := by
  induction hw with
  | nil => exact fun _ h => ⟨h, rfl, rfl, rfl, rfl, rfl⟩
  | element name atts inner rest _ _ ihi ihr =>
    intro hno h
    have hname : name ≠ "Glyphs".toList := hno (XmlEvent.startElement name atts) (by simp)
    have hin : ∀ e ∈ inner, e.name ≠ "Glyphs".toList := fun e he => hno e (by simp [he])
    have hre : ∀ e ∈ rest, e.name ≠ "Glyphs".toList := fun e he => hno e (by simp [he])
    obtain ⟨s1, s2, s3, s4, _⟩ := text_start_facts env.tables h name atts
    obtain ⟨h2, r2, m2, t2, g2, f2⟩ := ihi hin (h.startElement env.tables name atts)
    obtain ⟨h3, e3, m3, _, g3, t3, f3⟩ := text_end_plain env h2 name h.matrix h.matrixes hname
      (by rw [m2, s1])
    obtain ⟨h4, r4, m4, t4, g4, f4⟩ := ihr hre h3
    refine ⟨h4, ?_, by rw [m4, m3], by rw [t4, t3, t2, s2], by rw [g4, g3, g2, s4 hname],
      by rw [f4, f3, f2, s3]⟩
    rw [text_run_cons]
    show (XpsTextExtractionHandler.run env (inner ++ XmlEvent.endElement name :: rest)
      (h.startElement env.tables name atts)) = some h4
    rw [text_run_append, r2]
    show XpsTextExtractionHandler.run env (XmlEvent.endElement name :: rest) h2 = some h4
    rw [text_run_cons]
    show (h2.endElement env name).bind _ = some h4
    rw [e3]
    exact r4

theorem fontsResolve_cons {Db Font : Type} (env : TextServices Db Font)
    (good : XpsFile Db → Prop) (e : XmlEvent) (es : List XmlEvent)
    (h : FontsResolve env good (e :: es)) : FontsResolve env good es :=
  fun atts ha => h atts (List.mem_cons_of_mem _ ha)

theorem fontsResolve_append {Db Font : Type} (env : TextServices Db Font)
    (good : XpsFile Db → Prop) (xs ys : List XmlEvent)
    (h : FontsResolve env good (xs ++ ys)) :
    FontsResolve env good xs ∧ FontsResolve env good ys :=
  ⟨fun atts ha => h atts (List.mem_append_left _ ha),
    fun atts ha => h atts (List.mem_append_right _ ha)⟩

/-- The text-extraction visitor on the events of closed elements in which the font of
every Glyphs element resolves, from a good file: it returns, with the transform stack as
it was and a good file, and the attributes kept for Glyphs are as they were or those of a
Glyphs element of the events. -/
theorem text_forest {Db Font : Type} (env : TextServices Db Font) (good : XpsFile Db → Prop)
    {evs : List XmlEvent} (hw : WellNested evs) :
    FontsResolve env good evs →
    ∀ h : XpsTextExtractionHandler Db, good h.file → ∃ h1,
      XpsTextExtractionHandler.run env evs h = some h1 ∧ h1.matrixes = h.matrixes ∧
        good h1.file ∧
        (h1.glyphsAtts = h.glyphsAtts ∨ GlyphsFontResolves env good h1.glyphsAtts) := by
  induction hw with
  | nil => exact fun _ h hg => ⟨h, rfl, rfl, hg, Or.inl rfl⟩
  | element name atts inner rest _ _ ihi ihr =>
    intro hfonts h hg
    have hf1 := fontsResolve_cons env good _ _ hfonts
    obtain ⟨hfi, hf2⟩ := fontsResolve_append env good _ _ hf1
    have hfr := fontsResolve_cons env good _ _ hf2
    obtain ⟨s1, _, s3, s4, s5⟩ := text_start_facts env.tables h name atts
    obtain ⟨h2, r2, m2, g2, a2⟩ := ihi hfi (h.startElement env.tables name atts)
      (by rw [s3]; exact hg)
    have hend : ∃ h3, h2.endElement env name = some h3 ∧ h3.matrixes = h.matrixes ∧
        good h3.file ∧
        (h3.glyphsAtts = h.glyphsAtts ∨ GlyphsFontResolves env good h3.glyphsAtts) := by
      by_cases hname : name = "Glyphs".toList
      · subst hname
        rw [if_pos (show isScope "Glyphs".toList = true from rfl)] at s1
        have hres : GlyphsFontResolves env good h2.glyphsAtts := by
          rcases a2 with a2 | a2
          · rw [a2, (s5 rfl).1]
            exact hfonts atts (by simp)
          · exact a2
        obtain ⟨r, hr, hgr⟩ := hres h2.file g2
        obtain ⟨h3, e3, _, m3, g3, f3, _⟩ := text_end_glyphs env h2 h.matrix h.matrixes r
          (by rw [m2, s1]) hr
        exact ⟨h3, e3, m3, by rw [f3]; exact hgr, Or.inr (by rw [g3]; exact hres)⟩
      · obtain ⟨h3, e3, m3, _, g3, _, f3⟩ := text_end_plain env h2 name h.matrix h.matrixes
          hname (by rw [m2, s1])
        refine ⟨h3, e3, m3, by rw [f3]; exact g2, ?_⟩
        rcases a2 with a2 | a2
        · exact Or.inl (by rw [g3, a2, s4 hname])
        · exact Or.inr (by rw [g3]; exact a2)
    obtain ⟨h3, e3, m3, g3, a3⟩ := hend
    obtain ⟨h4, r4, m4, g4, a4⟩ := ihr hfr h3 g3
    refine ⟨h4, ?_, by rw [m4, m3], g4, ?_⟩
    · rw [text_run_cons]
      show (XpsTextExtractionHandler.run env (inner ++ XmlEvent.endElement name :: rest)
        (h.startElement env.tables name atts)) = some h4
      rw [text_run_append, r2]
      show XpsTextExtractionHandler.run env (XmlEvent.endElement name :: rest) h2 = some h4
      rw [text_run_cons]
      show (h2.endElement env name).bind _ = some h4
      rw [e3]
      exact r4
    · rcases a4 with a4 | a4
      · rcases a3 with a3 | a3
        · exact Or.inl (by rw [a4, a3])
        · exact Or.inr (by rw [a4]; exact a3)
      · exact Or.inr a4

/-- The sample font services resolve the font a.ttf in every state of the file and at
every size. -/
theorem sample_font_resolves (file : XpsFile (List (List Nat))) (size : ℚ) :
    ∃ r, getFontByName sampleServices file "a.ttf".toList size = some r := by
  unfold getFontByName
  by_cases hc : cacheValue file.fontCache "a.ttf".toList (-1) = -1
  · simp only [hc, if_true]
    have hl : (loadFontByName sampleServices file.fontDatabase "a.ttf".toList).1 =
        (file.fontDatabase.length : Int) := by
      unfold loadFontByName
      have hd : sampleServices.entryData "a.ttf".toList = List.replicate 32 0 := rfl
      have ha : ∀ db : List (List Nat),
          sampleServices.addApplicationFontFromData db (List.replicate 32 0) =
            ((db.length : Int), db ++ [List.replicate 32 0]) := fun _ => rfl
      simp only [hd, ha]
      rw [if_neg (by omega)]
    have hf : ∀ db, fontOfIndex sampleServices db (file.fontDatabase.length : Int) size =
        some ("Sample".toList, "Regular".toList, qRound size) := by
      intro db
      unfold fontOfIndex
      have hfam : sampleServices.applicationFontFamilies db (file.fontDatabase.length : Int) =
          ["Sample".toList] := by
        show (if (file.fontDatabase.length : Int) = -1 then [] else ["Sample".toList]) = _
        rw [if_neg (by omega)]
      rw [hfam]
      rfl
    rw [hl, hf]
    exact ⟨_, rfl⟩
  · simp only [hc, if_false]
    have hf : fontOfIndex sampleServices file.fontDatabase
        (cacheValue file.fontCache "a.ttf".toList (-1)) size =
          some ("Sample".toList, "Regular".toList, qRound size) := by
      unfold fontOfIndex
      have hfam : sampleServices.applicationFontFamilies file.fontDatabase
          (cacheValue file.fontCache "a.ttf".toList (-1)) = ["Sample".toList] := by
        show (if cacheValue file.fontCache "a.ttf".toList (-1) = -1 then []
          else ["Sample".toList]) = _
        rw [if_neg hc]
      rw [hfam]
      rfl
    rw [hf]
    exact ⟨_, rfl⟩

/-! ## The text-extraction visitor: the entries of a Glyphs element -/

/-- The entry that the loop appends for the character at index j. -/
theorem glyphLoop_eq {Db Font : Type} (env : TextServices Db Font) (font : Font)
    (origin : QPointF) (text : QString) (matrix : QMatrix) (n : Nat) :
    ∀ (i : Nat) (page : List (QString × NormalizedRect)),
      glyphLoop env font origin text matrix n i (widthUpTo env font text i) page =
        page ++ (List.range' i n).map (fun j =>
          (mid text j 1, env.transform (glyphRect origin (env.height font) env.pageWidth
            env.pageHeight (widthUpTo env font text j) (widthUpTo env font text (j + 1)))
            matrix)) := by
  induction n with
  | zero =>
    intro i page
    simp [glyphLoop]
  | succ n ih =>
    intro i page
    have hw : env.width font text (i + 1) = widthUpTo env font text (i + 1) := by
      simp [widthUpTo]
    simp only [glyphLoop]
    rw [hw, ih (i + 1)]
    simp [List.range'_succ]

theorem mid_one (text : QString) (j : Nat) (hj : j < text.length) :
    mid text j 1 = [text[j]] := by
  unfold mid
  rw [List.drop_eq_getElem_cons hj]
  rfl

theorem mids_eq_chars (text : QString) :
    (List.range' 0 text.length).map (fun j => mid text j 1) = text.map (fun c => [c]) := by
  apply List.ext_getElem
  · simp
  · intro j h1 h2
    simp only [List.getElem_map, List.getElem_range']
    have hj : j < text.length := by simpa using h1
    rw [mid_one text (0 + 1 * j) (by omega)]
    simp

/-- C21, amended. For every Glyphs element that has no Glyphs element inside it, from
any state: when getFontByName returns the font of the element, the visitor returns from
the events of the element with the text page it had followed by exactly one entry for each
character of the UnicodeString of the element, the entries carrying the characters in the
order of the string; when getFontByName has no result, the visitor has none either. -/
theorem glyphs_entries_in_order {Db Font : Type} (env : TextServices Db Font)
    (h : XpsTextExtractionHandler Db) (atts : QXmlAttributes) (inner : List XmlEvent)
    (hw : WellNested inner) (hno : ∀ e ∈ inner, e.name ≠ "Glyphs".toList) :
    (∀ r, getFontByName env.fonts h.file (atts.value "FontUri".toList)
        (toDouble env.tables (atts.value "FontRenderingEmSize".toList) * 72 / 96) = some r →
      ∃ h1 new, XpsTextExtractionHandler.run env
          (XmlEvent.startElement "Glyphs".toList atts ::
            (inner ++ [XmlEvent.endElement "Glyphs".toList])) h = some h1 ∧
        h1.textPage = h.textPage ++ new ∧
        new.map Prod.fst = (atts.value "UnicodeString".toList).map (fun c => [c]) ∧
        new.length = (atts.value "UnicodeString".toList).length) ∧
    (getFontByName env.fonts h.file (atts.value "FontUri".toList)
        (toDouble env.tables (atts.value "FontRenderingEmSize".toList) * 72 / 96) = none →
      XpsTextExtractionHandler.run env
          (XmlEvent.startElement "Glyphs".toList atts ::
            (inner ++ [XmlEvent.endElement "Glyphs".toList])) h = none) := by
  obtain ⟨s1, s2, s3, _, s5⟩ := text_start_facts env.tables h "Glyphs".toList atts
  rw [if_pos (show isScope "Glyphs".toList = true from rfl)] at s1
  obtain ⟨h2, r2, m2, t2, g2, f2⟩ := text_forest_plain env hw hno
    (h.startElement env.tables "Glyphs".toList atts)
  have hrun : XpsTextExtractionHandler.run env
      (XmlEvent.startElement "Glyphs".toList atts ::
        (inner ++ [XmlEvent.endElement "Glyphs".toList])) h =
      (h2.endElement env "Glyphs".toList) := by
    rw [text_run_cons]
    show (XpsTextExtractionHandler.run env (inner ++ [XmlEvent.endElement "Glyphs".toList])
      (h.startElement env.tables "Glyphs".toList atts)) = _
    rw [text_run_append, r2]
    show XpsTextExtractionHandler.run env [XmlEvent.endElement "Glyphs".toList] h2 = _
    rw [text_run_cons]
    show (h2.endElement env "Glyphs".toList).bind _ = _
    cases h2.endElement env "Glyphs".toList <;> rfl
  have hatts : h2.glyphsAtts = atts := by rw [g2, (s5 rfl).1]
  have hfile : h2.file = h.file := by rw [f2, s3]
  constructor
  · intro r hfont
    obtain ⟨h3, e3, _, _, _, _, p3⟩ := text_end_glyphs env h2 h.matrix h.matrixes r
      (by rw [m2, s1]) (by rw [hatts, hfile]; exact hfont)
    have h0 : ∀ (font : Font) (text : QString), (0 : Int) = widthUpTo env font text 0 :=
      fun _ _ => rfl
    rw [hatts, t2, s2, h0 r.1 (atts.value "UnicodeString".toList), glyphLoop_eq] at p3
    refine ⟨h3, _, by rw [hrun, e3], p3, ?_, by simp⟩
    rw [List.map_map]
    exact mids_eq_chars _
  · intro hfont
    rw [hrun]
    exact text_end_glyphs_none env h2 (by rw [hatts, hfile]; exact hfont)

theorem glyphs_entries_in_order_witness :
    (WellNested [XmlEvent.startElement "Glyphs.RenderTransform".toList [],
        XmlEvent.endElement "Glyphs.RenderTransform".toList] ∧
      (∀ e ∈ [XmlEvent.startElement "Glyphs.RenderTransform".toList [],
        XmlEvent.endElement "Glyphs.RenderTransform".toList], e.name ≠ "Glyphs".toList) ∧
      (getFontByName sampleText.fonts sampleTextHandler.startDocument.file "a.ttf".toList
        (toDouble sampleText.tables "12".toList * 72 / 96)).map Prod.fst =
          some ("Sample".toList, "Regular".toList, 9)) ∧
    ∃ h1 new, XpsTextExtractionHandler.run sampleText
        [XmlEvent.startElement "Glyphs".toList
            [("UnicodeString".toList, "ab".toList), ("FontUri".toList, "a.ttf".toList),
              ("FontRenderingEmSize".toList, "12".toList)],
          XmlEvent.startElement "Glyphs.RenderTransform".toList [],
          XmlEvent.endElement "Glyphs.RenderTransform".toList,
          XmlEvent.endElement "Glyphs".toList]
        sampleTextHandler.startDocument = some h1 ∧
      h1.textPage = sampleTextHandler.startDocument.textPage ++ new ∧
      new.map Prod.fst = ["a".toList, "b".toList] ∧ new.length = 2 := by
  refine ⟨⟨WellNested.element _ _ [] [] WellNested.nil WellNested.nil, by decide,
    by decide!⟩, ?_⟩
  cases hf : getFontByName sampleText.fonts sampleTextHandler.startDocument.file "a.ttf".toList
      (toDouble sampleText.tables "12".toList * 72 / 96) with
  | none =>
    have : (getFontByName sampleText.fonts sampleTextHandler.startDocument.file "a.ttf".toList
      (toDouble sampleText.tables "12".toList * 72 / 96)).isSome = true := by decide!
    rw [hf] at this
    exact absurd this (by simp)
  | some r =>
    exact (glyphs_entries_in_order sampleText sampleTextHandler.startDocument
      [("UnicodeString".toList, "ab".toList), ("FontUri".toList, "a.ttf".toList),
        ("FontRenderingEmSize".toList, "12".toList)]
      [XmlEvent.startElement "Glyphs.RenderTransform".toList [],
        XmlEvent.endElement "Glyphs.RenderTransform".toList]
      (WellNested.element _ _ [] [] WellNested.nil WellNested.nil) (by decide)).1 r hf

/-- C21, as stated, fails. On a Glyphs element with the string ab that has a Glyphs
element with the string c inside it, both with a font that loads, the end of the outer
element appends one entry with the character c, not the two entries a and b. And on a
Glyphs element with the string ab and a font that does not load, the visitor has no
result at the end of the element and appends no entry. -/
theorem nested_glyphs_repeat_inner_text :
    (XpsTextExtractionHandler.run sampleText
        [XmlEvent.startElement "Glyphs".toList
            [("UnicodeString".toList, "ab".toList), ("FontUri".toList, "a.ttf".toList)],
          XmlEvent.startElement "Glyphs".toList
            [("UnicodeString".toList, "c".toList), ("FontUri".toList, "a.ttf".toList)],
          XmlEvent.endElement "Glyphs".toList]
        sampleTextHandler.startDocument).map (fun h => h.textPage.map Prod.fst) =
      some ["c".toList] ∧
    (XpsTextExtractionHandler.run sampleText
        [XmlEvent.startElement "Glyphs".toList
            [("UnicodeString".toList, "ab".toList), ("FontUri".toList, "a.ttf".toList)],
          XmlEvent.startElement "Glyphs".toList
            [("UnicodeString".toList, "c".toList), ("FontUri".toList, "a.ttf".toList)],
          XmlEvent.endElement "Glyphs".toList,
          XmlEvent.endElement "Glyphs".toList]
        sampleTextHandler.startDocument).map (fun h => h.textPage.map Prod.fst) =
      some ["c".toList, "c".toList] ∧
    (XpsTextExtractionHandler.run sampleText
        [XmlEvent.startElement "Glyphs".toList
            [("UnicodeString".toList, "ab".toList), ("FontUri".toList, "b.odttf".toList)],
          XmlEvent.endElement "Glyphs".toList]
        sampleTextHandler.startDocument).map (fun h => h.textPage.map Prod.fst) = none := by
  decide!

/-! ## The text-extraction visitor: the rectangles of a Glyphs run -/

theorem widthUpTo_mono {Db Font : Type} (env : TextServices Db Font) (font : Font)
    (text : QString) (n : Nat)
    (hinc : ∀ i, i < n → widthUpTo env font text i < widthUpTo env font text (i + 1)) :
    ∀ j, j ≤ n → ∀ i, i ≤ j → widthUpTo env font text i ≤ widthUpTo env font text j := by
  intro j
  induction j with
  | zero =>
    intro _ i hi
    have : i = 0 := by omega
    rw [this]
  | succ j ih =>
    intro hj i hi
    rcases Nat.lt_or_ge i (j + 1) with h1 | h1
    · have := ih (by omega) i (by omega)
      have := hinc j (by omega)
      omega
    · have : i = j + 1 := by omega
      rw [this]

theorem getElem?_range'_map {α : Type} (f : Nat → α) (n i : Nat) (a : α)
    (h : ((List.range' 0 n).map f)[i]? = some a) : i < n ∧ a = f i := by
  rw [List.getElem?_map] at h
  have h1 : i < n := by
    by_contra hc
    rw [List.getElem?_eq_none (by simp; omega)] at h
    simp at h
  rw [List.getElem?_range' _ _ (by simpa using h1)] at h
  simp at h
  exact ⟨h1, h.symm⟩

/-- C22, amended. With no transform in effect (the identity as active matrix, no
RenderTransform attribute, and a rectangle left as it is by the identity), from any state
in which getFontByName returns the font of the element, the visitor returns from the
events of a Glyphs element with one rectangle for each character after those of the text
page it had; on a page of positive width and height each rectangle ends exactly where the
next one begins; when the widths of the text up to each character strictly increase from
0, each rectangle has its left edge before its right edge; and when moreover the origin
has 0 ≤ x, x + width of the text ≤ page width and 0 ≤ font height ≤ y ≤ page height,
every rectangle lies within [0,1]x[0,1]. -/
theorem glyph_rectangles {Db Font : Type} (env : TextServices Db Font)
    (h : XpsTextExtractionHandler Db) (atts : QXmlAttributes) (r : Font × XpsFile Db)
    (hm : h.matrix = QMatrix.identity) (hatt : atts.value "RenderTransform".toList = [])
    (htr : ∀ x, env.transform x QMatrix.identity = x)
    (hfont : getFontByName env.fonts h.file (atts.value "FontUri".toList)
      (toDouble env.tables (atts.value "FontRenderingEmSize".toList) * 72 / 96) = some r) :
    ∃ h1 rects, XpsTextExtractionHandler.run env
        [XmlEvent.startElement "Glyphs".toList atts, XmlEvent.endElement "Glyphs".toList] h =
          some h1 ∧
      h1.textPage.map Prod.snd = h.textPage.map Prod.snd ++ rects ∧
      rects.length = (atts.value "UnicodeString".toList).length ∧
      (0 < env.pageWidth → 0 < env.pageHeight →
        (∀ i x x1, rects[i]? = some x → rects[i + 1]? = some x1 → x.right = x1.left) ∧
        ((∀ i, i < (atts.value "UnicodeString".toList).length →
          widthUpTo env r.1 (atts.value "UnicodeString".toList) i <
            widthUpTo env r.1 (atts.value "UnicodeString".toList) (i + 1)) →
        (∀ x ∈ rects, x.left < x.right) ∧
        (0 ≤ toDouble env.tables (atts.value "OriginX".toList) →
          toDouble env.tables (atts.value "OriginX".toList) +
              widthUpTo env r.1 (atts.value "UnicodeString".toList)
                (atts.value "UnicodeString".toList).length ≤ env.pageWidth →
          0 ≤ env.height r.1 →
          (env.height r.1 : ℚ) ≤ toDouble env.tables (atts.value "OriginY".toList) →
          toDouble env.tables (atts.value "OriginY".toList) ≤ env.pageHeight →
          ∀ x ∈ rects, 0 ≤ x.left ∧ x.left ≤ x.right ∧ x.right ≤ 1 ∧
            0 ≤ x.top ∧ x.top ≤ x.bottom ∧ x.bottom ≤ 1))) := by
  obtain ⟨s1, s2, s3, _, s5⟩ := text_start_facts env.tables h "Glyphs".toList atts
  rw [if_pos (show isScope "Glyphs".toList = true from rfl)] at s1
  obtain ⟨h3, e3, _, _, _, _, p3⟩ := text_end_glyphs env
    (h.startElement env.tables "Glyphs".toList atts) h.matrix h.matrixes r s1
    (by rw [(s5 rfl).1, s3]; exact hfont)
  have hrun : XpsTextExtractionHandler.run env
      [XmlEvent.startElement "Glyphs".toList atts, XmlEvent.endElement "Glyphs".toList] h =
        some h3 := by
    rw [text_run_cons]
    show XpsTextExtractionHandler.run env [XmlEvent.endElement "Glyphs".toList]
      (h.startElement env.tables "Glyphs".toList atts) = some h3
    rw [text_run_cons]
    show ((h.startElement env.tables "Glyphs".toList atts).endElement env
      "Glyphs".toList).bind _ = some h3
    rw [e3]
    rfl
  have h0 : ∀ (font : Font) (text : QString), (0 : Int) = widthUpTo env font text 0 :=
    fun _ _ => rfl
  rw [(s5 rfl).1, (s5 rfl).2, s2, hatt, if_neg (by simp), hm,
    h0 r.1 (atts.value "UnicodeString".toList), glyphLoop_eq] at p3
  generalize r.1 = font at p3 ⊢
  generalize atts.value "UnicodeString".toList = text at p3 ⊢
  generalize toDouble env.tables (atts.value "OriginX".toList) = ox at p3 ⊢
  generalize toDouble env.tables (atts.value "OriginY".toList) = oy at p3 ⊢
  refine ⟨h3, (List.range' 0 text.length).map (fun j =>
    glyphRect ⟨ox, oy⟩ (env.height font) env.pageWidth env.pageHeight
      (widthUpTo env font text j) (widthUpTo env font text (j + 1))), hrun, ?_, by simp, ?_⟩
  · rw [p3]
    simp [htr]
  · intro hpw hph
    refine ⟨?_, ?_⟩
    · intro i x x1 hr hr1
      obtain ⟨_, rfl⟩ := getElem?_range'_map _ _ _ _ hr
      obtain ⟨_, rfl⟩ := getElem?_range'_map _ _ _ _ hr1
      rfl
    intro hinc
    have hpwq : (0 : ℚ) < env.pageWidth := by exact_mod_cast hpw
    have hphq : (0 : ℚ) < env.pageHeight := by exact_mod_cast hph
    constructor
    · intro x hr
      obtain ⟨j, hj, rfl⟩ := List.mem_map.1 hr
      have hjn : j < text.length := by
        have := List.mem_range'.1 hj
        omega
      have hlt : (widthUpTo env font text j : ℚ) < widthUpTo env font text (j + 1) := by
        exact_mod_cast hinc j hjn
      show (ox + (widthUpTo env font text j : ℚ)) / env.pageWidth <
        (ox + (widthUpTo env font text (j + 1) : ℚ)) / env.pageWidth
      exact div_lt_div_of_pos_right (by linarith) hpwq
    · intro hox hfit hh hhy hyp x hr
      obtain ⟨j, hj, rfl⟩ := List.mem_map.1 hr
      have hjn : j < text.length := by
        have := List.mem_range'.1 hj
        omega
      have hmono := widthUpTo_mono env font text text.length hinc
      have h1 : (0 : ℚ) ≤ widthUpTo env font text j := by
        have := hmono j (by omega) 0 (by omega)
        have h00 : widthUpTo env font text 0 = 0 := rfl
        rw [h00] at this
        exact_mod_cast this
      have h2 : (widthUpTo env font text j : ℚ) ≤ widthUpTo env font text (j + 1) := by
        exact_mod_cast hmono (j + 1) (by omega) j (by omega)
      have h3 : (widthUpTo env font text (j + 1) : ℚ) ≤
          widthUpTo env font text text.length := by
        exact_mod_cast hmono text.length (le_refl _) (j + 1) (by omega)
      have hhq : (0 : ℚ) ≤ env.height font := by exact_mod_cast hh
      show 0 ≤ (ox + (widthUpTo env font text j : ℚ)) / env.pageWidth ∧
        (ox + (widthUpTo env font text j : ℚ)) / env.pageWidth ≤
          (ox + (widthUpTo env font text (j + 1) : ℚ)) / env.pageWidth ∧
        (ox + (widthUpTo env font text (j + 1) : ℚ)) / env.pageWidth ≤ 1 ∧
        0 ≤ (oy - (env.height font : ℚ)) / env.pageHeight ∧
        (oy - (env.height font : ℚ)) / env.pageHeight ≤ oy / env.pageHeight ∧
        oy / env.pageHeight ≤ 1
      refine ⟨div_nonneg (by linarith) hpwq.le,
        div_le_div_of_nonneg_right (by linarith) hpwq.le,
        (div_le_one hpwq).2 (by linarith), div_nonneg (by linarith) hphq.le,
        div_le_div_of_nonneg_right (by linarith) hphq.le, (div_le_one hphq).2 hyp⟩

theorem glyph_rectangles_witness :
    (sampleTextHandler.startDocument.matrix = QMatrix.identity ∧
      QXmlAttributes.value [("UnicodeString".toList, "ab".toList), ("OriginX".toList, "10".toList),
        ("OriginY".toList, "20".toList), ("FontUri".toList, "a.ttf".toList)]
        "RenderTransform".toList = [] ∧
      (∀ x, sampleText.transform x QMatrix.identity = x) ∧
      (getFontByName sampleText.fonts sampleTextHandler.startDocument.file "a.ttf".toList
        (toDouble sampleText.tables [] * 72 / 96)).map Prod.fst =
          some ("Sample".toList, "Regular".toList, 0)) ∧
    ∃ h1 rects, XpsTextExtractionHandler.run sampleText
        [XmlEvent.startElement "Glyphs".toList
            [("UnicodeString".toList, "ab".toList), ("OriginX".toList, "10".toList),
              ("OriginY".toList, "20".toList), ("FontUri".toList, "a.ttf".toList)],
          XmlEvent.endElement "Glyphs".toList] sampleTextHandler.startDocument = some h1 ∧
      h1.textPage.map Prod.snd = rects ∧ rects.length = 2 ∧
      (∀ x ∈ rects, x.left < x.right) ∧
      (∀ x ∈ rects, 0 ≤ x.left ∧ x.left ≤ x.right ∧ x.right ≤ 1 ∧
        0 ≤ x.top ∧ x.top ≤ x.bottom ∧ x.bottom ≤ 1) := by
  refine ⟨⟨rfl, rfl, fun x => by cases x; simp [sampleText, QMatrix.identity], by decide!⟩, ?_⟩
  cases hf : getFontByName sampleText.fonts sampleTextHandler.startDocument.file "a.ttf".toList
      (toDouble sampleText.tables [] * 72 / 96) with
  | none =>
    have : (getFontByName sampleText.fonts sampleTextHandler.startDocument.file "a.ttf".toList
      (toDouble sampleText.tables [] * 72 / 96)).isSome = true := by decide!
    rw [hf] at this
    exact absurd this (by simp)
  | some r =>
    have hfst : (getFontByName sampleText.fonts sampleTextHandler.startDocument.file
        "a.ttf".toList (toDouble sampleText.tables [] * 72 / 96)).map Prod.fst =
          some ("Sample".toList, "Regular".toList, 0) := by decide!
    rw [hf] at hfst
    obtain ⟨font, file⟩ := r
    obtain rfl : font = ("Sample".toList, "Regular".toList, 0) := Option.some.inj hfst
    obtain ⟨h1, rects, hr, hp, hl, hb⟩ := glyph_rectangles sampleText
      sampleTextHandler.startDocument
      [("UnicodeString".toList, "ab".toList), ("OriginX".toList, "10".toList),
        ("OriginY".toList, "20".toList), ("FontUri".toList, "a.ttf".toList)]
      (("Sample".toList, "Regular".toList, 0), file) rfl rfl
      (fun x => by cases x; simp [sampleText, QMatrix.identity]) hf
    dsimp only at hb
    obtain ⟨b1, b2⟩ := (hb (by decide) (by decide)).2 (by decide)
    exact ⟨h1, rects, hr, by simpa using hp, hl, b1,
      b2 (by decide!) (by decide!) (by decide) (by decide!) (by decide!)⟩

/-- C22, as stated, fails: with no transform and a font that loads, on a page of 100 by
200 with a font height of 12, the Glyphs run of an e and a combining accent of width 0 at
the origin (95,5) gives the rectangles (19/20, -7/200, 21/20, 1/40) and
(21/20, -7/200, 21/20, 1/40): the first ends right of the page and both start above it,
and the second has its left edge on its right edge. And with a font that does not load,
the run has no result at the end of the element and gives no rectangle. -/
theorem glyph_rectangles_leave_unit_square :
    (XpsTextExtractionHandler.run sampleText
        [XmlEvent.startElement "Glyphs".toList
            [("UnicodeString".toList, ['e', Char.ofNat 769]), ("OriginX".toList, "95".toList),
              ("OriginY".toList, "5".toList), ("FontUri".toList, "a.ttf".toList)],
          XmlEvent.endElement "Glyphs".toList] sampleTextHandler.startDocument).map
        (fun h => h.textPage.map Prod.snd) =
      some [⟨19 / 20, -7 / 200, 21 / 20, 1 / 40⟩, ⟨21 / 20, -7 / 200, 21 / 20, 1 / 40⟩] ∧
    ¬ ((21 / 20 : ℚ) ≤ 1) ∧ ¬ ((0 : ℚ) ≤ -7 / 200) ∧ ¬ ((21 / 20 : ℚ) < 21 / 20) ∧
    (XpsTextExtractionHandler.run sampleText
        [XmlEvent.startElement "Glyphs".toList
            [("UnicodeString".toList, "ab".toList), ("OriginX".toList, "10".toList),
              ("OriginY".toList, "20".toList), ("FontUri".toList, "b.odttf".toList)],
          XmlEvent.endElement "Glyphs".toList] sampleTextHandler.startDocument).map
        (fun h => h.textPage.map Prod.snd) = none := by
  decide!

/-! ## The render visitor: the scope stack -/

theorem render_run_cons {Db Font : Type} (env : RenderServices Db Font) (x : XmlEvent)
    (xs : List XmlEvent) (h : XpsHandler Db Font) :
    XpsHandler.run env (x :: xs) h = (h.handle env x).bind (XpsHandler.run env xs) := by
  simp only [XpsHandler.run]
  cases h.handle env x <;> rfl

theorem processFill_keeps (node : XpsRenderNode) :
    (processFill node).name = node.name ∧ (processFill node).attributes = node.attributes := by
  unfold processFill
  split <;> exact ⟨rfl, rfl⟩

theorem processImageBrush_keeps {Db Font : Type} (env : RenderServices Db Font)
    (node n : XpsRenderNode) (h : processImageBrush env node = some n) :
    n.name = node.name ∧ n.attributes = node.attributes := by
  unfold processImageBrush at h
  split at h
  · exact absurd h (by simp)
  · simp only [Option.some.injEq] at h
    rw [← h]
    exact ⟨rfl, rfl⟩

/-- The end processing of a node changes neither its name nor its attributes. -/
theorem processEndElement_keeps {Db Font : Type} (env : RenderServices Db Font)
    (node : XpsRenderNode) (painter : QPainter Font) (file : XpsFile Db)
    (r : XpsRenderNode × QPainter Font × XpsFile Db)
    (h : processEndElement env node painter file = some r) :
    r.1.name = node.name ∧ r.1.attributes = node.attributes := by
  unfold processEndElement at h
  split_ifs at h
  · split at h
    · exact absurd h (by simp)
    · simp only [Option.some.injEq] at h
      rw [← h]
      exact ⟨rfl, rfl⟩
  · split at h
    · exact absurd h (by simp)
    · simp only [Option.some.injEq] at h
      rw [← h]
      exact ⟨rfl, rfl⟩
  · simp only [Option.some.injEq] at h
    rw [← h]
    exact ⟨rfl, rfl⟩
  · split at h
    · simp only [Option.some.injEq] at h
      rw [← h]
      exact ⟨rfl, rfl⟩
    · split at h
      · exact absurd h (by simp)
      · simp only [Option.some.injEq] at h
        rw [← h]
        exact ⟨rfl, rfl⟩
  · simp only [Option.some.injEq] at h
    rw [← h]
    exact ⟨rfl, rfl⟩
  · simp only [Option.some.injEq] at h
    rw [← h]
    exact processFill_keeps node
  · simp only [Option.some.injEq] at h
    rw [← h]
    exact ⟨rfl, rfl⟩
  · split at h
    · exact absurd h (by simp)
    · rename_i n hn
      simp only [Option.some.injEq] at h
      rw [← h]
      exact processImageBrush_keeps env node n hn
  · simp only [Option.some.injEq] at h
    rw [← h]
    exact ⟨rfl, rfl⟩
  · simp only [Option.some.injEq] at h
    rw [← h]
    exact ⟨rfl, rfl⟩

/-- The end event on a stack of two nodes or more: the node on top leaves the stack and
becomes, with its name and attributes and with no children, the last child of the node
under it. -/
theorem render_end_facts {Db Font : Type} (env : RenderServices Db Font)
    (h h1 : XpsHandler Db Font) (name : QString) (hend : h.endElement env name = some h1) :
    ∃ node top rest child, h.nodes = node :: top :: rest ∧
      h1.nodes = { top with children := top.children ++ [child] } :: rest ∧
      child.name = node.name ∧ child.attributes = node.attributes ∧ child.children = [] ∧
      (∃ r, processEndElement env node h.painter h.file = some r ∧ child.data = r.1.data ∧
        h1.painter = r.2.1 ∧ h1.file = r.2.2) := by
  unfold XpsHandler.endElement at hend
  split at hend
  · rename_i node top rest hn
    split at hend
    · exact absurd hend (by simp)
    · rename_i r hr
      simp only [Option.some.injEq] at hend
      obtain ⟨k1, k2⟩ := processEndElement_keeps env node h.painter h.file r hr
      refine ⟨node, top, rest, { r.1 with children := [] }, hn, ?_, k1, k2, rfl,
        r, hr, rfl, ?_, ?_⟩
      · rw [← hend]
      · rw [← hend]
      · rw [← hend]
  · exact absurd hend (by simp)

theorem restore_drawn {Font : Type} (p : QPainter Font) : p.restore.drawn = p.drawn := by
  unfold QPainter.restore
  split <;> rfl

theorem processEndElement_matrix {Db Font : Type} (env : RenderServices Db Font)
    (node : XpsRenderNode) (painter : QPainter Font) (file : XpsFile Db)
    (r : XpsRenderNode × QPainter Font × XpsFile Db)
    (h : processEndElement env node painter file = some r)
    (hname : node.name = "MatrixTransform".toList) :
    r.1.data = some (NodeData.matrix
      (attsToMatrix env.tables (node.attributes.value "Matrix".toList))) := by
  unfold processEndElement at h
  rw [if_neg (by rw [hname]; decide), if_neg (by rw [hname]; decide), if_pos hname] at h
  simp only [Option.some.injEq] at h
  rw [← h]

theorem resolved_handle {Db Font : Type} (env : RenderServices Db Font)
    (h h1 : XpsHandler Db Font) (e : XmlEvent)
    (hinv : MatrixChildrenResolved env.tables h.nodes) (hh : h.handle env e = some h1) :
    MatrixChildrenResolved env.tables h1.nodes := by
  cases e with
  | startElement name atts =>
    simp only [XpsHandler.handle, Option.some.injEq] at hh
    rw [← hh]
    intro n hn c hc
    simp only [XpsHandler.startElement, List.mem_cons] at hn
    rcases hn with rfl | hn
    · simp at hc
    · exact hinv n hn c hc
  | endElement name =>
    obtain ⟨node, top, rest, child, e1, e2, c1, c2, _, r, hr, c4, _⟩ :=
      render_end_facts env h h1 name hh
    intro n hn c hc hcn
    rw [e2] at hn
    rcases List.mem_cons.1 hn with rfl | hn
    · rcases List.mem_append.1 hc with hc | hc
      · exact hinv top (by rw [e1]; simp) c hc hcn
      · have : c = child := by simpa using hc
        subst this
        rw [c4, c2]
        exact processEndElement_matrix env node h.painter h.file r hr (by rw [← c1]; exact hcn)
    · exact hinv n (by rw [e1]; simp [hn]) c hc hcn

theorem resolved_run {Db Font : Type} (env : RenderServices Db Font) (evs : List XmlEvent) :
    ∀ (h h1 : XpsHandler Db Font), MatrixChildrenResolved env.tables h.nodes →
      XpsHandler.run env evs h = some h1 → MatrixChildrenResolved env.tables h1.nodes := by
  induction evs with
  | nil =>
    intro h h1 hinv hrun
    simp only [XpsHandler.run, Option.some.injEq] at hrun
    rw [← hrun]
    exact hinv
  | cons e es ih =>
    intro h h1 hinv hrun
    rw [render_run_cons] at hrun
    cases hh : h.handle env e with
    | none =>
      rw [hh] at hrun
      exact absurd hrun (by simp)
    | some h2 =>
      rw [hh] at hrun
      exact ih h2 h1 (resolved_handle env h h2 e hinv hh) hrun

/-- C25. In every state that the visitor reaches from startDocument on a fresh handler, by
any events, the end event on a node Canvas.RenderTransform, Glyphs.RenderTransform or
Path.RenderTransform returns; when the node has a child MatrixTransform, the world matrix
T of the painter becomes M * T for the matrix M that attsToMatrix reads from the attribute
Matrix of the first such child, and nothing else of the painter changes; when it has none,
the painter is as it was. -/
theorem render_transform_end {Db Font : Type} (env : RenderServices Db Font)
    (uninitData : Option NodeData) (painter : QPainter Font) (file : XpsFile Db)
    (evs : List XmlEvent) (h : XpsHandler Db Font) (node top : XpsRenderNode)
    (rest : List XpsRenderNode) (localName : QString)
    (hrun : XpsHandler.run env evs
      ((XpsHandler.create painter file).startDocument uninitData) = some h)
    (hn : h.nodes = node :: top :: rest)
    (hname : node.name = "Canvas.RenderTransform".toList ∨
      node.name = "Glyphs.RenderTransform".toList ∨
      node.name = "Path.RenderTransform".toList) :
    ∃ h1, h.endElement env localName = some h1 ∧ h1.file = h.file ∧
      h1.painter =
        match node.findChild "MatrixTransform".toList with
        | some child =>
          { h.painter with state := { h.painter.state with
              worldMatrix := attsToMatrix env.tables (child.attributes.value "Matrix".toList) *
                h.painter.state.worldMatrix } }
        | none => h.painter := by
  have hinv : MatrixChildrenResolved env.tables h.nodes := by
    refine resolved_run env evs _ h ?_ hrun
    intro n hn c hc
    simp only [XpsHandler.startDocument, XpsHandler.create, List.mem_singleton] at hn
    rw [hn] at hc
    simp at hc
  have h1 : node.name ≠ "Glyphs".toList := by
    rcases hname with h | h | h <;> rw [h] <;> decide
  have h2 : node.name ≠ "Path".toList := by
    rcases hname with h | h | h <;> rw [h] <;> decide
  have h3 : node.name ≠ "MatrixTransform".toList := by
    rcases hname with h | h | h <;> rw [h] <;> decide
  unfold XpsHandler.endElement
  simp only [hn]
  unfold processEndElement
  rw [if_neg h1, if_neg h2, if_neg h3, if_pos hname]
  unfold XpsRenderNode.getRequiredChildData
  cases hf : node.findChild "MatrixTransform".toList with
  | none => exact ⟨_, rfl, rfl, rfl⟩
  | some child =>
    have hmem : child ∈ node.children := List.mem_of_find?_eq_some hf
    have hcn : child.name = "MatrixTransform".toList := by
      have := List.find?_some hf
      simpa using this
    have hd := hinv node (by rw [hn]; simp) child hmem hcn
    simp only [hd, NodeData.asMatrix]
    exact ⟨_, rfl, rfl, rfl⟩

theorem render_transform_end_witness :
    ∃ h h1, XpsHandler.run sampleRender
        [XmlEvent.startElement "Canvas".toList [],
          XmlEvent.startElement "Canvas.RenderTransform".toList [],
          XmlEvent.startElement "MatrixTransform".toList [("Matrix".toList, "2,0,0,2,5,5".toList)],
          XmlEvent.endElement "MatrixTransform".toList]
        ((XpsHandler.create (samplePainter.setWorldMatrix ⟨1, 0, 0, 1, 10, 20⟩ false)
          sampleFile).startDocument none) = some h ∧
      h.painter.state.worldMatrix = ⟨1, 0, 0, 1, 10, 20⟩ ∧
      h.endElement sampleRender "Canvas.RenderTransform".toList = some h1 ∧
      h1.painter.state.worldMatrix = ⟨2, 0, 0, 2, 15, 25⟩ := by
  have hr : XpsHandler.run sampleRender
      [XmlEvent.startElement "Canvas".toList [],
        XmlEvent.startElement "Canvas.RenderTransform".toList [],
        XmlEvent.startElement "MatrixTransform".toList [("Matrix".toList, "2,0,0,2,5,5".toList)],
        XmlEvent.endElement "MatrixTransform".toList]
      ((XpsHandler.create (samplePainter.setWorldMatrix ⟨1, 0, 0, 1, 10, 20⟩ false)
        sampleFile).startDocument none) =
      some ⟨[⟨"Canvas.RenderTransform".toList, [],
            [⟨"MatrixTransform".toList, [("Matrix".toList, "2,0,0,2,5,5".toList)], [],
              some (NodeData.matrix (attsToMatrix QCharTables.plain "2,0,0,2,5,5".toList))⟩],
            none⟩,
          ⟨"Canvas".toList, [], [], none⟩, ⟨"document".toList, [], [], none⟩],
        (samplePainter.setWorldMatrix ⟨1, 0, 0, 1, 10, 20⟩ false).save, sampleFile⟩ := rfl
  obtain ⟨h1, e1, _, p1⟩ := render_transform_end sampleRender none
    (samplePainter.setWorldMatrix ⟨1, 0, 0, 1, 10, 20⟩ false) sampleFile _ _ _ _ _
    "Canvas.RenderTransform".toList hr rfl (Or.inl rfl)
  refine ⟨_, h1, hr, rfl, e1, ?_⟩
  rw [p1]
  decide!

/-! ## The render visitor: the matrices of an image brush -/

theorem identity_mul (m : QMatrix) : QMatrix.identity * m = m := by
  cases m
  show QMatrix.mul QMatrix.identity _ = _
  simp [QMatrix.mul, QMatrix.identity]

/-- C26. For an ImageBrush with the Viewport rectangle (x, y, w, h), with no attribute
Transform and no child ImageBrush.Transform, the second matrix of processImageBrush is
(w, 0, 0, h, x, y') where y' is the y of the Viewbox rectangle, not the y of the Viewport;
the matrix of the brush is the inverse of the viewbox matrix times this matrix. -/
theorem image_brush_viewport_offset {Db Font : Type} (env : RenderServices Db Font)
    (node : XpsRenderNode) (viewport viewbox : QRectF)
    (hvp : stringToRectF env.tables (node.attributes.value "Viewport".toList) = some viewport)
    (hvb : stringToRectF env.tables (node.attributes.value "Viewbox".toList) = some viewbox)
    (hatt : node.attributes.value "Transform".toList = [])
    (hchild : node.findChild "ImageBrush.Transform".toList = none) :
    imageBrushMatrices env node =
      some (⟨viewbox.width *
            (env.loadImageFromFile (node.attributes.value "ImageSource".toList)).physicalDpiX / 96,
          0, 0,
          viewbox.height *
            (env.loadImageFromFile (node.attributes.value "ImageSource".toList)).physicalDpiY / 96,
          viewbox.x, viewbox.y⟩,
        ⟨viewport.width, 0, 0, viewport.height, viewport.x, viewbox.y⟩) ∧
    processImageBrush env node =
      some { node with data := some (NodeData.brush
        ((QBrush.ofImage (env.loadImageFromFile (node.attributes.value "ImageSource".toList))).setMatrix
          (QMatrix.inverted ⟨viewbox.width *
              (env.loadImageFromFile (node.attributes.value "ImageSource".toList)).physicalDpiX / 96,
            0, 0,
            viewbox.height *
              (env.loadImageFromFile (node.attributes.value "ImageSource".toList)).physicalDpiY / 96,
            viewbox.x, viewbox.y⟩ *
            ⟨viewport.width, 0, 0, viewport.height, viewport.x, viewbox.y⟩))) } := by
  have h1 : imageBrushMatrices env node =
      some (⟨viewbox.width *
            (env.loadImageFromFile (node.attributes.value "ImageSource".toList)).physicalDpiX / 96,
          0, 0,
          viewbox.height *
            (env.loadImageFromFile (node.attributes.value "ImageSource".toList)).physicalDpiY / 96,
          viewbox.x, viewbox.y⟩,
        ⟨viewport.width, 0, 0, viewport.height, viewport.x, viewbox.y⟩) := by
    unfold imageBrushMatrices
    rw [hvp, hvb]
    simp only
    rw [if_pos hatt]
    unfold XpsRenderNode.getChildData
    rw [hchild]
    simp only
    rw [identity_mul]
  refine ⟨h1, ?_⟩
  unfold processImageBrush
  rw [h1]

theorem image_brush_viewport_offset_witness :
    (stringToRectF sampleRender.tables "0,5,1,1".toList = some ⟨0, 5, 1, 1⟩ ∧
      stringToRectF sampleRender.tables "0,0,1,1".toList = some ⟨0, 0, 1, 1⟩) ∧
    imageBrushMatrices sampleRender
        ⟨"ImageBrush".toList,
          [("Viewport".toList, "0,5,1,1".toList), ("Viewbox".toList, "0,0,1,1".toList),
            ("ImageSource".toList, "a.png".toList)], [], none⟩ =
      some (⟨1, 0, 0, 1, 0, 0⟩, ⟨1, 0, 0, 1, 0, 0⟩) ∧
    (⟨1, 0, 0, 1, 0, 0⟩ : QMatrix) ≠ ⟨1, 0, 0, 1, 0, 5⟩ :=
  ⟨by decide!,
    (image_brush_viewport_offset sampleRender
      ⟨"ImageBrush".toList,
        [("Viewport".toList, "0,5,1,1".toList), ("Viewbox".toList, "0,0,1,1".toList),
          ("ImageSource".toList, "a.png".toList)], [], none⟩
      ⟨0, 5, 1, 1⟩ ⟨0, 0, 1, 1⟩ (by decide!) (by decide!) rfl rfl).1.trans (by decide!),
    by decide!⟩

/-! ## The text-extraction visitor: the transform stack -/

/-- The visitor up to a point of a document in which the font of every Glyphs element
resolves: it returns, with one matrix more on the stack for each open Canvas and
Glyphs. -/
theorem text_depth {Db Font : Type} (env : TextServices Db Font) (good : XpsFile Db → Prop)
    (opens : List OpenElement) (last : List XmlEvent)
    (hopens : ∀ o ∈ opens, WellNested o.before) (hlast : WellNested last) :
    FontsResolve env good (eventsUpTo opens last) →
    ∀ h : XpsTextExtractionHandler Db, good h.file → ∃ h1,
      XpsTextExtractionHandler.run env (eventsUpTo opens last) h = some h1 ∧
        h1.matrixes.length =
          h.matrixes.length + (opens.filter (fun o => isScope o.name)).length := by
  induction opens with
  | nil =>
    intro hfonts h hg
    obtain ⟨h1, r1, m1, _⟩ := text_forest env good hlast hfonts h hg
    exact ⟨h1, r1, by simp [m1]⟩
  | cons o os ih =>
    intro hfonts h hg
    have hfonts2 : FontsResolve env good
        (o.before ++ XmlEvent.startElement o.name o.atts :: eventsUpTo os last) := hfonts
    obtain ⟨hfb, hf2⟩ := fontsResolve_append env good _ _ hfonts2
    have hfr := fontsResolve_cons env good _ _ hf2
    obtain ⟨h1, r1, m1, g1, _⟩ := text_forest env good (hopens o (by simp)) hfb h hg
    obtain ⟨s1, _, s3, _⟩ := text_start_facts env.tables h1 o.name o.atts
    obtain ⟨h2, r2, m2⟩ := ih (fun x hx => hopens x (by simp [hx])) hfr
      (h1.startElement env.tables o.name o.atts) (by rw [s3]; exact g1)
    refine ⟨h2, ?_, ?_⟩
    · show XpsTextExtractionHandler.run env
        (o.before ++ XmlEvent.startElement o.name o.atts :: eventsUpTo os last) h = some h2
      rw [text_run_append, r1]
      show XpsTextExtractionHandler.run env
        (XmlEvent.startElement o.name o.atts :: eventsUpTo os last) h1 = some h2
      rw [text_run_cons]
      exact r2
    · rw [m2, s1]
      by_cases hs : isScope o.name = true
      · have hf : List.filter (fun x => isScope x.name) (o :: os) =
            o :: List.filter (fun x => isScope x.name) os := by
          simp [List.filter, hs]
        rw [if_pos hs, hf, m1]
        simp only [List.length_cons]
        omega
      · have hf : List.filter (fun x => isScope x.name) (o :: os) =
            List.filter (fun x => isScope x.name) os := by
          simp [List.filter, hs]
        rw [if_neg hs, hf, m1]

/-- C27, amended. For a handler fresh from its constructor and the events of a
well-nested document up to any point, in which the font of every Glyphs element resolves
(getFontByName returns it in every good state of the file and leaves the file good, the
file of the handler being good), after startDocument the visitor returns with a transform
stack of depth 1 plus the number of open Canvas and Glyphs elements; and on the events of
one whole such Canvas or Glyphs element, from any state with a good file, it returns with
the active matrix and the stack as they were at the start of the element. -/
theorem transform_stack_depth {Db Font : Type} (env : TextServices Db Font)
    (good : XpsFile Db → Prop) (h0 : XpsTextExtractionHandler Db) (opens : List OpenElement)
    (last : List XmlEvent) (hfresh : h0.matrixes = [])
    (hopens : ∀ o ∈ opens, WellNested o.before) (hlast : WellNested last)
    (hgood : good h0.file) (hfonts : FontsResolve env good (eventsUpTo opens last)) :
    (∃ h, XpsTextExtractionHandler.run env (eventsUpTo opens last) h0.startDocument = some h ∧
      h.matrixes.length = 1 + (opens.filter (fun o => isScope o.name)).length) ∧
    (∀ (h : XpsTextExtractionHandler Db) (name : QString) (atts : QXmlAttributes)
      (inner : List XmlEvent), isScope name = true → WellNested inner → good h.file →
      FontsResolve env good
        (XmlEvent.startElement name atts :: (inner ++ [XmlEvent.endElement name])) →
      ∃ h1, XpsTextExtractionHandler.run env
          (XmlEvent.startElement name atts :: (inner ++ [XmlEvent.endElement name])) h =
            some h1 ∧
        h1.matrix = h.matrix ∧ h1.matrixes = h.matrixes) := by
  constructor
  · obtain ⟨h, r, m⟩ := text_depth env good opens last hopens hlast hfonts h0.startDocument
      hgood
    refine ⟨h, r, ?_⟩
    rw [m]
    simp [XpsTextExtractionHandler.startDocument, hfresh]
  · intro h name atts inner hs hw hg hfe
    obtain ⟨s1, _, s3, _, s5⟩ := text_start_facts env.tables h name atts
    rw [if_pos hs] at s1
    obtain ⟨hfi, _⟩ := fontsResolve_append env good _ _ (fontsResolve_cons env good _ _ hfe)
    obtain ⟨h2, r2, m2, g2, a2⟩ := text_forest env good hw hfi
      (h.startElement env.tables name atts) (by rw [s3]; exact hg)
    have hend : ∃ h3, h2.endElement env name = some h3 ∧ h3.matrix = h.matrix ∧
        h3.matrixes = h.matrixes := by
      rcases (isScope_iff name).1 hs with rfl | rfl
      · exact ⟨_, text_end_canvas env h2 h.matrix h.matrixes (by rw [m2, s1]), rfl, rfl⟩
      · have hres : GlyphsFontResolves env good h2.glyphsAtts := by
          rcases a2 with a2 | a2
          · rw [a2, (s5 rfl).1]
            exact hfe atts (by simp)
          · exact a2
        obtain ⟨r, hr, _⟩ := hres h2.file g2
        obtain ⟨h3, e3, x3, m3, _⟩ := text_end_glyphs env h2 h.matrix h.matrixes r
          (by rw [m2, s1]) hr
        exact ⟨h3, e3, x3, m3⟩
    obtain ⟨h3, e3, x3, m3⟩ := hend
    refine ⟨h3, ?_, x3, m3⟩
    rw [text_run_cons]
    show (XpsTextExtractionHandler.run env (inner ++ [XmlEvent.endElement name])
      (h.startElement env.tables name atts)) = some h3
    rw [text_run_append, r2]
    show XpsTextExtractionHandler.run env [XmlEvent.endElement name] h2 = some h3
    rw [text_run_cons]
    show (h2.endElement env name).bind _ = some h3
    rw [e3]
    rfl

theorem transform_stack_depth_witness :
    (sampleTextHandler.matrixes = [] ∧
      WellNested [XmlEvent.startElement "Glyphs".toList
          [("UnicodeString".toList, "ab".toList), ("FontUri".toList, "a.ttf".toList)],
        XmlEvent.endElement "Glyphs".toList] ∧
      (getFontByName sampleText.fonts sampleFile "a.ttf".toList
        (toDouble sampleText.tables [] * 72 / 96)).map Prod.fst =
          some ("Sample".toList, "Regular".toList, 0)) ∧
    (∃ h, XpsTextExtractionHandler.run sampleText
        [XmlEvent.startElement "Canvas".toList [("RenderTransform".toList, "2,0,0,2,5,5".toList)],
          XmlEvent.startElement "Glyphs".toList
            [("UnicodeString".toList, "ab".toList), ("FontUri".toList, "a.ttf".toList)],
          XmlEvent.endElement "Glyphs".toList,
          XmlEvent.startElement "Path".toList []]
        sampleTextHandler.startDocument = some h ∧
      h.matrixes.length = 2) ∧
    (∃ h1, XpsTextExtractionHandler.run sampleText
        [XmlEvent.startElement "Canvas".toList [("RenderTransform".toList, "2,0,0,2,5,5".toList)],
          XmlEvent.startElement "Glyphs".toList
            [("UnicodeString".toList, "ab".toList), ("FontUri".toList, "a.ttf".toList)],
          XmlEvent.endElement "Glyphs".toList,
          XmlEvent.endElement "Canvas".toList]
        sampleTextHandler.startDocument = some h1 ∧
      h1.matrix = QMatrix.identity ∧ h1.matrixes = [QMatrix.identity]) := by
  have hres : ∀ evs : List XmlEvent,
      (∀ atts, XmlEvent.startElement "Glyphs".toList atts ∈ evs →
        atts.value "FontUri".toList = "a.ttf".toList) →
      FontsResolve sampleText (fun _ => True) evs := by
    intro evs hall atts ha file _
    rw [hall atts ha]
    obtain ⟨r, hr⟩ := sample_font_resolves file
      (toDouble sampleText.tables (atts.value "FontRenderingEmSize".toList) * 72 / 96)
    exact ⟨r, hr, trivial⟩
  have hw : WellNested [XmlEvent.startElement "Glyphs".toList
      [("UnicodeString".toList, "ab".toList), ("FontUri".toList, "a.ttf".toList)],
      XmlEvent.endElement "Glyphs".toList] :=
    WellNested.element _ _ [] [] WellNested.nil WellNested.nil
  refine ⟨⟨rfl, hw, by decide!⟩, ?_, ?_⟩
  · exact (transform_stack_depth sampleText (fun _ => True) sampleTextHandler
      [⟨[], "Canvas".toList, [("RenderTransform".toList, "2,0,0,2,5,5".toList)]⟩,
        ⟨[XmlEvent.startElement "Glyphs".toList
              [("UnicodeString".toList, "ab".toList), ("FontUri".toList, "a.ttf".toList)],
            XmlEvent.endElement "Glyphs".toList], "Path".toList, []⟩]
      [] rfl
      (by
        intro o ho
        simp only [List.mem_cons, List.mem_singleton, List.not_mem_nil, or_false] at ho
        rcases ho with rfl | rfl
        · exact WellNested.nil
        · exact hw)
      WellNested.nil trivial
      (hres _ (by
        intro atts ha
        simp only [eventsUpTo, List.nil_append, List.cons_append, List.mem_cons,
          List.mem_singleton, List.not_mem_nil, or_false] at ha
        rcases ha with ha | ha | ha | ha
        · exact absurd (XmlEvent.startElement.inj ha).1 (by decide)
        · rw [(XmlEvent.startElement.inj ha).2]
          rfl
        · exact XmlEvent.noConfusion ha
        · exact absurd (XmlEvent.startElement.inj ha).1 (by decide)))).1
  · exact (transform_stack_depth sampleText (fun _ => True) sampleTextHandler [] [] rfl
      (by simp) WellNested.nil trivial (hres _ (by simp [eventsUpTo]))).2
      sampleTextHandler.startDocument "Canvas".toList
      [("RenderTransform".toList, "2,0,0,2,5,5".toList)]
      [XmlEvent.startElement "Glyphs".toList
          [("UnicodeString".toList, "ab".toList), ("FontUri".toList, "a.ttf".toList)],
        XmlEvent.endElement "Glyphs".toList]
      rfl hw trivial
      (hres _ (by
        intro atts ha
        simp only [List.cons_append, List.nil_append, List.mem_cons,
          List.mem_singleton, List.not_mem_nil, or_false] at ha
        rcases ha with ha | ha | ha | ha
        · exact absurd (XmlEvent.startElement.inj ha).1 (by decide)
        · rw [(XmlEvent.startElement.inj ha).2]
          rfl
        · exact XmlEvent.noConfusion ha
        · exact XmlEvent.noConfusion ha))

/-- C27, as stated, fails: after startDocument, with no element open, the
transform stack holds one matrix, and inside one Canvas it holds two; and a run over a
Glyphs element whose font does not load has no result at the end of the element. -/
theorem transform_stack_deeper_than_nesting :
    (XpsTextExtractionHandler.run sampleText [] sampleTextHandler.startDocument).map
        (fun h => h.matrixes.length) = some 1 ∧
    (XpsTextExtractionHandler.run sampleText [XmlEvent.startElement "Canvas".toList []]
        sampleTextHandler.startDocument).map (fun h => h.matrixes.length) = some 2 ∧
    (XpsTextExtractionHandler.run sampleText
        [XmlEvent.startElement "Glyphs".toList [("FontUri".toList, "b.odttf".toList)],
          XmlEvent.endElement "Glyphs".toList]
        sampleTextHandler.startDocument).map (fun h => h.matrixes.length) = none := by
  decide!

/-! ## Smooth cubics after a command other than c and s -/

theorem commandEffect_sets_lastCommand (c : PathCommand) (x : ParserCore) :
    (commandEffect c x).lastCommand = c.kind.command := rfl

/-- The command remembered after a run of commands: the last of them, or the one before
the run. -/
theorem runCommands_last (pre : List PathCommand) (x : ParserCore) :
    (runCommands pre x).lastCommand =
      match pre.getLast? with
      | none => x.lastCommand
      | some c => c.kind.command := by
  induction pre using List.reverseRecOn with
  | nil => rfl
  | append_singleton xs c _ =>
    rw [runCommands_append, List.getLast?_append]
    simp only [List.getLast?_singleton, Option.or_some]
    exact commandEffect_sets_lastCommand c _

theorem groupEffect_smooth_current (rel : Bool) (cur : QPointF) (g : List Operand)
    (x : ParserCore) (hs : x.lastCommand ≠ 's') (hc : x.lastCommand ≠ 'c') :
    groupEffect CommandKind.smooth rel cur g x =
      ⟨smoothGroupFromCurrentPoint rel cur x.path g, x.lastCommand,
        x.lastSecondControlPoint⟩ := by
  unfold groupEffect
  split
  · rfl
  · rfl
  · simp only [smoothGroupFromCurrentPoint]
    rw [if_neg (by simp [hs, hc])]
  · rfl
  · rename_i h1 h2 h3 h4
    unfold smoothGroupFromCurrentPoint
    split
    · exact absurd rfl (h3 _ _)
    · rfl

theorem foldl_groupEffect_smooth_current (rel : Bool) (cur : QPointF)
    (gs : List (List Operand)) (x : ParserCore) (hs : x.lastCommand ≠ 's')
    (hc : x.lastCommand ≠ 'c') :
    gs.foldl (fun y g => groupEffect CommandKind.smooth rel cur g y) x =
      ⟨smoothFromCurrentPoint rel cur gs x.path, x.lastCommand, x.lastSecondControlPoint⟩ := by
  induction gs generalizing x with
  | nil => rfl
  | cons g gs ih =>
    rw [List.foldl_cons, groupEffect_smooth_current rel cur g x hs hc]
    exact ih ⟨smoothGroupFromCurrentPoint rel cur x.path g, x.lastCommand,
      x.lastSecondControlPoint⟩ hs hc

theorem command_not_smooth_cubic (k : CommandKind) (hc : k ≠ CommandKind.cubic)
    (hs : k ≠ CommandKind.smooth) : k.command ≠ 's' ∧ k.command ≠ 'c' := by
  cases k <;> first | exact absurd rfl hc | exact absurd rfl hs | exact ⟨by decide, by decide⟩

/-- C28. Among well-formed commands, a smooth command (s or S) that is the first command or
stands after a command other than c, C, s and S emits, for each of its groups, a cubic
whose first control point is the current point of the path at the time the group is read:
with fuel for the commands the interpreter returns the path that the commands before the
smooth command build, then these cubics, then what the commands after it build. -/
theorem smooth_after_other_command (U : QCharTables) (uninit : AbbPathToken)
    (pre suf : List PathCommand) (s : PathCommand) (fuel : Nat)
    (hpre : ∀ x ∈ pre, x.wellFormed) (hsuf : ∀ x ∈ suf, x.wellFormed) (hs : s.wellFormed)
    (hkind : s.kind = CommandKind.smooth)
    (hprev : ∀ c, pre.getLast? = some c →
      c.kind ≠ CommandKind.cubic ∧ c.kind ≠ CommandKind.smooth)
    (hf : fuelFor (pre ++ s :: suf) ≤ fuel) :
    parseAbbreviatedPathData U uninit (pathText (pre ++ s :: suf)) fuel =
      some (runCommands suf
        ⟨smoothFromCurrentPoint s.relative
            (runCommands pre ⟨QPainterPath.empty, ' ', ⟨0, 0⟩⟩).path.currentPosition s.groups
            (runCommands pre ⟨QPainterPath.empty, ' ', ⟨0, 0⟩⟩).path,
          's', (runCommands pre ⟨QPainterPath.empty, ' ', ⟨0, 0⟩⟩).lastSecondControlPoint⟩).path := by
  obtain ⟨f1, f2, f3⟩ := lands_nil_final U
  have h1 := parseAbbreviatedPathData_commands U uninit (pre ++ s :: suf) [] fuel
    (by
      intro x hx
      rcases List.mem_append.1 hx with hx | hx
      · exact hpre x hx
      · rcases List.mem_cons.1 hx with rfl | hx
        · exact hs
        · exact hsuf x hx)
    f1 f2 (fun _ => f3) hf
  rw [List.append_nil] at h1
  rw [h1, runCommands_append]
  show some (runCommands suf (commandEffect s _)).path = _
  have hlast : (runCommands pre ⟨QPainterPath.empty, ' ', ⟨0, 0⟩⟩).lastCommand ≠ 's' ∧
      (runCommands pre ⟨QPainterPath.empty, ' ', ⟨0, 0⟩⟩).lastCommand ≠ 'c' := by
    rw [runCommands_last]
    cases hl : pre.getLast? with
    | none => exact ⟨by decide, by decide⟩
    | some c => exact command_not_smooth_cubic c.kind (hprev c hl).1 (hprev c hl).2
  rw [commandEffect_loop s (by rw [hkind]; rfl), hkind,
    foldl_groupEffect_smooth_current _ _ _ _ hlast.1 hlast.2]
  rfl

theorem smooth_after_other_command_witness :
    ((∀ x ∈ [(⟨CommandKind.move, false, [[Operand.point ⟨"1".toList, "2".toList, 1, 2⟩]]⟩ :
        PathCommand)], x.wellFormed) ∧
      (⟨CommandKind.smooth, false,
        [[Operand.point ⟨"3".toList, "4".toList, 3, 4⟩,
          Operand.point ⟨"5".toList, "6".toList, 5, 6⟩],
         [Operand.point ⟨"7".toList, "8".toList, 7, 8⟩,
          Operand.point ⟨"9".toList, "9".toList, 9, 9⟩]]⟩ : PathCommand).wellFormed) ∧
    parseAbbreviatedPathData QCharTables.plain AbbPathToken.blank
        "M 1,2 S 3,4 5,6 7,8 9,9".toList 5 =
      some ⟨FillRule.oddEvenFill,
        [PathCall.moveTo ⟨1, 2⟩, PathCall.cubicTo ⟨1, 2⟩ ⟨3, 4⟩ ⟨5, 6⟩,
          PathCall.cubicTo ⟨5, 6⟩ ⟨7, 8⟩ ⟨9, 9⟩]⟩ :=
  ⟨by decide!,
    smooth_after_other_command QCharTables.plain AbbPathToken.blank
      [⟨CommandKind.move, false, [[Operand.point ⟨"1".toList, "2".toList, 1, 2⟩]]⟩] []
      ⟨CommandKind.smooth, false,
        [[Operand.point ⟨"3".toList, "4".toList, 3, 4⟩,
          Operand.point ⟨"5".toList, "6".toList, 5, 6⟩],
         [Operand.point ⟨"7".toList, "8".toList, 7, 8⟩,
          Operand.point ⟨"9".toList, "9".toList, 9, 9⟩]]⟩
      5 (by decide!) (by simp) (by decide!) rfl (by decide) (by decide)⟩

/-! ## The second control point that a smooth cubic remembers -/

/-- C29. The case s never stores its second control point. On M p C a b e S q f S r g the
first control point of the last cubic is b + (b + f), from the second control point b of
the C, where the segment before it has second control point q; on M p C a b e C x q f S r g
it is q + (q + f). The two are different points unless b = q. -/
theorem smooth_forgets_second_control (U : QCharTables) (uninit : AbbPathToken)
    (p a b e q f x r g : WrittenPoint) (fuel : Nat)
    (hwf : ∀ w ∈ [p, a, b, e, q, f, x, r, g], w.wellFormed) (hf : 8 ≤ fuel) :
    parseAbbreviatedPathData U uninit
        (pathText [⟨CommandKind.move, false, [[Operand.point p]]⟩,
          ⟨CommandKind.cubic, false, [[Operand.point a, Operand.point b, Operand.point e]]⟩,
          ⟨CommandKind.smooth, false, [[Operand.point q, Operand.point f]]⟩,
          ⟨CommandKind.smooth, false, [[Operand.point r, Operand.point g]]⟩]) fuel =
      some ⟨FillRule.oddEvenFill,
        [PathCall.moveTo p.point, PathCall.cubicTo a.point b.point e.point,
          PathCall.cubicTo (b.point + (b.point + e.point)) q.point f.point,
          PathCall.cubicTo (b.point + (b.point + f.point)) r.point g.point]⟩ ∧
    parseAbbreviatedPathData U uninit
        (pathText [⟨CommandKind.move, false, [[Operand.point p]]⟩,
          ⟨CommandKind.cubic, false, [[Operand.point a, Operand.point b, Operand.point e]]⟩,
          ⟨CommandKind.cubic, false, [[Operand.point x, Operand.point q, Operand.point f]]⟩,
          ⟨CommandKind.smooth, false, [[Operand.point r, Operand.point g]]⟩]) fuel =
      some ⟨FillRule.oddEvenFill,
        [PathCall.moveTo p.point, PathCall.cubicTo a.point b.point e.point,
          PathCall.cubicTo x.point q.point f.point,
          PathCall.cubicTo (q.point + (q.point + f.point)) r.point g.point]⟩ := by
  obtain ⟨f1, f2, f3⟩ := lands_nil_final U
  have wp := hwf p (by simp)
  have wa := hwf a (by simp)
  have wb := hwf b (by simp)
  have we := hwf e (by simp)
  have wq := hwf q (by simp)
  have wf := hwf f (by simp)
  have wx := hwf x (by simp)
  have wr := hwf r (by simp)
  have wg := hwf g (by simp)
  constructor
  · have h1 := parseAbbreviatedPathData_commands U uninit
      [⟨CommandKind.move, false, [[Operand.point p]]⟩,
        ⟨CommandKind.cubic, false, [[Operand.point a, Operand.point b, Operand.point e]]⟩,
        ⟨CommandKind.smooth, false, [[Operand.point q, Operand.point f]]⟩,
        ⟨CommandKind.smooth, false, [[Operand.point r, Operand.point g]]⟩] [] fuel
      (by simp [PathCommand.wellFormed, groupShape, Operand.wellFormed, wp, wa, wb, we, wq, wf,
        wr, wg])
      f1 f2 (fun _ => f3) (by simp [fuelFor]; omega)
    rw [List.append_nil] at h1
    rw [h1]
    rfl
  · have h1 := parseAbbreviatedPathData_commands U uninit
      [⟨CommandKind.move, false, [[Operand.point p]]⟩,
        ⟨CommandKind.cubic, false, [[Operand.point a, Operand.point b, Operand.point e]]⟩,
        ⟨CommandKind.cubic, false, [[Operand.point x, Operand.point q, Operand.point f]]⟩,
        ⟨CommandKind.smooth, false, [[Operand.point r, Operand.point g]]⟩] [] fuel
      (by simp [PathCommand.wellFormed, groupShape, Operand.wellFormed, wp, wa, wb, we, wq, wf,
        wx, wr, wg])
      f1 f2 (fun _ => f3) (by simp [fuelFor]; omega)
    rw [List.append_nil] at h1
    rw [h1]
    rfl

theorem smooth_forgets_second_control_witness :
    (∀ w ∈ [(⟨"0".toList, "0".toList, 0, 0⟩ : WrittenPoint), ⟨"1".toList, "1".toList, 1, 1⟩,
        ⟨"2".toList, "3".toList, 2, 3⟩, ⟨"4".toList, "4".toList, 4, 4⟩,
        ⟨"5".toList, "6".toList, 5, 6⟩, ⟨"7".toList, "7".toList, 7, 7⟩,
        ⟨"9".toList, "9".toList, 9, 9⟩, ⟨"8".toList, "8".toList, 8, 8⟩,
        ⟨"10".toList, "10".toList, 10, 10⟩], w.wellFormed) ∧
    (parseAbbreviatedPathData QCharTables.plain AbbPathToken.blank
        "M 0,0 C 1,1 2,3 4,4 S 5,6 7,7 S 8,8 10,10".toList 8 =
      some ⟨FillRule.oddEvenFill,
        [PathCall.moveTo ⟨0, 0⟩, PathCall.cubicTo ⟨1, 1⟩ ⟨2, 3⟩ ⟨4, 4⟩,
          PathCall.cubicTo ⟨8, 10⟩ ⟨5, 6⟩ ⟨7, 7⟩,
          PathCall.cubicTo ⟨11, 13⟩ ⟨8, 8⟩ ⟨10, 10⟩]⟩ ∧
    parseAbbreviatedPathData QCharTables.plain AbbPathToken.blank
        "M 0,0 C 1,1 2,3 4,4 C 9,9 5,6 7,7 S 8,8 10,10".toList 8 =
      some ⟨FillRule.oddEvenFill,
        [PathCall.moveTo ⟨0, 0⟩, PathCall.cubicTo ⟨1, 1⟩ ⟨2, 3⟩ ⟨4, 4⟩,
          PathCall.cubicTo ⟨9, 9⟩ ⟨5, 6⟩ ⟨7, 7⟩,
          PathCall.cubicTo ⟨17, 19⟩ ⟨8, 8⟩ ⟨10, 10⟩]⟩) :=
  ⟨by decide!,
    (smooth_forgets_second_control QCharTables.plain AbbPathToken.blank
      ⟨"0".toList, "0".toList, 0, 0⟩ ⟨"1".toList, "1".toList, 1, 1⟩
      ⟨"2".toList, "3".toList, 2, 3⟩ ⟨"4".toList, "4".toList, 4, 4⟩
      ⟨"5".toList, "6".toList, 5, 6⟩ ⟨"7".toList, "7".toList, 7, 7⟩
      ⟨"9".toList, "9".toList, 9, 9⟩ ⟨"8".toList, "8".toList, 8, 8⟩
      ⟨"10".toList, "10".toList, 10, 10⟩ 8 (by decide!) (by decide)).1.trans (by decide!),
    (smooth_forgets_second_control QCharTables.plain AbbPathToken.blank
      ⟨"0".toList, "0".toList, 0, 0⟩ ⟨"1".toList, "1".toList, 1, 1⟩
      ⟨"2".toList, "3".toList, 2, 3⟩ ⟨"4".toList, "4".toList, 4, 4⟩
      ⟨"5".toList, "6".toList, 5, 6⟩ ⟨"7".toList, "7".toList, 7, 7⟩
      ⟨"9".toList, "9".toList, 9, 9⟩ ⟨"8".toList, "8".toList, 8, 8⟩
      ⟨"10".toList, "10".toList, 10, 10⟩ 8 (by decide!) (by decide)).2.trans (by decide!)⟩

/-! ## The cursor of the tokenizer -/

theorem takeWhile_length_le_drop (p : Char → Bool) (data : List Char) (pos : Nat)
    (h : pos ≤ data.length) :
    pos + ((data.drop pos).takeWhile p).length ≤ data.length := by
  have h1 : ((data.drop pos).takeWhile p).length ≤ (data.drop pos).length :=
    (List.takeWhile_sublist p).length_le
  rw [List.length_drop] at h1
  omega

theorem takeWhile_length_pos (p : Char → Bool) (c : Char) (r : List Char) (hc : p c = true) :
    0 < ((c :: r).takeWhile p).length := by
  simp [List.takeWhile_cons, hc]

theorem length_le_of_drop_nil (data : List Char) (pos : Nat) (h : data.drop pos = []) :
    data.length ≤ pos := by
  simpa using h

theorem lt_length_of_drop_cons (data : List Char) (pos : Nat) (c : Char) (r : List Char)
    (h : data.drop pos = c :: r) : pos + 1 ≤ data.length := by
  have h1 : (data.drop pos).length = r.length + 1 := by rw [h]; rfl
  rw [List.length_drop] at h1
  omega

/-- The tokenizer at the end of the text: the cursor stays and the token is the end of
input. -/
theorem nextAbbPathToken_at_end (U : QCharTables) (t : AbbPathToken)
    (h : t.data.drop t.curPos = []) :
    nextAbbPathToken U t = (true, { t with type := AbbPathTokenType.abtEOF }) := by
  have h1 := nextAbbPathToken_eof U t [] h (by simp)
  simpa using h1

/-- The tokenizer returns the end of input only with the cursor at the end of the text. -/
theorem eof_only_at_end (U : QCharTables) (t : AbbPathToken)
    (hret : (nextAbbPathToken U t).1 = true)
    (htype : (nextAbbPathToken U t).2.type = AbbPathTokenType.abtEOF) :
    (nextAbbPathToken U t).2.data.drop (nextAbbPathToken U t).2.curPos = [] := by
  unfold nextAbbPathToken at hret htype ⊢
  cases hd : t.data.drop
      (t.curPos + ((t.data.drop t.curPos).takeWhile (isSpace U)).length) with
  | nil => simp only [hd]
  | cons ch r =>
    simp only [hd] at hret htype ⊢
    by_cases h1 : isNumber U ch = true ∨ ch = '+' ∨ ch = '-'
    · rw [if_pos h1] at htype
      simp at htype
    · rw [if_neg h1] at hret htype
      by_cases h2 : ch = ','
      · rw [if_pos h2] at htype
        simp at htype
      · rw [if_neg h2] at hret htype
        by_cases h3 : isLetter U ch = true
        · rw [if_pos h3] at htype
          simp at htype
        · rw [if_neg h3] at hret
          simp at hret

/-- Later calls after the end of input: the same answer each time. -/
theorem iterate_at_end (U : QCharTables) (t : AbbPathToken)
    (h : t.data.drop t.curPos = []) (ht : t.type = AbbPathTokenType.abtEOF) (n : Nat) :
    (fun x => (nextAbbPathToken U x).2)^[n] t = t := by
  induction n with
  | zero => rfl
  | succ n ih =>
    rw [Function.iterate_succ_apply]
    have h1 : (nextAbbPathToken U t).2 = t := by
      rw [nextAbbPathToken_at_end U t h, ← ht]
    rw [h1, ih]

/-- C30. For a cursor within the text, a call of the tokenizer keeps the text, never moves
the cursor back and leaves it within the text; when the call returns true with a number, a
comma or a command, the cursor has moved forward; and once a call has returned the end of
input, every later call returns true with the same token state, the end of input with the
cursor where it was. -/
theorem nextAbbPathToken_cursor (U : QCharTables) (t : AbbPathToken)
    (h : t.curPos ≤ t.data.length) :
    (nextAbbPathToken U t).2.data = t.data ∧
    t.curPos ≤ (nextAbbPathToken U t).2.curPos ∧
    (nextAbbPathToken U t).2.curPos ≤ t.data.length ∧
    ((nextAbbPathToken U t).1 = true →
      ((nextAbbPathToken U t).2.type = AbbPathTokenType.abtNumber ∨
        (nextAbbPathToken U t).2.type = AbbPathTokenType.abtComma ∨
        (nextAbbPathToken U t).2.type = AbbPathTokenType.abtCommand) →
      t.curPos < (nextAbbPathToken U t).2.curPos) ∧
    ((nextAbbPathToken U t).1 = true →
      (nextAbbPathToken U t).2.type = AbbPathTokenType.abtEOF →
      ∀ n, nextAbbPathToken U
          ((fun x => (nextAbbPathToken U x).2)^[n] (nextAbbPathToken U t).2) =
        (true, (nextAbbPathToken U t).2)) := by
  have hsp := takeWhile_length_le_drop (isSpace U) t.data t.curPos h
  refine ⟨?_, ?_, ?_, ?_, ?_⟩
  · unfold nextAbbPathToken
    cases hd : t.data.drop
        (t.curPos + ((t.data.drop t.curPos).takeWhile (isSpace U)).length) with
    | nil => simp only [hd]
    | cons ch r =>
      simp only [hd]
      split_ifs <;> rfl
  · unfold nextAbbPathToken
    cases hd : t.data.drop
        (t.curPos + ((t.data.drop t.curPos).takeWhile (isSpace U)).length) with
    | nil => simp only [hd]; omega
    | cons ch r =>
      simp only [hd]
      split_ifs <;> simp only <;> omega
  · unfold nextAbbPathToken
    cases hd : t.data.drop
        (t.curPos + ((t.data.drop t.curPos).takeWhile (isSpace U)).length) with
    | nil => simp only [hd]; omega
    | cons ch r =>
      have hlt := lt_length_of_drop_cons _ _ _ _ hd
      have hnum := takeWhile_length_le_drop (inNumber U) t.data _ (by omega :
        t.curPos + ((t.data.drop t.curPos).takeWhile (isSpace U)).length ≤ t.data.length)
      rw [hd] at hnum
      simp only [hd]
      split_ifs <;> simp only <;> omega
  · intro hret htype
    unfold nextAbbPathToken at hret htype ⊢
    cases hd : t.data.drop
        (t.curPos + ((t.data.drop t.curPos).takeWhile (isSpace U)).length) with
    | nil =>
      simp only [hd] at htype
      simp at htype
    | cons ch r =>
      simp only [hd] at hret htype ⊢
      by_cases h1 : isNumber U ch = true ∨ ch = '+' ∨ ch = '-'
      · rw [if_pos h1]
        have hpos := takeWhile_length_pos (inNumber U) ch r (inNumber_of_start U ch h1)
        simp only
        omega
      · rw [if_neg h1] at hret ⊢
        by_cases h2 : ch = ','
        · rw [if_pos h2]
          simp only
          omega
        · rw [if_neg h2] at hret ⊢
          by_cases h3 : isLetter U ch = true
          · rw [if_pos h3]
            simp only
            omega
          · rw [if_neg h3] at hret
            simp at hret
  · intro hret htype n
    have hend := eof_only_at_end U t hret htype
    rw [iterate_at_end U _ hend htype n, nextAbbPathToken_at_end U _ hend]
    congr 1
    cases hn : (nextAbbPathToken U t).2 with
    | mk d c ty cm nu =>
      rw [hn] at htype
      simp only at htype
      rw [htype]

theorem nextAbbPathToken_cursor_witness :
    (5 : Nat) ≤ "M 1,2 ".toList.length ∧
    (nextAbbPathToken QCharTables.plain
      ⟨"M 1,2 ".toList, 5, AbbPathTokenType.abtNumber, 'M', 2⟩).2.curPos ≤ 6 ∧
    nextAbbPathToken QCharTables.plain
      ((fun x => (nextAbbPathToken QCharTables.plain x).2)^[2]
        (nextAbbPathToken QCharTables.plain
          ⟨"M 1,2 ".toList, 5, AbbPathTokenType.abtNumber, 'M', 2⟩).2) =
      (true, (nextAbbPathToken QCharTables.plain
          ⟨"M 1,2 ".toList, 5, AbbPathTokenType.abtNumber, 'M', 2⟩).2) :=
  ⟨by decide,
    (nextAbbPathToken_cursor QCharTables.plain
      ⟨"M 1,2 ".toList, 5, AbbPathTokenType.abtNumber, 'M', 2⟩ (by decide)).2.2.1,
    (nextAbbPathToken_cursor QCharTables.plain
      ⟨"M 1,2 ".toList, 5, AbbPathTokenType.abtNumber, 'M', 2⟩ (by decide)).2.2.2.2
      (by decide!) (by decide!) 2⟩

end Xps
